import Mathlib

/-! dailzCache: a verification development.

A shallow embedding of the Go sources of the repository
(`lru/lru.go`, `cache.go`, `byteView.go`, `dailzCache.go`,
`consistentHash/consistentHash.go`, `http.go`) together with theorems about
them.

Conventions of the embedding.

* A Go `string` and a Go `[]byte` are finite byte sequences (`Bytes`).
* A Go object mutated through a pointer becomes an explicit state value that
  every operation takes and returns.
* A Go closure with side effects (the eviction callback of the LRU, the
  backing loader, a remote peer) is a state transformer over the state it
  touches; that state is threaded through the operations that may call it.
* Go `int`/`int64` are `Int`; lengths are `Nat`.  Byte counts of in-memory data
  are far from the 64-bit range, so no wrap-around is modelled for them.
-/

namespace DailzCache

/-- A Go byte sequence: the contents of a `string` or of a `[]byte`. -/
abbrev Bytes := List UInt8

/-! ## `lru/lru.go` -/

namespace lru

/-- `entry` of lru.go: the entity stored in the Cache. -/
structure entry (κ ν : Type) where
  key : κ
  value : ν
deriving DecidableEq, Repr

/-- `Cache` of lru.go.  `list` is the recency list, front (oldest) first, and
`none` when the Go fields `list` and `cache` are nil (after `Clear`).  The Go
index `cache map[Key]*list.Element` maps a key to the element of `list` that
holds it; an element is represented by its position in `list`, and the index
by `index` below.  `onEvicted` is `none` for a nil callback; a callback acts on
a state of type `σ`. -/
structure Cache (κ ν σ : Type) where
  maxEntries : Int
  list : Option (List (entry κ ν))
  onEvicted : Option (κ → ν → σ → σ)

variable {κ ν σ : Type} [DecidableEq κ]

/-- The index lookup `c.cache[key]`: the position of the element holding `key`. -/
def index : List (entry κ ν) → κ → Option Nat
  | [], _ => none
  | e :: es, k => if e.key = k then some 0 else (index es k).map (· + 1)

/-- `New` of lru.go. -/
def New (maxEntries : Int) (onEvicted : Option (κ → ν → σ → σ)) : Cache κ ν σ :=
  { maxEntries := maxEntries, list := some [], onEvicted := onEvicted }

/-- `Cache.Len` of lru.go. -/
def Cache.Len (c : Cache κ ν σ) : Nat :=
  match c.list with
  | none => 0
  | some l => l.length

/-- `Cache.removeElement` of lru.go, on the element at position `i` of the
(non-nil) list `l`: unlink it, delete its key from the index, run the callback. -/
def Cache.removeElement (c : Cache κ ν σ) (l : List (entry κ ν)) (i : Nat) (s : σ) :
    Cache κ ν σ × σ :=
  match l[i]? with
  | none => ({ c with list := some l }, s)
  | some kv =>
    ({ c with list := some (l.eraseIdx i) },
      match c.onEvicted with
      | none => s
      | some cb => cb kv.key kv.value s)

/-- `Cache.RemoveOldest` of lru.go. -/
def Cache.RemoveOldest (c : Cache κ ν σ) (s : σ) : Cache κ ν σ × σ :=
  match c.list with
  | none => (c, s)
  | some l =>
    match l with
    | [] => (c, s)
    | _ :: _ => c.removeElement l 0 s

/-- `Cache.Add` of lru.go. -/
def Cache.Add (c : Cache κ ν σ) (key : κ) (value : ν) (s : σ) : Cache κ ν σ × σ :=
  let l := match c.list with
    | none => []
    | some l => l
  let l1 := match index l key with
    | some i =>
      match l[i]? with
      | some kv => l.eraseIdx i ++ [{ key := kv.key, value := value }]
      | none => l
    | none => l ++ [{ key := key, value := value }]
  let c1 : Cache κ ν σ := { c with list := some l1 }
  if c1.maxEntries ≠ 0 ∧ (c1.Len : Int) > c1.maxEntries then c1.RemoveOldest s else (c1, s)

/-- `Cache.Get` of lru.go: the value (`none` for a miss) and the new cache. -/
def Cache.Get (c : Cache κ ν σ) (key : κ) : Option ν × Cache κ ν σ :=
  match c.list with
  | none => (none, c)
  | some l =>
    match index l key with
    | some i =>
      match l[i]? with
      | some kv => (some kv.value, { c with list := some (l.eraseIdx i ++ [kv]) })
      | none => (none, c)
    | none => (none, c)

/-- `Cache.Remove` of lru.go. -/
def Cache.Remove (c : Cache κ ν σ) (key : κ) (s : σ) : Cache κ ν σ × σ :=
  match c.list with
  | none => (c, s)
  | some l =>
    match index l key with
    | some i => c.removeElement l i s
    | none => (c, s)

/-- `Cache.Clear` of lru.go.  Go ranges over the index map in an unspecified
order; `order` gives the order in which the stored entries are visited. -/
def Cache.Clear (c : Cache κ ν σ) (order : List (entry κ ν) → List (entry κ ν)) (s : σ) :
    Cache κ ν σ × σ :=
  let s1 := match c.onEvicted with
    | none => s
    | some cb =>
      match c.list with
      | none => s
      | some l => (order l).foldl (fun acc kv => cb kv.key kv.value acc) s
  ({ c with list := none }, s1)

/-- A call of one of the methods of `Cache`. -/
inductive Call (κ ν : Type) where
  | Add (key : κ) (value : ν)
  | Get (key : κ)
  | Remove (key : κ)
  | RemoveOldest
  | Clear (order : List (entry κ ν) → List (entry κ ν))

/-- The effect of one call on the cache and on the callback state. -/
def Cache.step (c : Cache κ ν σ) (s : σ) : Call κ ν → Cache κ ν σ × σ
  | .Add k v => c.Add k v s
  | .Get k => ((c.Get k).2, s)
  | .Remove k => c.Remove k s
  | .RemoveOldest => c.RemoveOldest s
  | .Clear order => c.Clear order s

/-- The effect of a sequence of calls, first call first. -/
def Cache.run (c : Cache κ ν σ) (s : σ) : List (Call κ ν) → Cache κ ν σ × σ
  | [] => (c, s)
  | op :: ops => let r := c.step s op; r.1.run r.2 ops

/-- Keys stored in the cache, oldest first. -/
def Cache.keys (c : Cache κ ν σ) : List κ :=
  match c.list with
  | none => []
  | some l => l.map (·.key)

/-- Entries stored in the cache, oldest first. -/
def Cache.entries (c : Cache κ ν σ) : List (entry κ ν) :=
  match c.list with
  | none => []
  | some l => l

/-- The value stored for `k` in a recency list. -/
def lookup (l : List (entry κ ν)) (k : κ) : Option ν :=
  (l.find? (fun e => decide (e.key = k))).map (·.value)

/-- The effect on the callback state of purging the entry `e`: the callback,
when one is registered, is called once with the key and the value of `e`. -/
def fire (cb : Option (κ → ν → σ → σ)) (e : entry κ ν) (s : σ) : σ :=
  match cb with
  | none => s
  | some f => f e.key e.value s

/-- The recency list right after the insertion step of `Add` (the element of
`k`, if any, moved to the back with the new value, else a new element pushed at
the back), before the bound on the number of entries is enforced. -/
def inserted (l : List (entry κ ν)) (k : κ) (v : ν) : List (entry κ ν) :=
  l.eraseP (fun e => decide (e.key = k)) ++ [{ key := k, value := v }]

/-- A call of `Add` or `Get`, the two methods of a cache used as a map. -/
inductive MapCall (κ ν : Type) where
  | Add (key : κ) (value : ν)
  | Get (key : κ)

/-- A map call as a call of the cache. -/
def MapCall.toCall : MapCall κ ν → Call κ ν
  | .Add k v => .Add k v
  | .Get k => .Get k

/-- The finite map of the specification: the value of the most recent `Add`
for a key equal to `k`, and `none` when no such key was ever added. -/
def specMapGet (calls : List (MapCall κ ν)) (k : κ) : Option ν :=
  calls.reverse.findSome? (fun call =>
    match call with
    | .Add k1 v => if k1 = k then some v else none
    | .Get _ => none)

/-- The keys added by a sequence of map calls, in the order of the calls. -/
def addedKeys (calls : List (MapCall κ ν)) : List κ :=
  calls.filterMap (fun call =>
    match call with
    | .Add k1 _ => some k1
    | .Get _ => none)

/-- The representation invariant of the Go structure: the index has one
element per key, so no key occurs twice in the recency list. -/
def Cache.WF (c : Cache κ ν σ) : Prop := c.keys.Nodup

instance (c : Cache κ ν σ) : Decidable c.WF := by
  unfold Cache.WF
  infer_instance

end lru

/-! ## `byteView.go` -/

/-- `ByteView` of byteView.go.  `data` is `none` for a nil slice. -/
structure ByteView where
  data : Option Bytes
  str : Bytes
deriving DecidableEq, Repr

/-- The zero value `ByteView{}`. -/
def ByteView.zero : ByteView := { data := none, str := [] }

/-- `ByteView.Len` of byteView.go. -/
def ByteView.Len (v : ByteView) : Nat :=
  match v.data with
  | some d => d.length
  | none => v.str.length

/-- `cloneBytes` of byteView.go: a fresh (non-nil) slice with the same bytes. -/
def cloneBytes (data : Bytes) : Option Bytes := some data

/-- `ByteView.ByteSlice` of byteView.go: a copy of the contents. -/
def ByteView.ByteSlice (v : ByteView) : Bytes :=
  match v.data with
  | some d => d
  | none => v.str

/-! ## `cache.go` -/

/-- The eviction callback that `cache.add` hands to `lru.New`; it acts on the
`usedBytes` field of the wrapper. -/
def evictCallback (key : Bytes) (value : ByteView) (usedBytes : Int) : Int :=
  usedBytes - ((key.length : Int) + (value.Len : Int))

/-- `cache` of cache.go (the mutex is not modelled: calls are sequential). -/
structure cache where
  usedBytes : Int
  lru : Option (lru.Cache Bytes ByteView Int)
  maxEntries : Int
  hitNum : Int
  getNum : Int
  evictNum : Int

/-- The zero value of `cache`, as placed in a `Group` by `newGroup`. -/
def cache.zero : cache :=
  { usedBytes := 0, lru := none, maxEntries := 0, hitNum := 0, getNum := 0, evictNum := 0 }

/-- `CacheStats` of cache.go. -/
structure CacheStats where
  Bytes : Int
  Items : Int
  Gets : Int
  Hits : Int
  Evictions : Int
deriving DecidableEq, Repr

/-- `cache.itemsLocked` of cache.go. -/
def cache.itemsLocked (c : cache) : Int :=
  match c.lru with
  | none => 0
  | some l => (l.Len : Int)

/-- `cache.stats` of cache.go. -/
def cache.stats (c : cache) : CacheStats :=
  { Bytes := c.usedBytes, Items := c.itemsLocked, Gets := c.getNum, Hits := c.hitNum,
    Evictions := c.evictNum }

/-- `cache.add` of cache.go. -/
def cache.add (c : cache) (key : Bytes) (value : ByteView) : cache :=
  let l := match c.lru with
    | none => lru.New c.maxEntries (some evictCallback)
    | some l => l
  let r := l.Add key value c.usedBytes
  { c with lru := some r.1, usedBytes := r.2 + ((key.length : Int) + (value.Len : Int)) }

/-- `cache.get` of cache.go: the value (`none` for a miss) and the new cache. -/
def cache.get (c : cache) (key : Bytes) : Option ByteView × cache :=
  let c1 := { c with getNum := c.getNum + 1 }
  match c1.lru with
  | none => (none, c1)
  | some l =>
    match l.Get key with
    | (some value, l1) => (some value, { c1 with lru := some l1, hitNum := c1.hitNum + 1 })
    | (none, l1) => (none, { c1 with lru := some l1 })

/-- `cache.removeOldest` of cache.go. -/
def cache.removeOldest (c : cache) : cache :=
  match c.lru with
  | none => c
  | some l =>
    let r := l.RemoveOldest c.usedBytes
    { c with lru := some r.1, usedBytes := r.2 }

/-- `cache.bytes` of cache.go. -/
def cache.bytes (c : cache) : Int := c.usedBytes

/-- Entries stored in the LRU of a byte-bounded cache, oldest first. -/
def cache.entries (c : cache) : List (lru.entry Bytes ByteView) :=
  match c.lru with
  | none => []
  | some l => l.entries

/-- The sum over the stored entries of `len(key) + value.Len()`. -/
def cache.liveBytes (c : cache) : Int :=
  (c.entries.map (fun e => (e.key.length : Int) + (e.value.Len : Int))).sum

/-- The sum over the entries `l` of `len(key) + value.Len()`: what they take of
the byte budget. -/
def entriesBytes (l : List (lru.entry Bytes ByteView)) : Int :=
  (l.map (fun e => (e.key.length : Int) + (e.value.Len : Int))).sum

/-- What holds of a sub-cache of a group at all times: `maxEntries` is never
assigned, so it has its zero value, and the LRU, once `add` has created it,
has that bound and the callback that `add` registers. -/
def cache.WF (c : cache) : Prop :=
  c.maxEntries = 0 ∧ ∀ l, c.lru = some l → l.maxEntries = 0 ∧ l.onEvicted = some evictCallback

/-- The byte accounting of a cache is accurate: the used bytes are the sum
over the stored entries of `len(key) + value.Len()`. -/
def cache.Accurate (c : cache) : Prop := c.usedBytes = c.liveBytes

instance (c : cache) : Decidable c.Accurate := by
  unfold cache.Accurate
  infer_instance

/-- A call of `add` or `removeOldest` on a byte-bounded cache. -/
inductive CacheCall where
  | add (key : Bytes) (value : ByteView)
  | removeOldest

/-- The effect of one call on a byte-bounded cache. -/
def cache.step (c : cache) : CacheCall → cache
  | .add k v => c.add k v
  | .removeOldest => c.removeOldest

/-- The effect of a sequence of calls, first call first. -/
def cache.run (c : cache) (ops : List CacheCall) : cache := ops.foldl cache.step c

/-! ## `dailzCache.go` -/

/-- `Stats` of dailzCache.go; an `AtomicInt` is an integer counter and
`Add(1)` adds one to it. -/
structure Stats where
  Gets : Int
  CacheHits : Int
  PeerLoads : Int
  PeerErrors : Int
  Loads : Int
  LoadsDeduped : Int
  LocalLoads : Int
  LocalLoadErrs : Int
  ServerRequests : Int
deriving DecidableEq, Repr

/-- The zero value of `Stats`. -/
def Stats.zero : Stats :=
  { Gets := 0, CacheHits := 0, PeerLoads := 0, PeerErrors := 0, Loads := 0, LoadsDeduped := 0,
    LocalLoads := 0, LocalLoadErrs := 0, ServerRequests := 0 }

/-- A `Getter` of dailzCache.go: `Get(key) ([]byte, error)`, a call that may
read and change the state `ω` of the world outside the group. -/
abbrev Getter (ω ε : Type) := Bytes → ω → Except ε Bytes × ω

/-- Modelled from the spec: the peer handle `ProtoGetter`, whose declaration is
not among the sources ("A peer (transport handle) exposes
`Get(GetRequest{group, key}, *GetResponse) → error`. The response carries the
raw bytes").  The arguments are the group name and the key; the result is the
error or the `Value` of the response (`none` for a nil slice). -/
abbrev ProtoGetter (ω ε : Type) := Bytes → Bytes → ω → Except ε (Option Bytes) × ω

/-- Modelled from the spec: the `PeerPicker` interface, whose declaration is
not among the sources ("A peer picker exposes `PickPeer(key) → (peer,
isRemote)`").  `some peer` stands for `(peer, true)`, `none` for a second
result `false`. -/
abbrev PeerPicker (ω ε : Type) := Bytes → Option (ProtoGetter ω ε)

/-- `Group` of dailzCache.go.  `peers` is the picker in force after the
one-shot `initPeers`; the single-flight gate holds no state between
sequential calls. -/
structure Group (ω ε : Type) where
  name : Bytes
  getter : Getter ω ε
  cacheBytes : Int
  mainCache : cache
  hotCache : cache
  peers : PeerPicker ω ε
  Stats : Stats

/-- Modelled from the spec: `singleFlight.Group.Do`, whose package is not among
the sources ("Otherwise register a new in-progress call, invoke `fn`
synchronously, store the result, wake all waiters, delete the registry entry,
and return").  With sequential callers no call is ever in progress, so `Do`
returns what `fn` returns. -/
def singleFlight.Do {α : Type} (_key : Bytes) (fn : α) : α := fn

variable {ω ε : Type}

/-- The `Group` value built by `newGroup` of dailzCache.go. -/
def Group.init (name : Bytes) (cacheBytes : Int) (getter : Getter ω ε) (peers : PeerPicker ω ε) :
    Group ω ε :=
  { name := name, getter := getter, cacheBytes := cacheBytes, mainCache := cache.zero,
    hotCache := cache.zero, peers := peers, Stats := Stats.zero }

/-- The sub-cache a `*cache` argument points to. -/
inductive Target where
  | main
  | hot
deriving DecidableEq, Repr

/-- The sub-cache of the group that a target points to. -/
def Group.sub (g : Group ω ε) : Target → cache
  | .main => g.mainCache
  | .hot => g.hotCache

/-- What holds of the two sub-caches of a group at all times (see `cache.WF`). -/
def Group.WF (g : Group ω ε) : Prop := g.mainCache.WF ∧ g.hotCache.WF

/-- The group with its statistics changed by `f`; `g.count Stats.incGets` is
the effect of `g.Stats.Gets.Add(1)`, and so on for the other counters. -/
def Group.count (g : Group ω ε) (f : DailzCache.Stats → DailzCache.Stats) : Group ω ε :=
  { g with Stats := f g.Stats }

/-- The group with a new state of its main cache. -/
def Group.setMain (g : Group ω ε) (c : cache) : Group ω ε := { g with mainCache := c }

/-- The group with a new state of its hot cache. -/
def Group.setHot (g : Group ω ε) (c : cache) : Group ω ε := { g with hotCache := c }

/-- `Gets.Add(1)`. -/
def Stats.incGets (s : Stats) : Stats := { s with Gets := s.Gets + 1 }

/-- `CacheHits.Add(1)`. -/
def Stats.incCacheHits (s : Stats) : Stats := { s with CacheHits := s.CacheHits + 1 }

/-- `PeerLoads.Add(1)`. -/
def Stats.incPeerLoads (s : Stats) : Stats := { s with PeerLoads := s.PeerLoads + 1 }

/-- `PeerErrors.Add(1)`. -/
def Stats.incPeerErrors (s : Stats) : Stats := { s with PeerErrors := s.PeerErrors + 1 }

/-- `Loads.Add(1)`. -/
def Stats.incLoads (s : Stats) : Stats := { s with Loads := s.Loads + 1 }

/-- `LoadsDeduped.Add(1)`. -/
def Stats.incLoadsDeduped (s : Stats) : Stats := { s with LoadsDeduped := s.LoadsDeduped + 1 }

/-- `LocalLoads.Add(1)`. -/
def Stats.incLocalLoads (s : Stats) : Stats := { s with LocalLoads := s.LocalLoads + 1 }

/-- `LocalLoadErrs.Add(1)`. -/
def Stats.incLocalLoadErrs (s : Stats) : Stats := { s with LocalLoadErrs := s.LocalLoadErrs + 1 }

/-- `Group.lookupCache` of dailzCache.go. -/
def Group.lookupCache (g : Group ω ε) (key : Bytes) : Option ByteView × Group ω ε :=
  if g.cacheBytes ≤ 0 then (none, g)
  else
    match g.mainCache.get key with
    | (some value, m) => (some value, g.setMain m)
    | (none, m) =>
      let g1 := g.setMain m
      let r := g1.hotCache.get key
      (r.1, g1.setHot r.2)

/-- `Group.getLocally` of dailzCache.go. -/
def Group.getLocally (g : Group ω ε) (key : Bytes) (w : ω) : Except ε ByteView × ω :=
  match g.getter key w with
  | (.error err, w1) => (.error err, w1)
  | (.ok bytes, w1) => (.ok { data := cloneBytes bytes, str := [] }, w1)

/-- The `for` loop of `Group.populateCache`.  `fuel` bounds the number of
iterations; `none` means the loop has not returned within `fuel` iterations. -/
def Group.evictLoop : Nat → Group ω ε → Option (Group ω ε)
  | 0, _ => none
  | fuel + 1, g =>
    let mainBytes := g.mainCache.bytes
    let hotBytes := g.hotCache.bytes
    if mainBytes + hotBytes ≤ g.cacheBytes then some g
    else if hotBytes > Int.tdiv mainBytes 8 then
      Group.evictLoop fuel (g.setHot g.hotCache.removeOldest)
    else
      Group.evictLoop fuel (g.setMain g.mainCache.removeOldest)

/-- `Group.populateCache` of dailzCache.go. -/
def Group.populateCache (fuel : Nat) (g : Group ω ε) (key : Bytes) (value : ByteView)
    (target : Target) : Option (Group ω ε) :=
  if g.cacheBytes ≤ 0 then some g
  else
    let g1 : Group ω ε := match target with
      | .main => g.setMain (g.mainCache.add key value)
      | .hot => g.setHot (g.hotCache.add key value)
    Group.evictLoop fuel g1

/-- `Group.getFromPeer` of dailzCache.go.  `draw` is the value of
`rand.Intn(10)` should it be called. -/
def Group.getFromPeer (fuel : Nat) (g : Group ω ε) (key : Bytes) (peer : ProtoGetter ω ε)
    (draw : Nat) (w : ω) : Option (Except ε ByteView × Group ω ε × ω) :=
  match peer g.name key w with
  | (.error err, w1) => some (.error err, g, w1)
  | (.ok resValue, w1) =>
    let value : ByteView := { data := resValue, str := [] }
    if draw = 0 then
      (g.populateCache fuel key value .hot).map (fun g1 => (.ok value, g1, w1))
    else some (.ok value, g, w1)

/-- The local part of the function that `Group.load` hands to the single-flight
gate: `getLocally`, then the counters and `populateCache` into the main cache. -/
def Group.loadLocally (fuel : Nat) (g : Group ω ε) (key : Bytes) (w : ω) :
    Option ((ByteView × Option ε) × Group ω ε × ω) :=
  match g.getLocally key w with
  | (.error err, w1) => some ((ByteView.zero, some err), g.count Stats.incLocalLoadErrs, w1)
  | (.ok value, w1) =>
    let g1 := g.count Stats.incLocalLoads
    (g1.populateCache fuel key value .main).map (fun g2 => ((value, none), g2, w1))

/-- The function that `Group.load` hands to the single-flight gate. -/
def Group.loadFn (fuel : Nat) (g : Group ω ε) (key : Bytes) (draw : Nat) (w : ω) :
    Option ((ByteView × Option ε) × Group ω ε × ω) :=
  match g.lookupCache key with
  | (some value, g1) => some ((value, none), g1.count Stats.incCacheHits, w)
  | (none, g1) =>
    let g2 := g1.count Stats.incLoadsDeduped
    match g2.peers key with
    | some peer =>
      match g2.getFromPeer fuel key peer draw w with
      | none => none
      | some (.ok value, g3, w1) => some ((value, none), g3.count Stats.incPeerLoads, w1)
      | some (.error _, g3, w1) => (g3.count Stats.incPeerErrors).loadLocally fuel key w1
    | none => g2.loadLocally fuel key w

/-- `Group.load` of dailzCache.go. -/
def Group.load (fuel : Nat) (g : Group ω ε) (key : Bytes) (draw : Nat) (w : ω) :
    Option ((ByteView × Option ε) × Group ω ε × ω) :=
  let g1 := g.count Stats.incLoads
  match singleFlight.Do key (g1.loadFn fuel key draw w) with
  | none => none
  | some ((view, none), g2, w1) => some ((view, none), g2, w1)
  | some ((_, some err), g2, w1) => some ((ByteView.zero, some err), g2, w1)

/-- `Group.Get` of dailzCache.go: the returned pair, the new state of the
group and of the outside world; `none` when the eviction loop of
`populateCache` has not returned within `fuel` iterations. -/
def Group.Get (fuel : Nat) (g : Group ω ε) (key : Bytes) (draw : Nat) (w : ω) :
    Option ((ByteView × Option ε) × Group ω ε × ω) :=
  let g1 := g.count Stats.incGets
  match g1.lookupCache key with
  | (some value, g2) => some ((value, none), g2, w)
  | (none, g2) =>
    match g2.load fuel key draw w with
    | none => none
    | some ((_, some err), g3, w1) => some ((ByteView.zero, some err), g3, w1)
    | some ((value, none), g3, w1) => some ((value, none), g3, w1)

/-- The state of a sub-cache after a `get` that misses, when `count` holds,
and the sub-cache itself otherwise. -/
def cache.missed (count : Bool) (c : cache) : cache :=
  if count then { c with getNum := c.getNum + 1 } else c

/-- The group after a `lookupCache` that misses in both sub-caches: each
sub-cache has counted one more `get`, unless caching is disabled. -/
def Group.afterMiss (g : Group ω ε) : Group ω ε :=
  (g.setMain (g.mainCache.missed (decide (0 < g.cacheBytes)))).setHot
    (g.hotCache.missed (decide (0 < g.cacheBytes)))

/-- The group at the point where a `Get` that misses both sub-caches and is
given no remote peer calls `getLocally`: after the counters `Gets`, `Loads`
and `LoadsDeduped` and the two missed lookups. -/
def Group.preLocal (g : Group ω ε) : Group ω ε :=
  ((((g.count Stats.incGets).afterMiss).count Stats.incLoads).afterMiss).count
    Stats.incLoadsDeduped

/-- The group `g1` differs from `g` at most in its statistics: same sub-caches,
budget, loader, picker and name. -/
def Group.sameStore (g g1 : Group ω ε) : Prop :=
  g1.mainCache = g.mainCache ∧ g1.hotCache = g.hotCache ∧ g1.cacheBytes = g.cacheBytes ∧
    g1.getter = g.getter ∧ g1.peers = g.peers ∧ g1.name = g.name

/-- A call of `Group.Get`: the key, the value `rand.Intn(10)` returns should it
be called, and the bound on the iterations of the eviction loop. -/
structure GetCall where
  fuel : Nat
  key : Bytes
  draw : Nat
deriving DecidableEq, Repr

/-- The effect of a sequence of sequential `Get` calls, first call first, on
the group and on the outside world. -/
def Group.runGets (g : Group ω ε) (w : ω) : List GetCall → Option (Group ω ε × ω)
  | [] => some (g, w)
  | c :: cs =>
    match g.Get c.fuel c.key c.draw w with
    | none => none
    | some r => r.2.1.runGets r.2.2 cs

/-- The group after the call `cache.add(key, value)` of `Group.populateCache`,
on the sub-cache that the argument `cache` points to. -/
def Group.addTo (g : Group ω ε) (target : Target) (key : Bytes) (value : ByteView) : Group ω ε :=
  match target with
  | .main => g.setMain (g.mainCache.add key value)
  | .hot => g.setHot (g.hotCache.add key value)

/-- The victim that one iteration of the loop of `Group.populateCache` picks:
`victim := &g.mainCache; if hotBytes > mainBytes/8 { victim = &g.hotCache }`. -/
def Group.victim (g : Group ω ε) : Target :=
  if g.hotCache.bytes > Int.tdiv g.mainCache.bytes 8 then .hot else .main

/-- One iteration of the loop of `Group.populateCache` past the budget test:
`victim.removeOldest()`. -/
def Group.evictOne (g : Group ω ε) : Group ω ε :=
  match g.victim with
  | .hot => g.setHot g.hotCache.removeOldest
  | .main => g.setMain g.mainCache.removeOldest

/-- The number of entries stored in the two sub-caches of the group. -/
def Group.stored (g : Group ω ε) : Nat := g.mainCache.entries.length + g.hotCache.entries.length

/-- What holds of a group in every state that sequential `Get` calls reach from
a new group: the sub-caches are as `cache.add` builds them, their byte
accounting is accurate, and no key is stored in both of them. -/
def Group.Inv (g : Group ω ε) : Prop :=
  g.WF ∧ g.mainCache.Accurate ∧ g.hotCache.Accurate ∧
    ∀ k, k ∈ g.mainCache.entries.map (·.key) → k ∉ g.hotCache.entries.map (·.key)

/-- The process-wide registry `groups` of dailzCache.go, a `map[string]*Group`:
`none` for a name without entry.  A registered group stands for the `Group`
object that `newGroup` has built. -/
abbrev Registry (ω ε : Type) := Bytes → Option (Group ω ε)

/-- The registry at process start: `make(map[string]*Group)`. -/
def Registry.empty : Registry ω ε := fun _ => none

/-- The fatal failures (`panic`) of `newGroup`. -/
inductive Panic where
  | nilGetter
  | duplicateRegistration (name : Bytes)
deriving DecidableEq, Repr

/-- `newGroup` of dailzCache.go: the group or the panic, and the registry after
the call.  Modelled from the spec: `GetPeers`, which is not among the sources
("the factory is invoked lazily by a Group's first Get when no picker was
explicitly registered on that Group"): `getPeers name` is the picker that
`initPeers` installs when `peers` is nil, and the group carries it from the
start. -/
def newGroup (getPeers : Bytes → PeerPicker ω ε) (groups : Registry ω ε) (name : Bytes)
    (cacheBytes : Int) (getter : Option (Getter ω ε)) (peers : Option (PeerPicker ω ε)) :
    Except Panic (Group ω ε) × Registry ω ε :=
  match getter with
  | none => (.error .nilGetter, groups)
  | some getter =>
    match groups name with
    | some _ => (.error (.duplicateRegistration name), groups)
    | none =>
      let g := Group.init name cacheBytes getter
        (match peers with
          | some picker => picker
          | none => getPeers name)
      (.ok g, fun n => if n = name then some g else groups n)

/-- `NewGroup` of dailzCache.go. -/
def NewGroup (getPeers : Bytes → PeerPicker ω ε) (groups : Registry ω ε) (name : Bytes)
    (cacheBytes : Int) (getter : Option (Getter ω ε)) :
    Except Panic (Group ω ε) × Registry ω ε :=
  newGroup getPeers groups name cacheBytes getter none

/-- `GetGroup` of dailzCache.go. -/
def GetGroup (groups : Registry ω ε) (name : Bytes) : Option (Group ω ε) := groups name

/-- A call of `NewGroup`: its arguments. -/
structure NewGroupCall (ω ε : Type) where
  name : Bytes
  cacheBytes : Int
  getter : Option (Getter ω ε)

/-- The registry after a sequence of `NewGroup` calls, first call first. -/
def registerAll (getPeers : Bytes → PeerPicker ω ε) (groups : Registry ω ε)
    (calls : List (NewGroupCall ω ε)) : Registry ω ε :=
  calls.foldl (fun r c => (NewGroup getPeers r c.name c.cacheBytes c.getter).2) groups

/-! ### Concrete values used in the examples -/

/-- The key `"a"`. -/
def keyA : Bytes := [97]

/-- The key `"b"`. -/
def keyB : Bytes := [98]

/-- A view of the one byte `"x"`. -/
def viewX : ByteView := { data := some [120], str := [] }

/-- A loader over a world that counts the loader calls: it fails on the key
`"b"` and returns fifteen bytes on every other key. -/
def countingGetter : Getter Nat String := fun key w =>
  if key = keyB then (.error "b not exist", w + 1)
  else (.ok [48, 49, 50, 51, 52, 53, 54, 55, 56, 57, 48, 49, 50, 51, 52], w + 1)

/-- A peer that answers every request with the one byte `"x"`. -/
def peerX : ProtoGetter Nat String := fun _ _ w => (.ok (some [120]), w)

/-- A picker that routes the key `"a"` to `peerX` and owns every other key. -/
def pickerA : PeerPicker Nat String := fun key => if key = keyA then some peerX else none

/-- A new group with a budget of 16 bytes. -/
def group16 : Group Nat String := Group.init [103] 16 countingGetter pickerA

/-- The key `"k"`. -/
def keyK : Bytes := [107]

/-- The key `"c"`. -/
def keyC : Bytes := [99]

/-- The fifteen bytes that `countingGetter` returns. -/
def bytes15 : Bytes := [48, 49, 50, 51, 52, 53, 54, 55, 56, 57, 48, 49, 50, 51, 52]

/-- The group `group16` after a `Get` of the key `"a"` that is answered by the
peer and sampled into the hot cache (the random draw is 0). -/
def group16Hot : Group Nat String :=
  match group16.Get 3 keyA 0 0 with
  | some r => r.2.1
  | none => group16

/-- The group `group16` after a `Get` of the key `"k"`, loaded locally and
stored in the main cache, where its entry takes the 16 bytes of the budget. -/
def group16Main : Group Nat String :=
  match group16.Get 1 keyK 0 0 with
  | some r => r.2.1
  | none => group16

/-- A peer whose `Get` fails on every request. -/
def peerDown : ProtoGetter Nat String := fun _ _ w => (.error "down", w)

/-- A picker that routes every key to `peerDown`. -/
def pickerDown : PeerPicker Nat String := fun _ => some peerDown

/-- A new group with a budget of 0 bytes behind `pickerDown`. -/
def group0Down : Group Nat String := Group.init [103] 0 countingGetter pickerDown

/-- A new group with a budget of 16 bytes behind `pickerDown`. -/
def group16Down : Group Nat String := Group.init [103] 16 countingGetter pickerDown

/-- A group with a budget of 6 bytes whose main cache holds the key `"a"`. -/
def group6 : Group Unit Unit :=
  { Group.init [103] 6 (fun _ w => (.ok [], w)) (fun _ => none) with
    mainCache := cache.zero.add keyA viewX }

/-! ## `consistentHash/consistentHash.go` -/

namespace consistentHash

/-- `Hash` of consistentHash.go: `func(data []byte) uint32`.  The result of a
hash function is read modulo `2^32` (see `toInt`). -/
abbrev Hash := Bytes → Nat

/-- The conversion `int(h)` of a `uint32` hash value `h`, with `int` of 64
bits: the value of `h` itself, never negative. -/
def toInt (h : Nat) : Int := ((h % 4294967296 : Nat) : Int)

/-- `Map` of consistentHash.go.  `hashMap` gives `none` for an absent key. -/
structure Map where
  hash : Hash
  replicas : Int
  keys : List Int
  hashMap : Int → Option Bytes

/-- `New` of consistentHash.go.  `checksumIEEE` stands for the library function
`crc32.ChecksumIEEE`, the default when `fn` is nil. -/
def New (checksumIEEE : Hash) (replicas : Int) (fn : Option Hash) : Map :=
  { hash := match fn with
      | some f => f
      | none => checksumIEEE,
    replicas := replicas, keys := [], hashMap := fun _ => none }

/-- `Map.IsEmpty` of consistentHash.go. -/
def Map.IsEmpty (m : Map) : Bool := m.keys.length == 0

/-- The library function `strconv.Itoa`: the decimal form of an integer. -/
def Itoa (i : Int) : Bytes :=
  let digits := (Nat.toDigits 10 i.natAbs).map (fun c => c.toNat.toUInt8)
  if i < 0 then 45 :: digits else digits

/-- One iteration of the inner loop of `Map.Add`, for the id `key` and the
replica number `i`. -/
def Map.addReplica (key : Bytes) (m : Map) (i : Nat) : Map :=
  let hash := toInt (m.hash (Itoa (i : Int) ++ key))
  { m with keys := m.keys ++ [hash],
           hashMap := fun p => if p = hash then some key else m.hashMap p }

/-- The inner loop of `Map.Add`: `for i := 0; i < m.replicas; i++`. -/
def Map.addKey (m : Map) (key : Bytes) : Map :=
  (List.range m.replicas.toNat).foldl (Map.addReplica key) m

/-- The library function `sort.Ints`: the ascending rearrangement. -/
def sortInts (xs : List Int) : List Int := xs.insertionSort (· ≤ ·)

/-- `Map.Add` of consistentHash.go. -/
def Map.Add (m : Map) (keys : List Bytes) : Map :=
  let m1 := keys.foldl Map.addKey m
  { m1 with keys := sortInts m1.keys }

/-- The loop of the library function `sort.Search`, on the bounds `i` and `j`.
Each iteration shrinks `j - i`, so `j - i` iterations of `fuel` are enough. -/
def searchLoop (f : Nat → Bool) : Nat → Nat → Nat → Nat
  | 0, i, _ => i
  | fuel + 1, i, j =>
    if i < j then
      let h := (i + j) / 2
      if !f h then searchLoop f fuel (h + 1) j else searchLoop f fuel i h
    else i

/-- The library function `sort.Search`. -/
def Search (n : Nat) (f : Nat → Bool) : Nat := searchLoop f n 0 n

/-- `Map.Get` of consistentHash.go. -/
def Map.Get (m : Map) (key : Bytes) : Bytes :=
  if m.IsEmpty then []
  else
    let hash := toInt (m.hash key)
    let index := Search m.keys.length (fun i => decide (m.keys.getD i 0 ≥ hash))
    let index := if index = m.keys.length then 0 else index
    (m.hashMap (m.keys.getD index 0)).getD []

/-- The ring after a sequence of `Add` calls, first call first. -/
def Map.addAll (m : Map) (calls : List (List Bytes)) : Map := calls.foldl Map.Add m

/-- The owner of a key as the specification words it: the empty id on a ring
without positions; otherwise the id mapped to the smallest position that is at
least the hash of the key, or to the smallest position of the ring when there
is no such position. -/
def Map.specGet (m : Map) (key : Bytes) : Bytes :=
  match m.keys.min? with
  | none => []
  | some least =>
    match (m.keys.filter (fun p => decide (toInt (m.hash key) ≤ p))).min? with
    | some p => (m.hashMap p).getD []
    | none => (m.hashMap least).getD []

/-- The positions that `Add` computes for the id `id`:
`hash(bytes(decimal(i) ++ id))` for `i` in `[0, replicas)`, in that order. -/
def Map.positionsOf (m : Map) (id : Bytes) : List Int :=
  (List.range m.replicas.toNat).map (fun (i : Nat) => toInt (m.hash (Itoa (i : Int) ++ id)))

/-- The entry of the position-to-id map at `p` once the ids `ids` have been
added in that order to the ring `m`: the last of them that has `p` among its
positions, and the entry of `m` when there is none. -/
def Map.ownerAfter (m : Map) (ids : List Bytes) (p : Int) : Option Bytes :=
  match ids.reverse.find? (fun id => decide (p ∈ m.positionsOf id)) with
  | some id => some id
  | none => m.hashMap p

end consistentHash


/-! ## `http.go` -/

/-- `HTTPPoolOptions` of http.go. -/
structure HTTPPoolOptions where
  BasePath : Bytes
  Replicas : Int
  HashFn : Option consistentHash.Hash

/-- `httpGetter` of http.go. -/
structure httpGetter where
  baseURL : Bytes
deriving DecidableEq, Repr

/-- `HTTPPool` of http.go (the mutex is not modelled: calls are sequential).
`httpGetters` gives `none`, the nil pointer, for an absent key. -/
structure HTTPPool where
  self : Bytes
  opts : HTTPPoolOptions
  peers : consistentHash.Map
  httpGetters : Bytes → Option httpGetter

/-- `HTTPPool.Set` of http.go. -/
def HTTPPool.Set (p : HTTPPool) (peers : List Bytes) : HTTPPool :=
  { p with
    peers := p.peers.Add peers
    httpGetters := fun peer =>
      if peer ∈ peers then some { baseURL := peer ++ p.opts.BasePath } else none }

/-- `HTTPPool.PickPeer` of http.go: the handle (`none` for nil) and the flag. -/
def HTTPPool.PickPeer (p : HTTPPool) (key : Bytes) : Option httpGetter × Bool :=
  if p.peers.IsEmpty then (none, false)
  else
    let peer := p.peers.Get key
    if peer ≠ p.self then (p.httpGetters peer, true) else (none, false)

/-- `defaultBasePath` of http.go: `"/_daiCache/"`. -/
def defaultBasePath : Bytes := [47, 95, 100, 97, 105, 67, 97, 99, 104, 101, 47]

/-- `defaultReplicas` of http.go. -/
def defaultReplicas : Int := 50

/-- `NewHTTPPoolOpts` of http.go: the pool or the panic, and the flag
`httpPoolMade` after the call.  `checksumIEEE` stands for the library function
`crc32.ChecksumIEEE`; `opts` is `none` for a nil pointer.  The call of
`RegisterPeerPicker`, whose declaration is not among the sources, hands the pool
to the groups as their picker and does not act on the pool. -/
def NewHTTPPoolOpts (checksumIEEE : consistentHash.Hash) (httpPoolMade : Bool) (self : Bytes)
    (opts : Option HTTPPoolOptions) : Except String HTTPPool × Bool :=
  if httpPoolMade then (.error "daiCache: NewHTTPPool must be called only once", httpPoolMade)
  else
    let o0 : HTTPPoolOptions := match opts with
      | some o => o
      | none => { BasePath := [], Replicas := 0, HashFn := none }
    let o1 : HTTPPoolOptions := if o0.BasePath = [] then { o0 with BasePath := defaultBasePath } else o0
    let o2 : HTTPPoolOptions := if o1.Replicas = 0 then { o1 with Replicas := defaultReplicas } else o1
    (.ok { self := self, opts := o2,
           peers := consistentHash.New checksumIEEE o2.Replicas o2.HashFn,
           httpGetters := fun _ => none }, true)

/-- The pool after a sequence of `Set` calls, first call first. -/
def HTTPPool.setAll (p : HTTPPool) (calls : List (List Bytes)) : HTTPPool :=
  calls.foldl HTTPPool.Set p

/-- A hash function for the examples: the second byte of the data. -/
def secondByte : consistentHash.Hash := fun b => (b.getD 1 0).toNat

/-- Options for the examples: the base path `"/"`, one replica, and the hash
function `secondByte`. -/
def optsExample : HTTPPoolOptions := { BasePath := [47], Replicas := 1, HashFn := some secondByte }

/-! Theorems -/

/-! ## The LRU cache: normal forms of the operations -/

namespace lru

variable {κ ν σ : Type} [DecidableEq κ]

theorem index_eq_none_iff (l : List (entry κ ν)) (k : κ) :
    index l k = none ↔ ∀ e ∈ l, e.key ≠ k := by
  induction l with
  | nil => simp [index]
  | cons a l ih =>
    by_cases h : a.key = k
    · simp [index, h]
    · simp [index, h, ih]

theorem index_eq_some {l : List (entry κ ν)} {k : κ} {i : Nat} (h : index l k = some i) :
    ∃ kv, l[i]? = some kv ∧ kv.key = k ∧ i < l.length ∧
      l.eraseIdx i = l.eraseP (fun e => decide (e.key = k)) ∧
      l.find? (fun e => decide (e.key = k)) = some kv := by
  induction l generalizing i with
  | nil => simp [index] at h
  | cons a l ih =>
    by_cases hk : a.key = k
    · simp [index, hk] at h
      subst h
      exact ⟨a, by simp, hk, by simp, by simp [hk], by simp [hk]⟩
    · simp only [index, hk, if_false, Option.map_eq_some'] at h
      obtain ⟨j, hj, rfl⟩ := h
      obtain ⟨kv, h1, h2, h3, h4, h5⟩ := ih hj
      refine ⟨kv, by simpa using h1, h2, by simpa using h3, ?_, ?_⟩
      · simp [List.eraseP_cons, hk, h4]
      · simp [List.find?_cons, hk, h5]

theorem find_none_of_index_none {l : List (entry κ ν)} {k : κ} (h : index l k = none) :
    l.find? (fun e => decide (e.key = k)) = none := by
  rw [index_eq_none_iff] at h
  simpa using h

theorem Get_eq (c : Cache κ ν σ) (k : κ) :
    c.Get k =
      match c.list with
      | none => (none, c)
      | some l =>
        match l.find? (fun e => decide (e.key = k)) with
        | some kv =>
          (some kv.value, { c with list := some (l.eraseP (fun e => decide (e.key = k)) ++ [kv]) })
        | none => (none, c) := by
  unfold Cache.Get
  cases hl : c.list with
  | none => rfl
  | some l =>
    simp only
    cases hi : index l k with
    | none => simp [find_none_of_index_none hi]
    | some i =>
      obtain ⟨kv, h1, _, _, h4, h5⟩ := index_eq_some hi
      simp [h1, h4, h5]

theorem Get_fst (c : Cache κ ν σ) (k : κ) : (c.Get k).1 = lookup c.entries k := by
  rw [Get_eq]
  unfold Cache.entries lookup
  cases c.list with
  | none => rfl
  | some l =>
    simp only
    cases l.find? (fun e => decide (e.key = k)) <;> rfl

omit [DecidableEq κ] in
theorem removeElement_eq (c : Cache κ ν σ) (l : List (entry κ ν)) (i : Nat) (s : σ)
    (kv : entry κ ν) (h : l[i]? = some kv) :
    c.removeElement l i s = ({ c with list := some (l.eraseIdx i) }, fire c.onEvicted kv s) := by
  unfold Cache.removeElement fire
  simp only [h]

omit [DecidableEq κ] in
theorem RemoveOldest_eq (c : Cache κ ν σ) (s : σ) :
    c.RemoveOldest s =
      match c.list with
      | some (e :: t) => ({ c with list := some t }, fire c.onEvicted e s)
      | _ => (c, s) := by
  unfold Cache.RemoveOldest
  cases hl : c.list with
  | none => rfl
  | some l =>
    cases l with
    | nil => rfl
    | cons e t => simp only; rw [removeElement_eq c (e :: t) 0 s e (by simp)]; simp

theorem Remove_eq (c : Cache κ ν σ) (k : κ) (s : σ) :
    c.Remove k s =
      match c.list with
      | none => (c, s)
      | some l =>
        match l.find? (fun e => decide (e.key = k)) with
        | some kv =>
          ({ c with list := some (l.eraseP (fun e => decide (e.key = k))) },
            fire c.onEvicted kv s)
        | none => (c, s) := by
  unfold Cache.Remove
  cases hl : c.list with
  | none => rfl
  | some l =>
    simp only
    cases hi : index l k with
    | none => simp [find_none_of_index_none hi]
    | some i =>
      obtain ⟨kv, h1, _, _, h4, h5⟩ := index_eq_some hi
      simp only [h5]
      rw [removeElement_eq c l i s kv h1, h4]

omit [DecidableEq κ] in
theorem Add_aux (c : Cache κ ν σ) (l1 : List (entry κ ν)) (d : entry κ ν) (s : σ)
    (hne : l1 ≠ []) :
    (if ({ c with list := some l1 } : Cache κ ν σ).maxEntries ≠ 0 ∧
        ((({ c with list := some l1 } : Cache κ ν σ).Len : Nat) : Int) >
          ({ c with list := some l1 } : Cache κ ν σ).maxEntries
      then ({ c with list := some l1 } : Cache κ ν σ).RemoveOldest s
      else (({ c with list := some l1 } : Cache κ ν σ), s)) =
      if c.maxEntries ≠ 0 ∧ (l1.length : Int) > c.maxEntries then
        ({ c with list := some l1.tail }, fire c.onEvicted (l1.headD d) s)
      else ({ c with list := some l1 }, s) := by
  cases l1 with
  | nil => exact absurd rfl hne
  | cons e t => simp [Cache.Len, RemoveOldest_eq]

theorem Add_eq (c : Cache κ ν σ) (k : κ) (v : ν) (s : σ) :
    c.Add k v s =
      if c.maxEntries ≠ 0 ∧ ((inserted c.entries k v).length : Int) > c.maxEntries then
        ({ c with list := some (inserted c.entries k v).tail },
          fire c.onEvicted ((inserted c.entries k v).headD { key := k, value := v }) s)
      else ({ c with list := some (inserted c.entries k v) }, s) := by
  have hne : ∀ l : List (entry κ ν), inserted l k v ≠ [] := by intro l; simp [inserted]
  have key : ∀ l : List (entry κ ν), c.entries = l →
      (match index l k with
      | some i =>
        match l[i]? with
        | some kv => l.eraseIdx i ++ [{ key := kv.key, value := v }]
        | none => l
      | none => l ++ [{ key := k, value := v }]) = inserted c.entries k v := by
    intro l hl
    rw [hl]
    unfold inserted
    cases hi : index l k with
    | none =>
      have := (index_eq_none_iff _ _).1 hi
      simp only
      rw [List.eraseP_of_forall_not]
      simpa using this
    | some i =>
      obtain ⟨kv, h1, h2, _, h4, _⟩ := index_eq_some hi
      simp only [h1, h4, h2]
  rw [← Add_aux c (inserted c.entries k v) { key := k, value := v } s (hne _)]
  unfold Cache.Add
  cases hl : c.list with
  | none =>
    have := key [] (by simp [Cache.entries, hl])
    simp only [index] at this
    simp only [index, this]
  | some l =>
    have := key l (by simp [Cache.entries, hl])
    cases hi : index l k with
    | none => 
      rw [hi] at this
      simp only at this
      simp only [hi, this]
    | some i =>
      rw [hi] at this
      simp only at this
      obtain ⟨kv, hg, _⟩ := index_eq_some hi
      rw [hg] at this
      simp only at this
      simp only [hi, hg, this]

end lru

/-! ## The LRU cache: lists of entries -/

namespace lru

variable {κ ν σ : Type} [DecidableEq κ]

theorem eraseP_key_eq_filter {l : List (entry κ ν)} (hnd : (l.map (·.key)).Nodup) (k : κ) :
    l.eraseP (fun e => decide (e.key = k)) = l.filter (fun e => !decide (e.key = k)) := by
  induction l with
  | nil => rfl
  | cons a l ih =>
    rw [List.map_cons, List.nodup_cons] at hnd
    by_cases h : a.key = k
    · have hno : ∀ e ∈ l, e.key ≠ k := by
        intro e he hek
        exact hnd.1 (List.mem_map.2 ⟨e, he, hek.trans h.symm⟩)
      have hfil : l.filter (fun e => !decide (e.key = k)) = l := by
        rw [List.filter_eq_self]
        intro e he
        simpa using hno e he
      simp [List.eraseP_cons, h, List.filter_cons, hfil]
    · simp [List.eraseP_cons, h, List.filter_cons, ih hnd.2]

theorem lookup_nil (k : κ) : lookup ([] : List (entry κ ν)) k = none := rfl

theorem lookup_cons (a : entry κ ν) (l : List (entry κ ν)) (k : κ) :
    lookup (a :: l) k = if a.key = k then some a.value else lookup l k := by
  unfold lookup
  by_cases h : a.key = k <;> simp [List.find?_cons, h]

theorem lookup_eq_none_iff (l : List (entry κ ν)) (k : κ) :
    lookup l k = none ↔ k ∉ l.map (·.key) := by
  induction l with
  | nil => simp [lookup_nil]
  | cons a l ih =>
    rw [lookup_cons]
    by_cases h : a.key = k
    · simp [h]
    · simp only [h, if_false, ih, List.map_cons, List.mem_cons, not_or]
      constructor
      · intro h1; exact ⟨fun h2 => h h2.symm, h1⟩
      · intro h1; exact h1.2

theorem lookup_append (a b : List (entry κ ν)) (k : κ) :
    lookup (a ++ b) k = match lookup a k with
      | some v => some v
      | none => lookup b k := by
  induction a with
  | nil => simp [lookup_nil]
  | cons x a ih =>
    rw [List.cons_append, lookup_cons, lookup_cons]
    by_cases h : x.key = k
    · simp [h]
    · simp [h, ih]

theorem lookup_filter_ne (l : List (entry κ ν)) {k k1 : κ} (h : k1 ≠ k) :
    lookup (l.filter (fun e => !decide (e.key = k))) k1 = lookup l k1 := by
  induction l with
  | nil => rfl
  | cons a l ih =>
    by_cases hk : a.key = k
    · have : a.key ≠ k1 := fun h1 => h (h1.symm.trans hk)
      have h3 : ¬ k = k1 := fun h1 => h h1.symm
      simp [List.filter_cons, hk, lookup_cons, h3, ih]
    · simp [List.filter_cons, hk, lookup_cons, ih]

theorem lookup_filter_self (l : List (entry κ ν)) (k : κ) :
    lookup (l.filter (fun e => !decide (e.key = k))) k = none := by
  rw [lookup_eq_none_iff]
  simp [List.mem_map, List.mem_filter]

theorem lookup_of_mem {l : List (entry κ ν)} (hnd : (l.map (·.key)).Nodup) {e : entry κ ν}
    (he : e ∈ l) : lookup l e.key = some e.value := by
  induction l with
  | nil => simp at he
  | cons a l ih =>
    rw [List.map_cons, List.nodup_cons] at hnd
    rw [lookup_cons]
    rcases List.mem_cons.1 he with rfl | h1
    · simp
    · have : a.key ≠ e.key := fun h2 => hnd.1 (List.mem_map.2 ⟨e, h1, h2.symm⟩)
      simp [this, ih hnd.2 h1]

theorem mem_of_lookup {l : List (entry κ ν)} {k : κ} {v : ν} (h : lookup l k = some v) :
    (⟨k, v⟩ : entry κ ν) ∈ l := by
  induction l with
  | nil => simp [lookup_nil] at h
  | cons a l ih =>
    rw [lookup_cons] at h
    by_cases hk : a.key = k
    · simp only [hk, if_true, Option.some.injEq] at h
      have : a = ⟨k, v⟩ := by cases a; simp_all
      simp [this]
    · simp only [hk, if_false] at h
      exact List.mem_cons_of_mem _ (ih h)

omit [DecidableEq κ] in
theorem entries_eq (c : Cache κ ν σ) (l : List (entry κ ν)) (h : c.list = some l) :
    c.entries = l := by simp [Cache.entries, h]

omit [DecidableEq κ] in
theorem Len_eq (c : Cache κ ν σ) : c.Len = c.entries.length := by
  unfold Cache.Len Cache.entries; cases c.list <;> rfl

omit [DecidableEq κ] in
theorem keys_eq (c : Cache κ ν σ) : c.keys = c.entries.map (·.key) := by
  unfold Cache.keys Cache.entries; cases c.list <;> rfl

theorem inserted_of_not_mem {l : List (entry κ ν)} {k : κ} (v : ν) (h : k ∉ l.map (·.key)) :
    inserted l k v = l ++ [⟨k, v⟩] := by
  unfold inserted
  rw [List.eraseP_of_forall_not]
  intro e he
  simp only [decide_eq_true_eq]
  intro hk
  exact h (List.mem_map.2 ⟨e, he, hk⟩)

/-- Adding fresh keys one after the other below the bound appends them. -/
theorem run_Add_fresh (N : Int) (kvs : List (entry κ ν)) :
    ∀ (c : Cache κ ν σ) (s : σ) (l : List (entry κ ν)), c.maxEntries = N → c.list = some l →
      ((l ++ kvs).map (·.key)).Nodup → ((l ++ kvs).length : Int) ≤ N →
      c.run s (kvs.map (fun e => Call.Add e.key e.value)) = ({ c with list := some (l ++ kvs) }, s) := by
  induction kvs with
  | nil =>
    intro c s l _ hl _ _
    simp only [List.map_nil, Cache.run, List.append_nil]
    rw [← hl]
  | cons a kvs ih =>
    intro c s l hmax hl hnd hlen
    simp only [List.map_cons, Cache.run, Cache.step]
    have hfresh : a.key ∉ l.map (·.key) := by
      intro hmem
      rw [List.map_append, List.map_cons] at hnd
      have := (List.nodup_append.1 hnd).2.2
      exact this hmem (List.mem_cons_self _ _) 
    have hins : inserted c.entries a.key a.value = l ++ [a] := by
      rw [entries_eq c l hl, inserted_of_not_mem _ hfresh]
    have hsmall : ¬ (c.maxEntries ≠ 0 ∧ ((inserted c.entries a.key a.value).length : Int) > c.maxEntries) := by
      rw [hins, hmax]
      intro h
      have h2 := h.2
      simp only [List.length_append, List.length_cons, List.length_nil] at hlen h2
      push_cast at hlen h2
      omega
    rw [Add_eq, if_neg hsmall, hins]
    have := ih ({ c with list := some (l ++ [a]) }) s (l ++ [a]) hmax rfl
      (by simpa using hnd) (by simpa using hlen)
    simpa using this


theorem length_inserted_le (l : List (entry κ ν)) (k : κ) (v : ν) :
    (inserted l k v).length ≤ l.length + 1 := by
  unfold inserted
  rw [List.length_append, List.length_eraseP]
  split <;> simp

theorem run_append (c : Cache κ ν σ) (s : σ) (a b : List (Call κ ν)) :
    c.run s (a ++ b) = (c.run s a).1.run (c.run s a).2 b := by
  induction a generalizing c s with
  | nil => rfl
  | cons op a ih => simp only [List.cons_append, Cache.run]; exact ih _ _

theorem step_maxEntries (c : Cache κ ν σ) (s : σ) (op : Call κ ν) :
    (c.step s op).1.maxEntries = c.maxEntries := by
  cases op with
  | Add k v => simp only [Cache.step, Add_eq]; split <;> rfl
  | Get k =>
    simp only [Cache.step, Get_eq]
    cases c.list with
    | none => rfl
    | some l => simp only; cases l.find? (fun e => decide (e.key = k)) <;> rfl
  | Remove k =>
    simp only [Cache.step, Remove_eq]
    cases c.list with
    | none => rfl
    | some l => simp only; cases l.find? (fun e => decide (e.key = k)) <;> rfl
  | RemoveOldest =>
    simp only [Cache.step, RemoveOldest_eq]
    cases c.list with
    | none => rfl
    | some l => cases l <;> rfl
  | Clear order => rfl

theorem step_Len_le (c : Cache κ ν σ) (s : σ) (op : Call κ ν) (n : Int) (hn : 0 < n)
    (hmax : c.maxEntries = n) (hlen : (c.Len : Int) ≤ n) :
    ((c.step s op).1.Len : Int) ≤ n := by
  cases op with
  | Add k v =>
    simp only [Cache.step, Add_eq]
    have h1 := length_inserted_le c.entries k v
    have h2 : c.entries.length = c.Len := by
      unfold Cache.entries Cache.Len; cases c.list <;> rfl
    split
    · simp only [Cache.Len, List.length_tail]
      omega
    · rename_i h
      simp only [Cache.Len]
      rw [hmax] at h
      by_contra hc
      exact h ⟨by omega, by omega⟩
  | Get k =>
    simp only [Cache.step, Get_eq]
    cases hl : c.list with
    | none => simpa [Cache.Len, hl] using hlen
    | some l =>
      simp only
      cases hf : l.find? (fun e => decide (e.key = k)) with
      | none => simpa [Cache.Len, hl] using hlen
      | some kv =>
        have hany : l.any (fun e => decide (e.key = k)) = true := by
          rw [List.any_eq_true]
          exact ⟨kv, List.mem_of_find?_eq_some hf, (List.find?_some hf : _)⟩
        have hpos : 0 < l.length := by
          have := List.mem_of_find?_eq_some hf
          exact List.length_pos_of_mem this
        simp only [Cache.Len, hl] at hlen
        simp only [Cache.Len, List.length_append, List.length_eraseP, hany, if_true,
          List.length_singleton]
        omega
  | Remove k =>
    simp only [Cache.step, Remove_eq]
    cases hl : c.list with
    | none => simpa [Cache.Len, hl] using hlen
    | some l =>
      simp only
      simp only [Cache.Len, hl] at hlen
      cases hf : l.find? (fun e => decide (e.key = k)) with
      | none => simpa [Cache.Len, hl] using hlen
      | some kv =>
        simp only [Cache.Len, List.length_eraseP]
        split <;> omega
  | RemoveOldest =>
    simp only [Cache.step, RemoveOldest_eq]
    cases hl : c.list with
    | none => simpa [Cache.Len, hl] using hlen
    | some l =>
      simp only [Cache.Len, hl] at hlen
      cases l with
      | nil => simpa [Cache.Len, hl] using hlen
      | cons e t =>
        simp only [Cache.Len]
        simp only [List.length_cons] at hlen
        omega
  | Clear order =>
    simp only [Cache.step, Cache.Clear, Cache.Len]
    omega

theorem run_Len_le (n : Int) (hn : 0 < n) (calls : List (Call κ ν)) :
    ∀ (c : Cache κ ν σ) (s : σ), c.maxEntries = n → (c.Len : Int) ≤ n →
      ((c.run s calls).1.Len : Int) ≤ n := by
  induction calls with
  | nil => intro c s _ h; exact h
  | cons op ops ih =>
    intro c s hmax hlen
    simp only [Cache.run]
    exact ih _ _ ((step_maxEntries c s op).trans hmax) (step_Len_le c s op n hn hmax hlen)


/-! ## The LRU cache: claims -/

/-- C7. For every cache created by `New(n, cb)` with `n > 0` and every finite
sequence of `Add`, `Get`, `Remove`, `RemoveOldest` and `Clear` calls,
`Len() <= n` holds after each call returns: after the first `i` calls of the
sequence, for every `i`. -/
theorem Len_le_maxEntries (n : Int) (hn : 0 < n) (cb : Option (κ → ν → σ → σ)) (s : σ)
    (calls : List (Call κ ν)) (i : Nat) :
    ((((New n cb).run s (calls.take i)).1.Len : Nat) : Int) ≤ n := by
  apply run_Len_le n hn
  · rfl
  · simp only [New, Cache.Len, List.length_nil]
    omega


/-- C7 at a cache of two entries, after three `Add` calls, a `Get` and a `Clear`. -/
theorem Len_le_maxEntries_witness :
    (0 : Int) < 2 ∧
      ((((New 2 (none : Option (Nat → Nat → Unit → Unit))).run ()
        ([.Add 1 10, .Add 2 20, .Add 3 30, .Get 2, .Clear id].take 3)).1.Len : Nat) : Int) ≤ 2 :=
  ⟨by decide, Len_le_maxEntries 2 (by decide) none () [.Add 1 10, .Add 2 20, .Add 3 30, .Get 2, .Clear id] 3⟩


/-- C6 as stated fails at `N = 1`: in a cache with max-entries 1 that holds
the key 1, `Get(1)` followed by `Add` of the key 2 evicts the key 1 itself. -/
theorem Get_then_Add_capacity_one :
    (((New 1 (none : Option (Nat → Nat → Unit → Unit))).Add 1 10 ()).1.maxEntries = 1 ∧
      ((New 1 (none : Option (Nat → Nat → Unit → Unit))).Add 1 10 ()).1.Len = 1 ∧
      (((New 1 (none : Option (Nat → Nat → Unit → Unit))).Add 1 10 ()).1.Get 1).1 = some 10 ∧
      (((New 1 (none : Option (Nat → Nat → Unit → Unit))).Add 1 10 ()).1.Get 2).1 = none) ∧
    ((((((New 1 (none : Option (Nat → Nat → Unit → Unit))).Add 1 10 ()).1.Get 1).2.Add 2 20 ()).1.Get
      1).1 = none) := by
  decide

/-- C6, amended. For every cache with max-entries `N > 1` that holds `N`
entries and every key `k` stored in it with value `v`: after `Get(k)` followed
by `Add` of a key that is not stored, `Get(k)` hits with `v`, and the entry
evicted by the overflow is an entry `e` of another key: the callback is
applied once to `e`, and `Get` of its key misses afterwards. -/
theorem Get_then_Add_keeps (c : Cache κ ν σ) (s : σ) (hwf : c.WF) (hN : 1 < c.maxEntries)
    (hlen : (c.Len : Int) = c.maxEntries) (k : κ) (v : ν) (hk : (c.Get k).1 = some v)
    (k1 : κ) (v1 : ν) (hk1 : (c.Get k1).1 = none) :
    ((((c.Get k).2.Add k1 v1 s).1.Get k).1 = some v) ∧
      ∃ e ∈ c.entries, e.key ≠ k ∧ ((c.Get k).2.Add k1 v1 s).2 = fire c.onEvicted e s ∧
        ((((c.Get k).2.Add k1 v1 s).1.Get e.key).1 = none) := by
  rw [Get_fst] at hk hk1
  cases hl : c.list with
  | none => simp [Cache.entries, hl, lookup_nil] at hk
  | some l =>
    have hent := entries_eq c l hl
    rw [hent] at hk hk1
    have hnd : (l.map (·.key)).Nodup := by
      have := hwf; unfold Cache.WF at this; rw [keys_eq, hent] at this; exact this
    have hmem := mem_of_lookup hk
    have hfind : l.find? (fun e => decide (e.key = k)) = some ⟨k, v⟩ := by
      unfold lookup at hk
      cases hf : l.find? (fun e => decide (e.key = k)) with
      | none => simp [hf] at hk
      | some kv =>
        have h1 : kv.key = k := by simpa using List.find?_some hf
        have h2 : kv.value = v := by simpa [hf] using hk
        cases kv; simp_all
    have hget : (c.Get k).2 =
        { c with list := some (l.filter (fun e => !decide (e.key = k)) ++ [⟨k, v⟩]) } := by
      rw [Get_eq]; simp only [hl, hfind, eraseP_key_eq_filter hnd]
    have hk1' : k1 ∉ l.map (·.key) := (lookup_eq_none_iff _ _).1 hk1
    have hkk1 : k ≠ k1 := by
      rintro rfl; rw [hk] at hk1; cases hk1
    have hLen : (l.length : Int) = c.maxEntries := by rw [← hlen, Len_eq, hent]
    -- the rest of the list is not empty
    have hflen : (l.filter (fun e => !decide (e.key = k))).length + 1 = l.length := by
      rw [← eraseP_key_eq_filter hnd, List.length_eraseP]
      have hany : l.any (fun e => decide (e.key = k)) = true := by
        rw [List.any_eq_true]; exact ⟨_, hmem, by simp⟩
      have hpos := List.length_pos_of_mem hmem
      simp only [hany, if_true]; omega
    cases hfil : l.filter (fun e => !decide (e.key = k)) with
    | nil => rw [hfil] at hflen; simp at hflen; omega
    | cons e t =>
      have he : e ∈ l.filter (fun e => !decide (e.key = k)) := by rw [hfil]; simp
      have hel : e ∈ l := (List.mem_filter.1 he).1
      have hek : e.key ≠ k := by simpa using (List.mem_filter.1 he).2
      have hndf : ((e :: t).map (·.key)).Nodup := by
        rw [← hfil]
        exact hnd.sublist ((List.filter_sublist l).map _)
      rw [List.map_cons, List.nodup_cons] at hndf
      have htk : k ∉ t.map (·.key) := by
        intro h
        obtain ⟨x, hx, hxk⟩ := List.mem_map.1 h
        have hx' : x ∈ l.filter (fun e => !decide (e.key = k)) := by
          rw [hfil]; exact List.mem_cons_of_mem _ hx
        have := (List.mem_filter.1 hx').2
        simp [hxk] at this
      have hek1 : e.key ≠ k1 := fun h => hk1' (List.mem_map.2 ⟨e, hel, h⟩)
      have hfresh : k1 ∉ (e :: t ++ [(⟨k, v⟩ : entry κ ν)]).map (·.key) := by
        intro h
        simp only [List.cons_append, List.map_cons, List.map_append, List.map_nil, List.mem_cons,
          List.mem_append, List.mem_singleton, List.not_mem_nil, or_false] at h
        rcases h with h | h | h
        · exact hek1 h.symm
        · obtain ⟨x, hx, hxk⟩ := List.mem_map.1 h
          have hx' : x ∈ l.filter (fun e => !decide (e.key = k)) := by
            rw [hfil]; exact List.mem_cons_of_mem _ hx
          exact hk1' (List.mem_map.2 ⟨x, (List.mem_filter.1 hx').1, hxk⟩)
        · exact hkk1 h.symm
      have hadd : (c.Get k).2.Add k1 v1 s =
          ({ c with list := some (t ++ [⟨k, v⟩, ⟨k1, v1⟩]) }, fire c.onEvicted e s) := by
        rw [hget, hfil, Add_eq]
        have hent2 : ({ c with list := some (e :: t ++ [⟨k, v⟩]) } : Cache κ ν σ).entries =
            e :: t ++ [⟨k, v⟩] := rfl
        rw [hent2, inserted_of_not_mem _ hfresh]
        have hbig : ({ c with list := some (e :: t ++ [⟨k, v⟩]) } : Cache κ ν σ).maxEntries ≠ 0 ∧
            (((e :: t ++ [(⟨k, v⟩ : entry κ ν)] ++ [(⟨k1, v1⟩ : entry κ ν)]).length : Nat) : Int) >
              ({ c with list := some (e :: t ++ [⟨k, v⟩]) } : Cache κ ν σ).maxEntries := by
          rw [hfil] at hflen
          simp only [List.length_cons] at hflen
          simp only [List.cons_append, List.length_cons, List.length_append, List.length_nil]
          constructor
          · omega
          · push_cast; omega
        rw [if_pos hbig]
        simp
      rw [hadd]
      refine ⟨?_, e, by rw [hent]; exact hel, hek, rfl, ?_⟩
      · rw [Get_fst]
        show lookup (t ++ [⟨k, v⟩, ⟨k1, v1⟩]) k = some v
        rw [lookup_append, (lookup_eq_none_iff t k).2 htk]
        simp [lookup_cons]
      · rw [Get_fst]
        show lookup (t ++ [⟨k, v⟩, ⟨k1, v1⟩]) e.key = none
        rw [lookup_eq_none_iff]
        intro h
        simp only [List.map_append, List.map_cons, List.map_nil, List.mem_append, List.mem_cons,
          List.not_mem_nil, or_false] at h
        rcases h with h | h | h
        · exact hndf.1 h
        · exact hek h
        · exact hek1 h

/-- C6 amended, at a cache of max-entries 2 holding the keys 1 and 2: `Get(1)`,
then `Add` of the key 3. -/
theorem Get_then_Add_keeps_witness :
    (((((New 2 (none : Option (Nat → Nat → Unit → Unit))).run ()
        [.Add 1 10, .Add 2 20]).1.Get 1).2.Add 3 30 ()).1.Get 1).1 = some 10 :=
  (Get_then_Add_keeps ((New 2 (none : Option (Nat → Nat → Unit → Unit))).run ()
    [.Add 1 10, .Add 2 20]).1 () (by decide) (by decide) (by decide) 1 10 (by decide) 3 30
    (by decide)).1

/-- C5. For every `N >= 1` and every list of `N + 1` pairwise distinct keys
(`first` and the `N` keys of `rest`, each with a value), adding them in order
to a cache created by `New(N, cb)` invokes `cb` exactly once, with the
first-added key and its value (the callback state ends as `cb` applied once to
them); afterwards `Len() = N`, `Get` of the first-added key misses and `Get` of
each of the other `N` keys hits with its value. -/
theorem Add_overflow_evicts_first (N : Nat) (hN : 1 ≤ N) (cb : κ → ν → σ → σ) (s : σ)
    (first : entry κ ν) (rest : List (entry κ ν)) (hlen : rest.length = N)
    (hnd : ((first :: rest).map (·.key)).Nodup) :
    ((New (N : Int) (some cb)).run s
        ((first :: rest).map (fun e => Call.Add e.key e.value))).2 = cb first.key first.value s ∧
      ((New (N : Int) (some cb)).run s
        ((first :: rest).map (fun e => Call.Add e.key e.value))).1.Len = N ∧
      (((New (N : Int) (some cb)).run s
        ((first :: rest).map (fun e => Call.Add e.key e.value))).1.Get first.key).1 = none ∧
      ∀ e ∈ rest, (((New (N : Int) (some cb)).run s
        ((first :: rest).map (fun e => Call.Add e.key e.value))).1.Get e.key).1 = some e.value := by
  obtain ⟨init, last, hrest⟩ : ∃ init last, rest = init ++ [last] := by
    have hne : rest ≠ [] := by
      intro h; rw [h] at hlen; simp at hlen; omega
    exact ⟨rest.dropLast, rest.getLast hne, (List.dropLast_append_getLast hne).symm⟩
  have hinit : init.length + 1 = N := by rw [hrest] at hlen; simpa using hlen
  have hsplit : (first :: rest).map (fun e => Call.Add e.key e.value) =
      (first :: init).map (fun e => Call.Add e.key e.value) ++ [Call.Add last.key last.value] := by
    rw [hrest]; simp
  have hnd1 : (((([] : List (entry κ ν)) ++ (first :: init))).map (·.key)).Nodup := by
    rw [hrest] at hnd
    have : (first :: (init ++ [last])) = (first :: init) ++ [last] := by simp
    rw [this, List.map_append] at hnd
    simpa using (List.nodup_append.1 hnd).1
  have hrun := run_Add_fresh (N : Int) (first :: init) (New (N : Int) (some cb)) s []
    rfl rfl hnd1 (by simp only [List.nil_append, List.length_cons]; omega)
  have hlastfresh : last.key ∉ (first :: init).map (·.key) := by
    rw [hrest] at hnd
    have : (first :: (init ++ [last])) = (first :: init) ++ [last] := by simp
    rw [this, List.map_append] at hnd
    intro hmem
    exact (List.nodup_append.1 hnd).2.2 hmem (by simp)
  have hfinal : (New (N : Int) (some cb)).run s
      ((first :: rest).map (fun e => Call.Add e.key e.value)) =
      ({ New (N : Int) (some cb) with list := some rest }, cb first.key first.value s) := by
    rw [hsplit, run_append, hrun]
    simp only [List.nil_append, Cache.run, Cache.step]
    rw [Add_eq]
    have hent : ({ New (N : Int) (some cb) with list := some (first :: init) } :
        Cache κ ν σ).entries = first :: init := rfl
    rw [hent, inserted_of_not_mem _ hlastfresh]
    have hbig : ({ New (N : Int) (some cb) with list := some (first :: init) } :
        Cache κ ν σ).maxEntries ≠ 0 ∧
        (((first :: init ++ [last]).length : Nat) : Int) >
          ({ New (N : Int) (some cb) with list := some (first :: init) } :
            Cache κ ν σ).maxEntries := by
      simp only [New, List.cons_append, List.length_cons, List.length_append, List.length_nil]
      constructor
      · omega
      · push_cast; omega
    rw [if_pos hbig]
    simp [fire, New, hrest]
  rw [hfinal]
  have hndrest : (rest.map (·.key)).Nodup := by
    rw [List.map_cons, List.nodup_cons] at hnd; exact hnd.2
  refine ⟨rfl, ?_, ?_, ?_⟩
  · simp [Cache.Len, hlen]
  · rw [Get_fst, lookup_eq_none_iff]
    rw [List.map_cons, List.nodup_cons] at hnd
    exact hnd.1
  · intro e he
    rw [Get_fst]
    exact lookup_of_mem hndrest he

/-- C5 at `N = 2` with the keys 1, 2, 3 and a callback that records its
arguments. -/
theorem Add_overflow_evicts_first_witness :
    (1 ≤ 2 ∧ [(⟨2, 20⟩ : entry Nat Nat), ⟨3, 30⟩].length = 2 ∧
      (([⟨1, 10⟩, ⟨2, 20⟩, ⟨3, 30⟩] : List (entry Nat Nat)).map (·.key)).Nodup) ∧
    ((New ((2 : Nat) : Int) (some (fun k v (log : List (Nat × Nat)) => log ++ [(k, v)]))).run []
        (([⟨1, 10⟩, ⟨2, 20⟩, ⟨3, 30⟩] : List (entry Nat Nat)).map
          (fun e => Call.Add e.key e.value))).2 = [(1, 10)] :=
  ⟨⟨by decide, by decide, by decide⟩,
    (Add_overflow_evicts_first 2 (by decide) (fun k v (log : List (Nat × Nat)) => log ++ [(k, v)]) []
      ⟨1, 10⟩ [⟨2, 20⟩, ⟨3, 30⟩] (by decide) (by decide)).1⟩

/-- C9. For every cache state (no key indexed twice) and every key `k`: after
`Remove(k)`, `Get(k)` misses.  If `k` was stored with value `v`, the eviction
callback (when registered) is invoked exactly once, with `(k, v)`, and `Len()`
decreases by one; if `k` was not stored, the cache is unchanged and the
callback is not invoked.  In both cases every other key keeps its value and
the other entries keep their relative recency order: the entries after the
call are the entries before it without the one of `k`, in the same order. -/
theorem Remove_spec (c : Cache κ ν σ) (s : σ) (hwf : c.WF) (k : κ) :
    ((c.Remove k s).1.Get k).1 = none ∧
      (∀ v, (c.Get k).1 = some v →
        (c.Remove k s).2 = fire c.onEvicted ⟨k, v⟩ s ∧ (c.Remove k s).1.Len + 1 = c.Len) ∧
      ((c.Get k).1 = none → c.Remove k s = (c, s)) ∧
      (∀ k1, k1 ≠ k → ((c.Remove k s).1.Get k1).1 = (c.Get k1).1) ∧
      (c.Remove k s).1.entries = c.entries.filter (fun e => !decide (e.key = k)) := by
  have hnd : (c.entries.map (·.key)).Nodup := by
    have := hwf; unfold Cache.WF at this; rwa [keys_eq] at this
  have hentries : (c.Remove k s).1.entries = c.entries.filter (fun e => !decide (e.key = k)) := by
    rw [Remove_eq]
    cases hl : c.list with
    | none => simp [Cache.entries, hl]
    | some l =>
      rw [entries_eq c l hl] at hnd ⊢
      simp only
      cases hf : l.find? (fun e => decide (e.key = k)) with
      | none =>
        simp only [entries_eq c l hl]
        symm
        rw [List.filter_eq_self]
        intro e he
        have := List.find?_eq_none.1 hf e he
        simpa using this
      | some kv =>
        simp only [Cache.entries, eraseP_key_eq_filter hnd]
  refine ⟨?_, ?_, ?_, ?_, hentries⟩
  · rw [Get_fst, hentries]; exact lookup_filter_self _ _
  · intro v hv
    rw [Get_fst] at hv
    rw [Remove_eq]
    cases hl : c.list with
    | none => simp [Cache.entries, hl, lookup_nil] at hv
    | some l =>
      rw [entries_eq c l hl] at hv
      simp only
      unfold lookup at hv
      cases hf : l.find? (fun e => decide (e.key = k)) with
      | none => simp [hf] at hv
      | some kv =>
        have h1 : kv.key = k := by simpa using List.find?_some hf
        have h2 : kv.value = v := by simpa [hf] using hv
        have hkv : kv = ⟨k, v⟩ := by cases kv; simp_all
        have hany : l.any (fun e => decide (e.key = k)) = true := by
          rw [List.any_eq_true]
          exact ⟨kv, List.mem_of_find?_eq_some hf, by simpa using h1⟩
        have hpos := List.length_pos_of_mem (List.mem_of_find?_eq_some hf)
        simp only [hkv, Cache.Len, hl, List.length_eraseP, hany, if_true, true_and]
        omega
  · intro hv
    rw [Get_fst] at hv
    rw [Remove_eq]
    cases hl : c.list with
    | none => rfl
    | some l =>
      rw [entries_eq c l hl] at hv
      simp only
      unfold lookup at hv
      cases hf : l.find? (fun e => decide (e.key = k)) with
      | none => rfl
      | some kv => simp [hf] at hv
  · intro k1 hk1
    rw [Get_fst, Get_fst, hentries]
    exact lookup_filter_ne _ hk1

/-- C9 at a cache holding the keys 1, 2 and 3, for the key 2. -/
theorem Remove_spec_witness :
    (((New 0 (none : Option (Nat → Nat → Unit → Unit))).run ()
        [.Add 1 10, .Add 2 20, .Add 3 30]).1.Remove 2 ()).1.entries =
      [⟨1, 10⟩, ⟨3, 30⟩] :=
  (Remove_spec ((New 0 (none : Option (Nat → Nat → Unit → Unit))).run ()
    [.Add 1 10, .Add 2 20, .Add 3 30]).1 () (by decide) 2).2.2.2.2

/-- The recency list after the element of `x.key` has been moved to the back
holding `x`: its keys stay pairwise distinct, `x.key` maps to `x.value`, every
other key keeps its value, and the stored keys are the old ones and `x.key`. -/
theorem touch_spec {l : List (entry κ ν)} (hnd : (l.map (·.key)).Nodup) (x : entry κ ν) :
    ((l.filter (fun e => !decide (e.key = x.key)) ++ [x]).map (·.key)).Nodup ∧
      (∀ k, lookup (l.filter (fun e => !decide (e.key = x.key)) ++ [x]) k =
        if x.key = k then some x.value else lookup l k) ∧
      (∀ k, k ∈ (l.filter (fun e => !decide (e.key = x.key)) ++ [x]).map (·.key) ↔
        k = x.key ∨ k ∈ l.map (·.key)) := by
  refine ⟨?_, ?_, ?_⟩
  · rw [List.map_append, List.nodup_append]
    refine ⟨hnd.sublist ((List.filter_sublist l).map _), by simp, ?_⟩
    intro a ha hb
    simp only [List.map_cons, List.map_nil, List.mem_singleton] at hb
    obtain ⟨e, he, rfl⟩ := List.mem_map.1 ha
    have := (List.mem_filter.1 he).2
    simp [hb] at this
  · intro k
    rw [lookup_append]
    by_cases h : x.key = k
    · subst h
      rw [lookup_filter_self]
      simp [lookup_cons]
    · rw [lookup_filter_ne l (fun h1 => h h1.symm)]
      cases hl : lookup l k with
      | none => simp [lookup_cons, h, lookup_nil]
      | some v => simp [h]
  · intro k
    simp only [List.map_append, List.mem_append, List.mem_map, List.mem_filter, List.map_cons,
      List.map_nil, List.mem_singleton, Bool.not_eq_true', decide_eq_false_iff_not]
    constructor
    · rintro (⟨e, ⟨he, _⟩, rfl⟩ | h)
      · exact Or.inr ⟨e, he, rfl⟩
      · exact Or.inl h
    · rintro (h | ⟨e, he, rfl⟩)
      · exact Or.inr h
      · by_cases hx : e.key = x.key
        · exact Or.inr hx
        · exact Or.inl ⟨e, ⟨he, hx⟩, rfl⟩

theorem specMapGet_append (calls : List (MapCall κ ν)) (call : MapCall κ ν) (k : κ) :
    specMapGet (calls ++ [call]) k =
      match call with
      | .Add k1 v => if k1 = k then some v else specMapGet calls k
      | .Get _ => specMapGet calls k := by
  unfold specMapGet
  rw [List.reverse_append, List.reverse_singleton, List.singleton_append, List.findSome?_cons]
  cases call with
  | Add k1 v => by_cases h : k1 = k <;> simp [h]
  | Get k1 => simp

omit [DecidableEq κ] in
theorem addedKeys_append (calls : List (MapCall κ ν)) (call : MapCall κ ν) :
    addedKeys (calls ++ [call]) =
      match call with
      | .Add k1 _ => addedKeys calls ++ [k1]
      | .Get _ => addedKeys calls := by
  unfold addedKeys
  rw [List.filterMap_append]
  cases call <;> simp [List.filterMap_cons]

/-- The state of a cache without bound and without callback after a sequence of
`Add` and `Get` calls. -/
theorem run_map_calls (s : σ) (calls : List (MapCall κ ν)) :
    ∃ l, (New 0 (none : Option (κ → ν → σ → σ))).run s (calls.map MapCall.toCall) =
        ({ New 0 none with list := some l }, s) ∧
      (l.map (·.key)).Nodup ∧ (∀ k, lookup l k = specMapGet calls k) ∧
      (∀ k, k ∈ l.map (·.key) ↔ k ∈ addedKeys calls) := by
  induction calls using List.reverseRecOn with
  | nil => exact ⟨[], rfl, by simp, fun k => rfl, fun k => by simp [addedKeys]⟩
  | append_singleton calls call ih =>
    obtain ⟨l, hrun, hnd, hlook, hkeys⟩ := ih
    rw [List.map_append, run_append, hrun]
    simp only [List.map_cons, List.map_nil, Cache.run]
    cases call with
    | Add k1 v =>
      simp only [MapCall.toCall, Cache.step]
      rw [Add_eq]
      have hent : ({ New 0 (none : Option (κ → ν → σ → σ)) with list := some l }).entries = l := rfl
      rw [hent, if_neg (by simp [New])]
      unfold inserted
      rw [eraseP_key_eq_filter hnd]
      obtain ⟨t1, t2, t3⟩ := touch_spec hnd ⟨k1, v⟩
      refine ⟨_, rfl, t1, ?_, ?_⟩
      · intro k; rw [t2, specMapGet_append, hlook]
      · intro k; rw [t3, addedKeys_append, hkeys]; simp [or_comm]
    | Get k1 =>
      simp only [MapCall.toCall, Cache.step]
      rw [Get_eq]
      simp only
      cases hf : l.find? (fun e => decide (e.key = k1)) with
      | none =>
        refine ⟨l, rfl, hnd, ?_, ?_⟩
        · intro k; rw [specMapGet_append, hlook]
        · intro k; rw [addedKeys_append, hkeys]
      | some kv =>
        have h1 : kv.key = k1 := by simpa using List.find?_some hf
        have hmem := List.mem_of_find?_eq_some hf
        rw [eraseP_key_eq_filter hnd, ← h1]
        obtain ⟨t1, t2, t3⟩ := touch_spec hnd kv
        refine ⟨_, rfl, t1, ?_, ?_⟩
        · intro k
          rw [t2, specMapGet_append, ← hlook]
          by_cases h : kv.key = k
          · rw [if_pos h, ← h, lookup_of_mem hnd hmem]
          · rw [if_neg h]
        · intro k
          rw [t3, addedKeys_append, ← hkeys]
          constructor
          · rintro (rfl | h)
            · exact List.mem_map.2 ⟨kv, hmem, rfl⟩
            · exact h
          · exact Or.inr

/-- C8. A cache created by `New(0, nil)` behaves as a finite map under `Add`
and `Get`, with keys compared by value (any key type with decidable equality):
after every sequence of `Add` and `Get` calls, `Get(k)` returns the value of
the most recent `Add` for a key equal to `k`, and misses when no key equal to
`k` was ever added; `Len()` is the number of distinct keys added. -/
theorem New_zero_is_map (s : σ) (calls : List (MapCall κ ν)) (k : κ) :
    (((New 0 (none : Option (κ → ν → σ → σ))).run s (calls.map MapCall.toCall)).1.Get k).1 =
        specMapGet calls k ∧
      ((New 0 (none : Option (κ → ν → σ → σ))).run s (calls.map MapCall.toCall)).1.Len =
        (addedKeys calls).dedup.length := by
  obtain ⟨l, hrun, hnd, hlook, hkeys⟩ := run_map_calls s calls
  rw [hrun]
  refine ⟨?_, ?_⟩
  · rw [Get_fst]; exact hlook k
  · show l.length = _
    have hperm : (l.map (·.key)).Perm (addedKeys calls).dedup := by
      rw [List.perm_ext_iff_of_nodup hnd (List.nodup_dedup _)]
      intro a
      rw [hkeys, List.mem_dedup]
    rw [← hperm.length_eq, List.length_map]

end lru

/-! ## The consistent-hash ring -/

namespace consistentHash

/-- The binary search of `sort.Search`: on a predicate that is monotone below
`n`, the loop on the bounds `i`, `j` returns the boundary between the indices
where the predicate fails and those where it holds. -/
theorem searchLoop_spec (f : Nat → Bool) (n : Nat)
    (hmono : ∀ a b, a ≤ b → b < n → f a = true → f b = true) :
    ∀ fuel i j, i ≤ j → j ≤ n → j - i ≤ fuel → (∀ a, a < i → f a = false) →
      (∀ a, j ≤ a → a < n → f a = true) →
      i ≤ searchLoop f fuel i j ∧ searchLoop f fuel i j ≤ j ∧
        (∀ a, a < searchLoop f fuel i j → f a = false) ∧
        (∀ a, searchLoop f fuel i j ≤ a → a < n → f a = true) := by
  intro fuel
  induction fuel with
  | zero =>
    intro i j hij hjn hfuel hlo hhi
    have : i = j := by omega
    subst this
    exact ⟨le_refl _, le_refl _, hlo, hhi⟩
  | succ fuel ih =>
    intro i j hij hjn hfuel hlo hhi
    unfold searchLoop
    by_cases hlt : i < j
    · simp only [hlt, if_true]
      have hh1 : i ≤ (i + j) / 2 := by omega
      have hh2 : (i + j) / 2 < j := by omega
      cases hf : f ((i + j) / 2) with
      | false =>
        simp only [Bool.not_false, if_true]
        have := ih ((i + j) / 2 + 1) j (by omega) hjn (by omega)
          (by
            intro a ha
            by_contra hc
            have hc' : f a = true := by simpa using hc
            have := hmono a ((i + j) / 2) (by omega) (by omega) hc'
            rw [hf] at this; cases this)
          hhi
        exact ⟨by omega, this.2.1, this.2.2.1, this.2.2.2⟩
      | true =>
        simp only [Bool.not_true, Bool.false_eq_true, if_false]
        have := ih i ((i + j) / 2) hh1 (by omega) (by omega) hlo
          (by
            intro a ha han
            exact hmono _ a ha han hf)
        exact ⟨this.1, by omega, this.2.2.1, this.2.2.2⟩
    · simp only [hlt, if_false]
      have : i = j := by omega
      subst this
      exact ⟨le_refl _, le_refl _, hlo, hhi⟩

theorem Search_spec (f : Nat → Bool) (n : Nat)
    (hmono : ∀ a b, a ≤ b → b < n → f a = true → f b = true) :
    Search n f ≤ n ∧ (∀ a, a < Search n f → f a = false) ∧
      (∀ a, Search n f ≤ a → a < n → f a = true) := by
  have := searchLoop_spec f n hmono n 0 n (Nat.zero_le _) (le_refl _) (by omega)
    (by intro a ha; omega) (by intro a ha han; omega)
  exact ⟨this.2.1, this.2.2.1, this.2.2.2⟩

theorem int_min?_eq_some_iff {xs : List Int} {a : Int} :
    xs.min? = some a ↔ a ∈ xs ∧ ∀ b ∈ xs, a ≤ b := by
  haveI : Std.Antisymm (fun (x1 x2 : Int) => x1 ≤ x2) := ⟨fun h1 h2 => Int.le_antisymm h1 h2⟩
  exact List.min?_eq_some_iff (fun a => Int.le_refl a)
    (fun a b => by rcases le_total a b with h | h <;> simp [h])
    (fun a b c => le_min_iff)

theorem sorted_getElem_le {l : List Int} (hs : l.Sorted (· ≤ ·)) {i j : Nat} (hij : i ≤ j)
    (hj : j < l.length) (hi : i < l.length) : l[i] ≤ l[j] := by
  have := hs.rel_get_of_le (a := ⟨i, hi⟩) (b := ⟨j, hj⟩) hij
  simpa using this

/-- On a ring whose positions are sorted, `Get` returns what the
specification says. -/
theorem Get_eq_specGet_of_sorted (m : Map) (hs : m.keys.Sorted (· ≤ ·)) (key : Bytes) :
    m.Get key = m.specGet key := by
  unfold Map.Get Map.specGet Map.IsEmpty
  cases hk : m.keys with
  | nil => simp
  | cons p0 ps =>
    rw [← hk]
    have hlen : 0 < m.keys.length := by rw [hk]; simp
    have hne : ¬ ((m.keys.length == 0) = true) := by
      simp only [beq_iff_eq]; omega
    rw [if_neg hne]
    have hleast : m.keys.min? = some p0 := by
      rw [int_min?_eq_some_iff]
      refine ⟨by rw [hk]; simp, ?_⟩
      intro b hb
      obtain ⟨j, hj, rfl⟩ := List.getElem_of_mem hb
      have := sorted_getElem_le hs (Nat.zero_le j) hj hlen
      simpa [hk] using this
    rw [hleast]
    simp only
    have hmono : ∀ a b, a ≤ b → b < m.keys.length →
        (fun i => decide (m.keys.getD i 0 ≥ toInt (m.hash key))) a = true →
        (fun i => decide (m.keys.getD i 0 ≥ toInt (m.hash key))) b = true := by
      intro a b hab hb ha
      simp only [ge_iff_le, decide_eq_true_eq] at ha ⊢
      rw [List.getD_eq_getElem _ _ (by omega)] at ha
      rw [List.getD_eq_getElem _ _ hb]
      exact le_trans ha (sorted_getElem_le hs hab hb (by omega))
    obtain ⟨h1, h2, h3⟩ := Search_spec _ m.keys.length hmono
    generalize Search m.keys.length (fun i => decide (m.keys.getD i 0 ≥ toInt (m.hash key))) = r
      at h1 h2 h3
    by_cases hr : r = m.keys.length
    · rw [if_pos hr]
      have hfil : m.keys.filter (fun p => decide (toInt (m.hash key) ≤ p)) = [] := by
        rw [List.filter_eq_nil_iff]
        intro b hb
        obtain ⟨j, hj, rfl⟩ := List.getElem_of_mem hb
        have := h2 j (by omega)
        simp only [ge_iff_le, decide_eq_false_iff_not] at this
        rw [List.getD_eq_getElem _ _ hj] at this
        simpa using this
      rw [hfil]
      simp [hk]
    · rw [if_neg hr]
      have hrlt : r < m.keys.length := by omega
      have hmin : (m.keys.filter (fun p => decide (toInt (m.hash key) ≤ p))).min? =
          some (m.keys.getD r 0) := by
        rw [int_min?_eq_some_iff, List.getD_eq_getElem _ _ hrlt]
        have hr3 := h3 r (le_refl _) hrlt
        simp only [ge_iff_le, decide_eq_true_eq] at hr3
        rw [List.getD_eq_getElem _ _ hrlt] at hr3
        refine ⟨List.mem_filter.2 ⟨List.getElem_mem _, by simpa using hr3⟩, ?_⟩
        intro b hb
        obtain ⟨hb1, hb2⟩ := List.mem_filter.1 hb
        obtain ⟨j, hj, rfl⟩ := List.getElem_of_mem hb1
        have hrj : r ≤ j := by
          by_contra hc
          have := h2 j (by omega)
          simp only [ge_iff_le, decide_eq_false_iff_not] at this
          rw [List.getD_eq_getElem _ _ hj] at this
          exact this (by simpa using hb2)
        exact sorted_getElem_le hs hrj hj hrlt
      rw [hmin]

theorem sortInts_sorted (xs : List Int) : (sortInts xs).Sorted (· ≤ ·) :=
  List.sorted_insertionSort _ _

theorem Add_keys_sorted (m : Map) (keys : List Bytes) : (m.Add keys).keys.Sorted (· ≤ ·) :=
  sortInts_sorted _

theorem addAll_keys_sorted (m : Map) (hs : m.keys.Sorted (· ≤ ·)) (calls : List (List Bytes)) :
    (m.addAll calls).keys.Sorted (· ≤ ·) := by
  induction calls generalizing m with
  | nil => exact hs
  | cons c cs ih => exact ih (m.Add c) (Add_keys_sorted m c)

/-- C10. For every ring built by `New` followed by any `Add` calls, and every
key: if the ring has no positions, `Get(key)` returns the empty string;
otherwise `Get(key)` returns the id mapped to the smallest position `p` with
`p >= hash(key)`, or, when no position is `>= hash(key)`, the id mapped to the
smallest position of the ring. -/
theorem Get_eq_specGet (checksumIEEE : Hash) (replicas : Int) (fn : Option Hash)
    (calls : List (List Bytes)) (key : Bytes) :
    ((New checksumIEEE replicas fn).addAll calls).Get key =
      ((New checksumIEEE replicas fn).addAll calls).specGet key :=
  Get_eq_specGet_of_sorted _ (addAll_keys_sorted _ (by simp [New]) calls) key

/-! ## The consistent-hash ring: what `Add` builds -/

theorem foldl_addReplica (id : Bytes) (n : Nat) (m : Map) :
    ((List.range n).foldl (Map.addReplica id) m).hash = m.hash ∧
      ((List.range n).foldl (Map.addReplica id) m).replicas = m.replicas ∧
      ((List.range n).foldl (Map.addReplica id) m).keys =
        m.keys ++ (List.range n).map (fun (i : Nat) => toInt (m.hash (Itoa (i : Int) ++ id))) ∧
      ∀ p, ((List.range n).foldl (Map.addReplica id) m).hashMap p =
        if p ∈ (List.range n).map (fun (i : Nat) => toInt (m.hash (Itoa (i : Int) ++ id))) then some id
        else m.hashMap p := by
  induction n with
  | zero => simp
  | succ n ih =>
    obtain ⟨h1, h2, h3, h4⟩ := ih
    rw [List.range_succ, List.foldl_append]
    simp only [List.foldl_cons, List.foldl_nil, Map.addReplica, h1, h2, h3, List.map_append,
      List.map_cons, List.map_nil, List.append_assoc, true_and]
    intro p
    rw [h4 p]
    by_cases hp : p = toInt (m.hash (Itoa (n : Int) ++ id))
    · simp [hp]
    · simp [hp]

/-- The ring after the inner loop of `Add` for one id. -/
theorem addKey_spec (m : Map) (id : Bytes) :
    (m.addKey id).hash = m.hash ∧ (m.addKey id).replicas = m.replicas ∧
      (m.addKey id).keys = m.keys ++ m.positionsOf id ∧
      ∀ p, (m.addKey id).hashMap p = if p ∈ m.positionsOf id then some id else m.hashMap p :=
  foldl_addReplica id m.replicas.toNat m

theorem positionsOf_congr {m1 m2 : Map} (hh : m1.hash = m2.hash) (hr : m1.replicas = m2.replicas)
    (id : Bytes) : m1.positionsOf id = m2.positionsOf id := by
  unfold Map.positionsOf
  rw [hh, hr]

theorem ownerAfter_nil (m : Map) (p : Int) : m.ownerAfter [] p = m.hashMap p := rfl

theorem ownerAfter_append_singleton (m : Map) (ids : List Bytes) (id : Bytes) (p : Int) :
    m.ownerAfter (ids ++ [id]) p = if p ∈ m.positionsOf id then some id else m.ownerAfter ids p := by
  unfold Map.ownerAfter
  rw [List.reverse_append, List.reverse_singleton, List.singleton_append, List.find?_cons]
  by_cases hp : p ∈ m.positionsOf id
  · simp [hp]
  · simp [hp]

/-- The ring after the outer loop of `Add`, before the positions are sorted. -/
theorem foldl_addKey (ids : List Bytes) (m : Map) :
    (ids.foldl Map.addKey m).hash = m.hash ∧ (ids.foldl Map.addKey m).replicas = m.replicas ∧
      (ids.foldl Map.addKey m).keys = m.keys ++ ids.flatMap m.positionsOf ∧
      ∀ p, (ids.foldl Map.addKey m).hashMap p = m.ownerAfter ids p := by
  induction ids using List.reverseRecOn with
  | nil => simp [ownerAfter_nil]
  | append_singleton ids id ih =>
    obtain ⟨h1, h2, h3, h4⟩ := ih
    obtain ⟨a1, a2, a3, a4⟩ := addKey_spec (ids.foldl Map.addKey m) id
    rw [List.foldl_append]
    simp only [List.foldl_cons, List.foldl_nil]
    have hpos := positionsOf_congr h1 h2 id
    refine ⟨a1.trans h1, a2.trans h2, ?_, ?_⟩
    · rw [a3, h3, hpos]
      simp [List.flatMap_append]
    · intro p
      rw [a4 p, h4 p, hpos, ownerAfter_append_singleton]

/-- The ring after one `Add` call. -/
theorem Add_spec (m : Map) (ids : List Bytes) :
    (m.Add ids).hash = m.hash ∧ (m.Add ids).replicas = m.replicas ∧
      (m.Add ids).keys = sortInts (m.keys ++ ids.flatMap m.positionsOf) ∧
      ∀ p, (m.Add ids).hashMap p = m.ownerAfter ids p := by
  obtain ⟨h1, h2, h3, h4⟩ := foldl_addKey ids m
  unfold Map.Add
  simp only
  exact ⟨h1, h2, by rw [h3], h4⟩

theorem ownerAfter_append (m : Map) (ids1 ids2 : List Bytes) (p : Int) :
    m.ownerAfter (ids1 ++ ids2) p =
      match ids2.reverse.find? (fun id => decide (p ∈ m.positionsOf id)) with
      | some id => some id
      | none => m.ownerAfter ids1 p := by
  unfold Map.ownerAfter
  rw [List.reverse_append, List.find?_append]
  cases ids2.reverse.find? (fun id => decide (p ∈ m.positionsOf id)) <;> rfl

/-- The ring after a sequence of `Add` calls: its positions are a rearrangement
of the old positions followed by those of all the added ids, and its map holds
for each position the last added id that has it. -/
theorem addAll_spec (calls : List (List Bytes)) (m : Map) :
    (m.addAll calls).hash = m.hash ∧ (m.addAll calls).replicas = m.replicas ∧
      (m.addAll calls).keys.Perm (m.keys ++ calls.flatten.flatMap m.positionsOf) ∧
      ∀ p, (m.addAll calls).hashMap p = m.ownerAfter calls.flatten p := by
  induction calls generalizing m with
  | nil => simp [Map.addAll, ownerAfter_nil]
  | cons c cs ih =>
    obtain ⟨a1, a2, a3, a4⟩ := Add_spec m c
    obtain ⟨h1, h2, h3, h4⟩ := ih (m.Add c)
    have hpos : (m.Add c).positionsOf = m.positionsOf := funext (positionsOf_congr a1 a2)
    have hrun : m.addAll (c :: cs) = (m.Add c).addAll cs := rfl
    rw [hrun]
    refine ⟨h1.trans a1, h2.trans a2, ?_, ?_⟩
    · refine h3.trans ?_
      rw [hpos, a3, List.flatten_cons, List.flatMap_append, ← List.append_assoc]
      exact (List.perm_insertionSort _ _).append_right _
    · intro p
      rw [h4 p, List.flatten_cons, ownerAfter_append]
      unfold Map.ownerAfter
      rw [hpos, a4 p]
      rfl

theorem ownerAfter_of_mem (m : Map) (ids : List Bytes) (p : Int)
    (h : ∃ id ∈ ids, p ∈ m.positionsOf id) :
    ∃ id ∈ ids, p ∈ m.positionsOf id ∧ m.ownerAfter ids p = some id := by
  unfold Map.ownerAfter
  cases hf : ids.reverse.find? (fun id => decide (p ∈ m.positionsOf id)) with
  | none =>
    obtain ⟨id, hid, hp⟩ := h
    have := List.find?_eq_none.1 hf id (List.mem_reverse.2 hid)
    simp [hp] at this
  | some id =>
    have h1 := List.mem_of_find?_eq_some hf
    have h2 := List.find?_some hf
    exact ⟨id, List.mem_reverse.1 h1, by simpa using h2, rfl⟩

theorem mem_keys_addAll (cs : Hash) (R : Int) (fn : Option Hash) (calls : List (List Bytes))
    (p : Int) :
    p ∈ ((New cs R fn).addAll calls).keys ↔
      ∃ id ∈ calls.flatten, p ∈ (New cs R fn).positionsOf id := by
  obtain ⟨_, _, h3, _⟩ := addAll_spec calls (New cs R fn)
  rw [h3.mem_iff]
  simp [New, List.mem_flatMap]

/-- C12. After every sequence of `Add` calls on a ring with replicas factor
`R >= 0`: the position vector is sorted ascending; it holds exactly `R`
positions for each added id (counted with multiplicity), namely
`hash(bytes(decimal(i) ++ id))` for `i` in `[0, R)`: it is a rearrangement of
the list of these positions over all added ids; and every position in the
vector has an entry in the position-to-id map whose value is one of the added
ids. -/
theorem Add_positions (checksumIEEE : Hash) (R : Nat) (fn : Option Hash)
    (calls : List (List Bytes)) :
    ((New checksumIEEE (R : Int) fn).addAll calls).keys.Sorted (· ≤ ·) ∧
      ((New checksumIEEE (R : Int) fn).addAll calls).keys.Perm
        (calls.flatten.flatMap (fun id => (List.range R).map (fun (i : Nat) =>
          toInt (((New checksumIEEE (R : Int) fn).addAll calls).hash (Itoa (i : Int) ++ id))))) ∧
      ∀ p ∈ ((New checksumIEEE (R : Int) fn).addAll calls).keys,
        ∃ id ∈ calls.flatten,
          ((New checksumIEEE (R : Int) fn).addAll calls).hashMap p = some id := by
  obtain ⟨h1, _, h3, h4⟩ := addAll_spec calls (New checksumIEEE (R : Int) fn)
  refine ⟨addAll_keys_sorted _ (by simp [New]) calls, ?_, ?_⟩
  · rw [h1]
    have : (New checksumIEEE (R : Int) fn).keys = [] := rfl
    rw [this, List.nil_append] at h3
    have hpos : (New checksumIEEE (R : Int) fn).positionsOf =
        fun id => (List.range R).map (fun (i : Nat) =>
          toInt ((New checksumIEEE (R : Int) fn).hash (Itoa (i : Int) ++ id))) := by
      funext id
      simp [Map.positionsOf, New]
    rw [hpos] at h3
    exact h3
  · intro p hp
    rw [mem_keys_addAll] at hp
    obtain ⟨id, hid, _, hown⟩ := ownerAfter_of_mem _ _ p hp
    exact ⟨id, hid, (h4 p).trans hown⟩

/-- C12 at a ring of three replicas with the ids `"6"`, `"4"` and `"2"`, under
the hash function that reads the second byte of its input. -/
theorem Add_positions_witness :
    ((New (fun b => (b.getD 1 0).toNat) ((3 : Nat) : Int) none).addAll
        [[[54], [52]], [[50]]]).keys.Sorted (· ≤ ·) ∧
      ∀ p ∈ ((New (fun b => (b.getD 1 0).toNat) ((3 : Nat) : Int) none).addAll
          [[[54], [52]], [[50]]]).keys,
        ∃ id ∈ [[([54] : Bytes), [52]], [[50]]].flatten,
          ((New (fun b => (b.getD 1 0).toNat) ((3 : Nat) : Int) none).addAll
            [[[54], [52]], [[50]]]).hashMap p = some id :=
  ⟨(Add_positions (fun b => (b.getD 1 0).toNat) 3 none [[[54], [52]], [[50]]]).1,
    (Add_positions (fun b => (b.getD 1 0).toNat) 3 none [[[54], [52]], [[50]]]).2.2⟩

theorem int_min?_congr {l1 l2 : List Int} (h : ∀ p, p ∈ l1 ↔ p ∈ l2) : l1.min? = l2.min? := by
  cases h1 : l1.min? with
  | none =>
    have e1 : l1 = [] := List.min?_eq_none_iff.1 h1
    have e2 : l2 = [] := by
      apply List.eq_nil_iff_forall_not_mem.2
      intro a ha
      have := (h a).2 ha
      rw [e1] at this
      simp at this
    rw [e2]; rfl
  | some a =>
    rw [int_min?_eq_some_iff] at h1
    symm
    rw [int_min?_eq_some_iff]
    exact ⟨(h a).1 h1.1, fun b hb => h1.2 b ((h b).2 hb)⟩

theorem int_min?_mem {l : List Int} {a : Int} (h : l.min? = some a) : a ∈ l :=
  (int_min?_eq_some_iff.1 h).1

/-- Two rings with the same hash function, the same positions as sets and the
same map entries at these positions have the same owner for every key. -/
theorem specGet_congr (m1 m2 : Map) (hh : m1.hash = m2.hash)
    (hk : ∀ p, p ∈ m1.keys ↔ p ∈ m2.keys) (hm : ∀ p ∈ m1.keys, m1.hashMap p = m2.hashMap p)
    (key : Bytes) : m1.specGet key = m2.specGet key := by
  unfold Map.specGet
  rw [← int_min?_congr hk, ← hh]
  have hf : (m1.keys.filter (fun p => decide (toInt (m1.hash key) ≤ p))).min? =
      (m2.keys.filter (fun p => decide (toInt (m1.hash key) ≤ p))).min? := by
    apply int_min?_congr
    intro p
    simp only [List.mem_filter, hk p]
  rw [← hf]
  cases hmin : m1.keys.min? with
  | none => rfl
  | some least =>
    simp only
    cases hfil : (m1.keys.filter (fun p => decide (toInt (m1.hash key) ≤ p))).min? with
    | none =>
      simp only
      rw [hm least (int_min?_mem hmin)]
    | some p =>
      simp only
      rw [hm p (List.mem_filter.1 (int_min?_mem hfil)).1]

/-- C11 as stated fails when two ids hash to the same position.  With a hash
function that maps everything to 0 and one replica per id, the rings built by
`Add("A")`, `Add("B")` and by `Add("B")`, `Add("A")` hold the same set of ids,
but the later-added id owns the position: `Get` returns `"B"` on the first ring
and `"A"` on the second. -/
theorem Get_depends_on_order :
    (∀ id, id ∈ [[([65] : Bytes)], [[66]]].flatten ↔ id ∈ [[([66] : Bytes)], [[65]]].flatten) ∧
      ((New (fun _ => 0) 1 (some (fun _ => 0))).addAll [[[65]], [[66]]]).Get [1] = [66] ∧
      ((New (fun _ => 0) 1 (some (fun _ => 0))).addAll [[[66]], [[65]]]).Get [1] = [65] := by
  refine ⟨?_, by decide, by decide⟩
  intro id
  simp [or_comm]

/-- C11, amended. For a fixed hash function and replicas factor under which no
two distinct added ids hash to the same position, `Get(k)` depends only on the
set of added ids: for any two sequences of `Add` calls that add the same set of
ids (in any order, split over any number of calls, with or without repeats),
the two resulting rings return the same id from `Get(k)` for every key `k`. -/
theorem Get_depends_on_id_set (checksumIEEE : Hash) (R : Int) (fn : Option Hash)
    (calls1 calls2 : List (List Bytes))
    (hset : ∀ id, id ∈ calls1.flatten ↔ id ∈ calls2.flatten)
    (hinj : ∀ a ∈ calls1.flatten, ∀ b ∈ calls1.flatten, ∀ p,
      p ∈ (New checksumIEEE R fn).positionsOf a → p ∈ (New checksumIEEE R fn).positionsOf b →
      a = b)
    (key : Bytes) :
    ((New checksumIEEE R fn).addAll calls1).Get key =
      ((New checksumIEEE R fn).addAll calls2).Get key := by
  obtain ⟨a1, _, _, a4⟩ := addAll_spec calls1 (New checksumIEEE R fn)
  obtain ⟨b1, _, _, b4⟩ := addAll_spec calls2 (New checksumIEEE R fn)
  rw [Get_eq_specGet_of_sorted _ (addAll_keys_sorted _ (by simp [New]) calls1),
    Get_eq_specGet_of_sorted _ (addAll_keys_sorted _ (by simp [New]) calls2)]
  apply specGet_congr _ _ (a1.trans b1.symm)
  · intro p
    rw [mem_keys_addAll, mem_keys_addAll]
    constructor
    · rintro ⟨id, hid, hp⟩; exact ⟨id, (hset id).1 hid, hp⟩
    · rintro ⟨id, hid, hp⟩; exact ⟨id, (hset id).2 hid, hp⟩
  · intro p hp
    rw [mem_keys_addAll] at hp
    obtain ⟨id1, hid1, hp1, hown1⟩ := ownerAfter_of_mem _ _ p hp
    have hp2 : ∃ id ∈ calls2.flatten, p ∈ (New checksumIEEE R fn).positionsOf id := by
      obtain ⟨id, hid, hpid⟩ := hp
      exact ⟨id, (hset id).1 hid, hpid⟩
    obtain ⟨id2, hid2, hp2', hown2⟩ := ownerAfter_of_mem _ _ p hp2
    have : id1 = id2 := hinj id1 hid1 id2 ((hset id2).2 hid2) p hp1 hp2'
    rw [a4 p, b4 p, hown1, hown2, this]

/-- C11 amended, at the hash function that reads the second byte of its input,
with one replica per id, for the ids `"6"` and `"4"` added in both orders. -/
theorem Get_depends_on_id_set_witness :
    ((New (fun b => (b.getD 1 0).toNat) 1 (some (fun b => (b.getD 1 0).toNat))).addAll
        [[[54]], [[52]]]).Get [48, 53] =
      ((New (fun b => (b.getD 1 0).toNat) 1 (some (fun b => (b.getD 1 0).toNat))).addAll
        [[[52], [54]]]).Get [48, 53] :=
  Get_depends_on_id_set (fun b => (b.getD 1 0).toNat) 1 (some (fun b => (b.getD 1 0).toNat))
    [[[54]], [[52]]] [[[52], [54]]] (by intro id; simp [or_comm]) (by decide) [48, 53]

/-- The owner that the specification names, on a ring to which the ids `ids`
have been added by one `Add`, is the owner it named before or one of `ids`. -/
theorem specGet_Add (m : Map) (ids : List Bytes) (key : Bytes) :
    (m.Add ids).specGet key = m.specGet key ∨ (m.Add ids).specGet key ∈ ids := by
  obtain ⟨hh, _, hkeys, hmap⟩ := Add_spec m ids
  have hmem : ∀ q, q ∈ (m.Add ids).keys ↔ q ∈ m.keys ∨ ∃ id ∈ ids, q ∈ m.positionsOf id := by
    intro q
    rw [hkeys]
    unfold sortInts
    rw [(List.perm_insertionSort _ _).mem_iff]
    simp [List.mem_flatMap]
  -- the entry of a position that some new id occupies
  have hnew : ∀ q, (∃ id ∈ ids, q ∈ m.positionsOf id) →
      ∃ id ∈ ids, (m.Add ids).hashMap q = some id := by
    intro q hq
    obtain ⟨id, hid, _, hown⟩ := ownerAfter_of_mem m ids q hq
    exact ⟨id, hid, by rw [hmap, hown]⟩
  have hold : ∀ q, (¬ ∃ id ∈ ids, q ∈ m.positionsOf id) →
      (m.Add ids).hashMap q = m.hashMap q := by
    intro q hq
    rw [hmap]
    unfold Map.ownerAfter
    have : ids.reverse.find? (fun id => decide (q ∈ m.positionsOf id)) = none := by
      rw [List.find?_eq_none]
      intro id hid
      simp only [decide_eq_true_eq]
      intro hp
      exact hq ⟨id, by simpa using hid, hp⟩
    rw [this]
  -- the position that decides the owner on the new ring
  have main : ∀ q, q ∈ (m.Add ids).keys →
      ((m.Add ids).hashMap q).getD [] ∈ ids ∨
        (q ∈ m.keys ∧ (m.Add ids).hashMap q = m.hashMap q) := by
    intro q hq
    by_cases hn : ∃ id ∈ ids, q ∈ m.positionsOf id
    · obtain ⟨id, hid, hown⟩ := hnew q hn
      left
      rw [hown]
      exact hid
    · right
      rcases (hmem q).1 hq with h | h
      · exact ⟨h, hold q hn⟩
      · exact absurd h hn
  unfold Map.specGet
  rw [hh]
  cases hmin1 : (m.Add ids).keys.min? with
  | none =>
    have hnil : (m.Add ids).keys = [] := List.min?_eq_none_iff.1 hmin1
    have hnil0 : m.keys = [] := by
      cases hk : m.keys with
      | nil => rfl
      | cons a l =>
        have : a ∈ (m.Add ids).keys := (hmem a).2 (Or.inl (by rw [hk]; simp))
        rw [hnil] at this
        cases this
    left
    rw [hnil0]
    rfl
  | some least1 =>
    simp only
    have hl1 := int_min?_eq_some_iff.1 hmin1
    cases hf1 : ((m.Add ids).keys.filter (fun p => decide (toInt (m.hash key) ≤ p))).min? with
    | some q =>
      simp only
      have hq := int_min?_eq_some_iff.1 hf1
      have hqmem := List.mem_filter.1 hq.1
      rcases main q hqmem.1 with h | ⟨hqk, hqm⟩
      · exact Or.inr h
      · left
        have hmin0 : ∃ least0, m.keys.min? = some least0 := by
          cases hm0 : m.keys.min? with
          | none =>
            rw [List.min?_eq_none_iff.1 hm0] at hqk
            cases hqk
          | some a => exact ⟨a, rfl⟩
        obtain ⟨least0, hmin0⟩ := hmin0
        have hf0 : (m.keys.filter (fun p => decide (toInt (m.hash key) ≤ p))).min? = some q := by
          rw [int_min?_eq_some_iff]
          refine ⟨List.mem_filter.2 ⟨hqk, hqmem.2⟩, ?_⟩
          intro b hb
          have hb2 := List.mem_filter.1 hb
          exact hq.2 b (List.mem_filter.2 ⟨(hmem b).2 (Or.inl hb2.1), hb2.2⟩)
        rw [hmin0]
        simp only [hf0, hqm]
    | none =>
      simp only
      have hfnil := List.min?_eq_none_iff.1 hf1
      rcases main least1 hl1.1 with h | ⟨hlk, hlm⟩
      · exact Or.inr h
      · left
        have hmin0 : m.keys.min? = some least1 := by
          rw [int_min?_eq_some_iff]
          exact ⟨hlk, fun b hb => hl1.2 b ((hmem b).2 (Or.inl hb))⟩
        have hf0 : (m.keys.filter (fun p => decide (toInt (m.hash key) ≤ p))).min? = none := by
          rw [List.min?_eq_none_iff, List.filter_eq_nil_iff]
          intro b hb
          have := List.filter_eq_nil_iff.1 hfnil b ((hmem b).2 (Or.inl hb))
          exact this
        rw [hmin0]
        simp only [hf0, hlm]

/-- C23. Adding a peer to the ring moves keys only to that peer: for every
ring `r` built by `New` and any sequence of `Add` calls (any hash function, any
replicas factor), every id `p` and every key `k`, `Get(k)` on `r` after
`Add(p)` is `Get(k)` on `r` or `p`. -/
theorem Get_after_Add (checksumIEEE : Hash) (replicas : Int) (fn : Option Hash)
    (calls : List (List Bytes)) (p : Bytes) (k : Bytes) :
    (((New checksumIEEE replicas fn).addAll calls).Add [p]).Get k =
        ((New checksumIEEE replicas fn).addAll calls).Get k ∨
      (((New checksumIEEE replicas fn).addAll calls).Add [p]).Get k = p := by
  rw [Get_eq_specGet_of_sorted _ (Add_keys_sorted _ _),
    Get_eq_specGet checksumIEEE replicas fn calls k]
  rcases specGet_Add ((New checksumIEEE replicas fn).addAll calls) [p] k with h | h
  · exact Or.inl h
  · exact Or.inr (by simpa using h)

end consistentHash

/-! ## The byte-bounded cache -/

theorem cache.get_fst (c : cache) (k : Bytes) : (c.get k).1 = lru.lookup c.entries k := by
  unfold cache.get cache.entries
  cases hl : c.lru with
  | none => rfl
  | some l =>
    simp only
    have h := lru.Get_fst l k
    cases hg : l.Get k with
    | mk r l1 =>
      rw [hg] at h
      simp only at h
      cases r <;> simp only at h ⊢ <;> exact h

theorem cache.get_miss (c : cache) (k : Bytes) (h : lru.lookup c.entries k = none) :
    c.get k = (none, { c with getNum := c.getNum + 1 }) := by
  unfold cache.get
  unfold cache.entries at h
  cases hl : c.lru with
  | none => rfl
  | some l =>
    rw [hl] at h
    simp only at h ⊢
    have h1 := lru.Get_fst l k
    rw [h] at h1
    have h2 : (l.Get k).2 = l := by
      rw [lru.Get_eq]
      rw [lru.Get_eq] at h1
      cases hll : l.list with
      | none => rfl
      | some ll =>
        rw [hll] at h1
        simp only at h1 ⊢
        cases hf : ll.find? (fun e => decide (e.key = k)) with
        | none => rfl
        | some kv => rw [hf] at h1; simp at h1
    cases hg : l.Get k with
    | mk r l1 =>
      rw [hg] at h1 h2
      simp only at h1 h2
      subst h1 h2
      simp only [← hl]

theorem cache.get_hit (c : cache) (k : Bytes) (v : ByteView) (h : lru.lookup c.entries k = some v) :
    (c.get k).1 = some v := by rw [cache.get_fst, h]

theorem liveBytes_eq (c : cache) :
    c.liveBytes = (c.entries.map (fun e => (e.key.length : Int) + (e.value.Len : Int))).sum := rfl

/-- `add` of a key that is not stored, on a sub-cache of a group: the entry is
pushed at the back and its size is added to the used bytes. -/
theorem cache.add_fresh (c : cache) (hwf : c.WF) (k : Bytes) (v : ByteView)
    (hk : k ∉ c.entries.map (·.key)) :
    (c.add k v).entries = c.entries ++ [⟨k, v⟩] ∧
      (c.add k v).usedBytes = c.usedBytes + ((k.length : Int) + (v.Len : Int)) ∧
      (c.add k v).WF ∧ (c.add k v).getNum = c.getNum ∧ (c.add k v).hitNum = c.hitNum := by
  obtain ⟨used, lruo, maxE, hit, get, ev⟩ := c
  obtain ⟨hmax, hlru⟩ := hwf
  simp only at hmax
  subst hmax
  cases lruo with
  | none =>
    have hadd : (cache.mk used none 0 hit get ev).add k v =
        cache.mk (used + ((k.length : Int) + (v.Len : Int)))
          (some { maxEntries := 0, list := some [⟨k, v⟩], onEvicted := some evictCallback })
          0 hit get ev := by
      simp [cache.add, lru.Add_eq, lru.New, lru.inserted, lru.Cache.entries]
    rw [hadd]
    refine ⟨rfl, rfl, ⟨rfl, ?_⟩, rfl, rfl⟩
    intro l h
    simp only [Option.some.injEq] at h
    subst h
    exact ⟨rfl, rfl⟩
  | some l =>
    obtain ⟨hlmax, hlcb⟩ := hlru l rfl
    have hent : (cache.mk used (some l) 0 hit get ev).entries = l.entries := rfl
    rw [hent] at hk ⊢
    have hadd : (cache.mk used (some l) 0 hit get ev).add k v =
        cache.mk (used + ((k.length : Int) + (v.Len : Int)))
          (some { l with list := some (l.entries ++ [⟨k, v⟩]) }) 0 hit get ev := by
      simp [cache.add, lru.Add_eq, hlmax, lru.inserted_of_not_mem _ hk]
    rw [hadd]
    refine ⟨rfl, rfl, ⟨rfl, ?_⟩, rfl, rfl⟩
    intro l1 h
    simp only [Option.some.injEq] at h
    subst h
    exact ⟨hlmax, hlcb⟩

/-- `removeOldest` on a sub-cache of a group: the front entry, if any, is
removed and its size is subtracted from the used bytes. -/
theorem cache.removeOldest_spec (c : cache) (hwf : c.WF) :
    c.removeOldest.entries = c.entries.tail ∧
      c.removeOldest.usedBytes = c.usedBytes -
        (match c.entries.head? with
          | some e => (e.key.length : Int) + (e.value.Len : Int)
          | none => 0) ∧
      c.removeOldest.WF := by
  obtain ⟨used, lruo, maxE, hit, get, ev⟩ := c
  obtain ⟨hmax, hlru⟩ := hwf
  simp only at hmax
  subst hmax
  cases lruo with
  | none =>
    refine ⟨rfl, by simp [cache.removeOldest, cache.entries], ⟨rfl, ?_⟩⟩
    intro l h; cases h
  | some l =>
    obtain ⟨hlmax, hlcb⟩ := hlru l rfl
    obtain ⟨lmax, ll, lcb⟩ := l
    simp only at hlmax hlcb
    subst hlmax hlcb
    simp only [cache.removeOldest, lru.RemoveOldest_eq]
    cases ll with
    | none =>
      refine ⟨rfl, by simp [cache.entries, lru.Cache.entries], ⟨rfl, ?_⟩⟩
      intro l1 h
      simp only [Option.some.injEq] at h
      subst h
      exact ⟨rfl, rfl⟩
    | some ll =>
      cases ll with
      | nil =>
        refine ⟨rfl, by simp [cache.entries, lru.Cache.entries], ⟨rfl, ?_⟩⟩
        intro l1 h
        simp only [Option.some.injEq] at h
        subst h
        exact ⟨rfl, rfl⟩
      | cons e t =>
        refine ⟨rfl, ?_, ⟨rfl, ?_⟩⟩
        · simp [cache.entries, lru.Cache.entries, lru.fire, evictCallback]
        · intro l1 h
          simp only [Option.some.injEq] at h
          subst h
          exact ⟨rfl, rfl⟩

theorem cache.add_fresh_accurate (c : cache) (hwf : c.WF) (hacc : c.Accurate) (k : Bytes)
    (v : ByteView) (hk : k ∉ c.entries.map (·.key)) : (c.add k v).Accurate := by
  obtain ⟨h1, h2, _⟩ := cache.add_fresh c hwf k v hk
  unfold cache.Accurate at hacc ⊢
  rw [h2, liveBytes_eq, h1, hacc, liveBytes_eq]
  simp

theorem cache.removeOldest_accurate (c : cache) (hwf : c.WF) (hacc : c.Accurate) :
    c.removeOldest.Accurate := by
  obtain ⟨h1, h2, _⟩ := cache.removeOldest_spec c hwf
  unfold cache.Accurate at hacc ⊢
  rw [h2, liveBytes_eq, h1, hacc, liveBytes_eq]
  cases c.entries with
  | nil => simp
  | cons e t => simp

theorem cache.liveBytes_nonneg (c : cache) : 0 ≤ c.liveBytes := by
  rw [liveBytes_eq]
  apply List.sum_nonneg
  intro x hx
  obtain ⟨e, _, rfl⟩ := List.mem_map.1 hx
  positivity

theorem cache.liveBytes_of_entries_nil (c : cache) (h : c.entries = []) : c.liveBytes = 0 := by
  rw [liveBytes_eq, h]; rfl

/-! ## The group: `populateCache` -/

section populate

variable {ω ε : Type}

/-- When the eviction loop returns, the budget holds; the loop changes nothing
but the two sub-caches. -/
theorem Group.evictLoop_budget (fuel : Nat) :
    ∀ (g g1 : Group ω ε), Group.evictLoop fuel g = some g1 →
      g1.mainCache.bytes + g1.hotCache.bytes ≤ g1.cacheBytes ∧ g1.cacheBytes = g.cacheBytes := by
  induction fuel with
  | zero => intro g g1 h; simp [Group.evictLoop] at h
  | succ fuel ih =>
    intro g g1 h
    unfold Group.evictLoop at h
    simp only at h
    split at h
    · rename_i hle
      simp only [Option.some.injEq] at h
      subst h
      exact ⟨hle, rfl⟩
    · split at h
      · have := ih _ g1 h
        exact this
      · have := ih _ g1 h
        exact this

/-- With accurate byte accounting every iteration of the eviction loop that does
not return removes a stored entry, so the loop returns within as many
iterations as there are stored entries, plus one. -/
theorem Group.evictLoop_returns (fuel : Nat) :
    ∀ (g : Group ω ε), 0 < g.cacheBytes → g.WF → g.mainCache.Accurate → g.hotCache.Accurate →
      g.mainCache.entries.length + g.hotCache.entries.length < fuel →
      ∃ g1, Group.evictLoop fuel g = some g1 := by
  induction fuel with
  | zero => intro g _ _ _ _ h; omega
  | succ fuel ih =>
    intro g hcb hwf hm hh hfuel
    unfold Group.evictLoop
    simp only
    by_cases hle : g.mainCache.bytes + g.hotCache.bytes ≤ g.cacheBytes
    · rw [if_pos hle]; exact ⟨g, rfl⟩
    · rw [if_neg hle]
      have hmb : g.mainCache.bytes = g.mainCache.liveBytes := hm
      have hhb : g.hotCache.bytes = g.hotCache.liveBytes := hh
      have hm0 := g.mainCache.liveBytes_nonneg
      have hh0 := g.hotCache.liveBytes_nonneg
      by_cases hv : g.hotCache.bytes > Int.tdiv g.mainCache.bytes 8
      · rw [if_pos hv]
        have hne : g.hotCache.entries ≠ [] := by
          intro hnil
          have := g.hotCache.liveBytes_of_entries_nil hnil
          have h8 : 0 ≤ Int.tdiv g.mainCache.bytes 8 := Int.tdiv_nonneg (by omega) (by omega)
          omega
        obtain ⟨h1, _, h3⟩ := g.hotCache.removeOldest_spec hwf.2
        apply ih
        · exact hcb
        · exact ⟨hwf.1, h3⟩
        · exact hm
        · exact g.hotCache.removeOldest_accurate hwf.2 hh
        · show g.mainCache.entries.length + g.hotCache.removeOldest.entries.length < fuel
          rw [h1, List.length_tail]
          have := List.length_pos_of_ne_nil hne
          omega
      · rw [if_neg hv]
        have hne : g.mainCache.entries ≠ [] := by
          intro hnil
          have h0 := g.mainCache.liveBytes_of_entries_nil hnil
          have h8 : Int.tdiv g.mainCache.bytes 8 = 0 := by rw [hmb, h0]; rfl
          omega
        obtain ⟨h1, _, h3⟩ := g.mainCache.removeOldest_spec hwf.1
        apply ih
        · exact hcb
        · exact ⟨h3, hwf.2⟩
        · exact g.mainCache.removeOldest_accurate hwf.1 hm
        · exact hh
        · show g.mainCache.removeOldest.entries.length + g.hotCache.entries.length < fuel
          rw [h1, List.length_tail]
          have := List.length_pos_of_ne_nil hne
          omega

/-- C3. For every group with `cacheBytes > 0`, every key, value and target
sub-cache (main or hot): when `populateCache` returns,
`mainCache.bytes() + hotCache.bytes() <= cacheBytes`.  It does return, within
as many iterations of the eviction loop as there are stored entries plus two,
when the byte accounting of both sub-caches is accurate and the key is not yet
stored in the target. -/
theorem Group.populateCache_budget (g : Group ω ε) (hcb : 0 < g.cacheBytes) (key : Bytes)
    (value : ByteView) (target : Target) :
    (∀ fuel g1, g.populateCache fuel key value target = some g1 →
        g1.mainCache.bytes + g1.hotCache.bytes ≤ g.cacheBytes) ∧
      (g.WF → g.mainCache.Accurate → g.hotCache.Accurate →
        key ∉ (g.sub target).entries.map (·.key) →
        ∀ fuel, g.mainCache.entries.length + g.hotCache.entries.length + 2 ≤ fuel →
          ∃ g1, g.populateCache fuel key value target = some g1 ∧
            g1.mainCache.bytes + g1.hotCache.bytes ≤ g.cacheBytes) := by
  have hbudget : ∀ fuel g1, g.populateCache fuel key value target = some g1 →
      g1.mainCache.bytes + g1.hotCache.bytes ≤ g.cacheBytes := by
    intro fuel g1 h
    unfold Group.populateCache at h
    rw [if_neg (by omega)] at h
    simp only at h
    have := Group.evictLoop_budget fuel _ g1 h
    rw [this.2] at this
    cases target <;> exact this.1
  refine ⟨hbudget, ?_⟩
  intro hwf hm hh hfresh fuel hfuel
  have hret : ∃ g1, g.populateCache fuel key value target = some g1 := by
    unfold Group.populateCache
    rw [if_neg (by omega)]
    simp only
    cases target with
    | main =>
      obtain ⟨h1, _, h3, _⟩ := g.mainCache.add_fresh hwf.1 key value hfresh
      apply Group.evictLoop_returns
      · exact hcb
      · exact ⟨h3, hwf.2⟩
      · exact g.mainCache.add_fresh_accurate hwf.1 hm key value hfresh
      · exact hh
      · show (g.mainCache.add key value).entries.length + g.hotCache.entries.length < fuel
        rw [h1, List.length_append, List.length_singleton]
        omega
    | hot =>
      obtain ⟨h1, _, h3, _⟩ := g.hotCache.add_fresh hwf.2 key value hfresh
      apply Group.evictLoop_returns
      · exact hcb
      · exact ⟨hwf.1, h3⟩
      · exact hm
      · exact g.hotCache.add_fresh_accurate hwf.2 hh key value hfresh
      · show g.mainCache.entries.length + (g.hotCache.add key value).entries.length < fuel
        rw [h1, List.length_append, List.length_singleton]
        omega
  obtain ⟨g1, hg1⟩ := hret
  exact ⟨g1, hg1, hbudget fuel g1 hg1⟩

end populate

theorem cache.zero_WF : cache.zero.WF := ⟨rfl, fun _ h => by cases h⟩

/-- C3 at a group with a budget of 6 bytes whose main cache holds 2 bytes:
populating the main cache with a 5-byte entry returns within 3 iterations and
leaves the two sub-caches within the budget. -/
theorem Group.populateCache_budget_witness :
    (0 : Int) < group6.cacheBytes ∧
      ∃ g1, group6.populateCache 3 keyB { data := some [119, 120, 121, 122], str := [] } .main =
          some g1 ∧
        g1.mainCache.bytes + g1.hotCache.bytes ≤ group6.cacheBytes :=
  ⟨by decide,
    (Group.populateCache_budget group6 (by decide) keyB { data := some [119, 120, 121, 122], str := [] }
      .main).2
      ⟨(cache.add_fresh cache.zero cache.zero_WF keyA viewX (by decide)).2.2.1, cache.zero_WF⟩
      (by decide) (by decide) (by decide) 3 (by decide)⟩

/-- C4 fails on the code when a key is added twice: after `add("a", "x")` and
again `add("a", "x")` on an empty cache, `bytes()` is 4 while the one stored
entry has 2 bytes. -/
theorem cache.add_repeated_key :
    (cache.zero.run [.add keyA viewX, .add keyA viewX]).bytes = 4 ∧
      (cache.zero.run [.add keyA viewX, .add keyA viewX]).liveBytes = 2 ∧
      (cache.zero.run [.add keyA viewX, .add keyA viewX]).entries = [⟨keyA, viewX⟩] := by
  decide

/-- C1 as stated fails on a group whose hot cache is not empty.  The group has
a budget of 16 bytes and its hot cache holds 2 bytes; the key `"k"` is stored
in neither sub-cache, is owned locally, and the loader returns 15 bytes on it.
The first `Get("k")` returns them, but `populateCache` evicts the new entry at
once (the main cache is the victim, since 2 is not more than 16 / 8), so the
second `Get("k")` loads again: `Loads` and `LocalLoads` grow by one and the
loader is invoked a second time. -/
theorem Group.Get_twice_reloads :
    ((0 : Int) < group16Hot.cacheBytes ∧ (group16Hot.peers keyK).isNone = true ∧
      (∀ w, (group16Hot.getter keyK w).1 = .ok bytes15) ∧
      ((keyK.length : Int) + (bytes15.length : Int) ≤ group16Hot.cacheBytes) ∧
      keyK ∉ group16Hot.mainCache.entries.map (·.key) ∧
      keyK ∉ group16Hot.hotCache.entries.map (·.key)) ∧
    (group16Hot.Stats.Loads = 1 ∧ group16Hot.Stats.LocalLoads = 0) ∧
    ((group16Hot.Get 3 keyK 0 0).map
        (fun r => (r.1.1.ByteSlice, r.1.2, r.2.1.Stats.Loads, r.2.1.Stats.LocalLoads, r.2.2)) =
      some (bytes15, none, 2, 1, 1)) ∧
    ((group16Hot.Get 3 keyK 0 0).bind (fun r => (r.2.1.Get 3 keyK 0 r.2.2).map
        (fun r2 => (r2.1.1.ByteSlice, r2.1.2, r2.2.1.Stats.Loads, r2.2.1.Stats.LocalLoads, r2.2.2))) =
      some (bytes15, none, 3, 2, 2)) := by
  refine ⟨⟨by decide, by decide, fun w => rfl, by decide, by decide, by decide⟩, ⟨by decide, by decide⟩,
    by decide, by decide⟩


/-! ## The group: `Get` -/

section get

variable {ω ε : Type}

theorem lookup_none_of_not_mem {l : List (lru.entry Bytes ByteView)} {k : Bytes}
    (h : k ∉ l.map (·.key)) : lru.lookup l k = none :=
  (lru.lookup_eq_none_iff l k).2 h

theorem cache.missed_fields (count : Bool) (c : cache) :
    (c.missed count).entries = c.entries ∧ (c.missed count).usedBytes = c.usedBytes ∧
      (c.WF → (c.missed count).WF) := by
  unfold cache.missed
  split
  · exact ⟨rfl, rfl, id⟩
  · exact ⟨rfl, rfl, id⟩

/-- A lookup of a key stored in neither sub-cache misses and only counts the
two `get` calls. -/
theorem Group.lookupCache_miss (g : Group ω ε) (k : Bytes)
    (hmain : k ∉ g.mainCache.entries.map (·.key)) (hhot : k ∉ g.hotCache.entries.map (·.key)) :
    g.lookupCache k = (none, g.afterMiss) := by
  unfold Group.lookupCache Group.afterMiss cache.missed
  by_cases hcb : g.cacheBytes ≤ 0
  · have : ¬ 0 < g.cacheBytes := by omega
    simp only [hcb, if_true, this, decide_False, Bool.false_eq_true, if_false]
    rfl
  · have : 0 < g.cacheBytes := by omega
    simp only [hcb, if_false, this, decide_True, if_true]
    rw [cache.get_miss _ _ (lookup_none_of_not_mem hmain)]
    simp only
    rw [show (g.setMain { g.mainCache with getNum := g.mainCache.getNum + 1 }).hotCache =
      g.hotCache from rfl]
    rw [cache.get_miss _ _ (lookup_none_of_not_mem hhot)]

theorem Group.afterMiss_fields (g : Group ω ε) :
    g.afterMiss.mainCache.entries = g.mainCache.entries ∧
      g.afterMiss.hotCache.entries = g.hotCache.entries ∧
      g.afterMiss.mainCache.usedBytes = g.mainCache.usedBytes ∧
      g.afterMiss.hotCache.usedBytes = g.hotCache.usedBytes ∧
      (g.WF → g.afterMiss.WF) := by
  have hm := cache.missed_fields (decide (0 < g.cacheBytes)) g.mainCache
  have hh := cache.missed_fields (decide (0 < g.cacheBytes)) g.hotCache
  exact ⟨hm.1, hh.1, hm.2.1, hh.2.1, fun hwf => ⟨hm.2.2 hwf.1, hh.2.2 hwf.2⟩⟩

theorem Group.preLocal_fields (g : Group ω ε) :
    g.preLocal.mainCache.entries = g.mainCache.entries ∧
      g.preLocal.hotCache.entries = g.hotCache.entries ∧
      g.preLocal.mainCache.usedBytes = g.mainCache.usedBytes ∧
      g.preLocal.hotCache.usedBytes = g.hotCache.usedBytes ∧
      (g.WF → g.preLocal.WF) := by
  have h1 := Group.afterMiss_fields (g.count Stats.incGets)
  have h3 := Group.afterMiss_fields (((g.count Stats.incGets).afterMiss).count Stats.incLoads)
  exact ⟨h3.1.trans h1.1, h3.2.1.trans h1.2.1, h3.2.2.1.trans h1.2.2.1,
    h3.2.2.2.1.trans h1.2.2.2.1, fun hwf => h3.2.2.2.2 (h1.2.2.2.2 hwf)⟩

theorem Group.preLocal_Stats (g : Group ω ε) :
    g.preLocal.Stats =
      { g.Stats with
        Gets := g.Stats.Gets + 1
        Loads := g.Stats.Loads + 1
        LoadsDeduped := g.Stats.LoadsDeduped + 1 } := rfl

theorem Group.loadLocally_err (g : Group ω ε) (k : Bytes) (fuel : Nat) (w : ω) {v : ByteView}
    {err : ε} {g2 : Group ω ε} {w1 : ω}
    (h : g.loadLocally fuel k w = some ((v, some err), g2, w1)) : v = ByteView.zero := by
  unfold Group.loadLocally at h
  cases hg : g.getLocally k w with
  | mk r w2 =>
    rw [hg] at h
    cases r with
    | error e =>
      simp only [Option.some.injEq, Prod.mk.injEq] at h
      exact h.1.1.symm
    | ok value =>
      simp only [Option.map_eq_some'] at h
      obtain ⟨_, _, h2⟩ := h
      simp only [Prod.mk.injEq] at h2
      exact absurd h2.1.2 (by simp)

/-- The function handed to the single-flight gate, on a key that is stored in
neither sub-cache and has no remote peer, is the local load. -/
theorem Group.load_eq_loadLocally (g : Group ω ε) (k : Bytes) (fuel draw : Nat) (w : ω)
    (hmain : k ∉ g.mainCache.entries.map (·.key)) (hhot : k ∉ g.hotCache.entries.map (·.key))
    (hpick : g.peers k = none) :
    g.load fuel k draw w =
      (((g.count Stats.incLoads).afterMiss).count Stats.incLoadsDeduped).loadLocally fuel k w := by
  have hp : (((g.count Stats.incLoads).afterMiss).count Stats.incLoadsDeduped).peers k = none :=
    hpick
  unfold Group.load singleFlight.Do Group.loadFn
  simp only
  rw [Group.lookupCache_miss (g.count Stats.incLoads) k hmain hhot]
  simp only [hp]
  rcases h : (((g.count Stats.incLoads).afterMiss).count Stats.incLoadsDeduped).loadLocally
    fuel k w with _ | ⟨⟨v, _ | err⟩, g2, w1⟩
  · rfl
  · rfl
  · have := Group.loadLocally_err _ k fuel w h
    subst this
    rfl

/-- A `Get` of a key that is stored in neither sub-cache and has no remote peer
is the local load, started after the counters and the two missed lookups. -/
theorem Group.Get_eq_loadLocally (g : Group ω ε) (k : Bytes) (fuel draw : Nat) (w : ω)
    (hmain : k ∉ g.mainCache.entries.map (·.key)) (hhot : k ∉ g.hotCache.entries.map (·.key))
    (hpick : g.peers k = none) :
    g.Get fuel k draw w = g.preLocal.loadLocally fuel k w := by
  have hf := Group.afterMiss_fields (g.count Stats.incGets)
  have hload := Group.load_eq_loadLocally (g.count Stats.incGets).afterMiss k fuel draw w
    (by rw [hf.1]; exact hmain) (by rw [hf.2.1]; exact hhot) hpick
  unfold Group.Get
  simp only
  rw [Group.lookupCache_miss (g.count Stats.incGets) k hmain hhot]
  simp only
  rw [hload]
  show (match Group.loadLocally fuel g.preLocal k w with
    | none => none
    | some ((_, some err), g3, w1) => some ((ByteView.zero, some err), g3, w1)
    | some ((value, none), g3, w1) => some ((value, none), g3, w1)) = _
  rcases h : Group.loadLocally fuel g.preLocal k w with _ | ⟨⟨v, _ | err⟩, g2, w1⟩
  · rfl
  · rfl
  · have := Group.loadLocally_err _ k fuel w h
    subst this
    rfl

end get

section claims

variable {ω ε : Type}

theorem Group.count_fields (g : Group ω ε) (f : DailzCache.Stats → DailzCache.Stats) :
    (g.count f).mainCache = g.mainCache ∧ (g.count f).hotCache = g.hotCache ∧
      (g.count f).cacheBytes = g.cacheBytes ∧ (g.count f).Stats = f g.Stats ∧
      (g.count f).getter = g.getter ∧ (g.count f).peers = g.peers :=
  ⟨rfl, rfl, rfl, rfl, rfl, rfl⟩

theorem Group.setMain_fields (g : Group ω ε) (c : cache) :
    (g.setMain c).mainCache = c ∧ (g.setMain c).hotCache = g.hotCache ∧
      (g.setMain c).cacheBytes = g.cacheBytes ∧ (g.setMain c).Stats = g.Stats ∧
      (g.setMain c).getter = g.getter ∧ (g.setMain c).peers = g.peers :=
  ⟨rfl, rfl, rfl, rfl, rfl, rfl⟩

theorem Group.preLocal_cacheBytes (g : Group ω ε) : g.preLocal.cacheBytes = g.cacheBytes := rfl

theorem Group.preLocal_getter (g : Group ω ε) : g.preLocal.getter = g.getter := rfl

/-- When the new entry fits in the budget next to what is stored, `populateCache`
into the main cache adds the entry and evicts nothing. -/
theorem Group.populateCache_main_room (g : Group ω ε) (hwf : g.mainCache.WF)
    (hcb : 0 < g.cacheBytes) (k : Bytes) (v : ByteView)
    (hk : k ∉ g.mainCache.entries.map (·.key))
    (hroom : g.mainCache.usedBytes + g.hotCache.usedBytes +
      ((k.length : Int) + (v.Len : Int)) ≤ g.cacheBytes)
    (fuel : Nat) (hfuel : 0 < fuel) :
    g.populateCache fuel k v .main = some (g.setMain (g.mainCache.add k v)) := by
  obtain ⟨_, ha2, _⟩ := cache.add_fresh g.mainCache hwf k v hk
  have hcb1 : ¬ g.cacheBytes ≤ 0 := by omega
  obtain ⟨n, rfl⟩ : ∃ n, fuel = n + 1 := ⟨fuel - 1, by omega⟩
  unfold Group.populateCache
  rw [if_neg hcb1]
  simp only
  unfold Group.evictLoop
  simp only
  have hle : (g.setMain (g.mainCache.add k v)).mainCache.bytes +
      (g.setMain (g.mainCache.add k v)).hotCache.bytes ≤
      (g.setMain (g.mainCache.add k v)).cacheBytes := by
    have e := Group.setMain_fields g (g.mainCache.add k v)
    rw [e.1, e.2.1, e.2.2.1]
    unfold cache.bytes
    rw [ha2]
    omega
  rw [if_pos hle]

/-- A local load that succeeds with an entry that fits in the budget next to
what is stored. -/
theorem Group.loadLocally_room (g : Group ω ε) (hwf : g.mainCache.WF) (hcb : 0 < g.cacheBytes)
    (k b : Bytes) (w : ω) (hload : (g.getter k w).1 = .ok b)
    (hk : k ∉ g.mainCache.entries.map (·.key))
    (hroom : g.mainCache.usedBytes + g.hotCache.usedBytes +
      ((k.length : Int) + (b.length : Int)) ≤ g.cacheBytes)
    (fuel : Nat) (hfuel : 0 < fuel) :
    g.loadLocally fuel k w =
      some (({ data := some b, str := [] }, none),
        (g.count Stats.incLocalLoads).setMain (g.mainCache.add k { data := some b, str := [] }),
        (g.getter k w).2) := by
  unfold Group.loadLocally Group.getLocally
  cases hr : g.getter k w with
  | mk r w1 =>
    rw [hr] at hload
    simp only at hload
    subst hload
    simp only [cloneBytes]
    have e := Group.count_fields g Stats.incLocalLoads
    rw [Group.populateCache_main_room (g.count Stats.incLocalLoads) (by rw [e.1]; exact hwf)
      (by rw [e.2.2.1]; exact hcb) k { data := some b, str := [] } (by rw [e.1]; exact hk)
      (by rw [e.1, e.2.1, e.2.2.1]; exact hroom) fuel hfuel]
    rw [e.1]
    rfl

/-- A lookup of a key stored in the main cache, with caching enabled, hits and
changes nothing but the main cache. -/
theorem Group.lookupCache_hit_main (g : Group ω ε) (hcb : 0 < g.cacheBytes) (k : Bytes)
    (v : ByteView) (h : lru.lookup g.mainCache.entries k = some v) :
    g.lookupCache k = (some v, g.setMain (g.mainCache.get k).2) := by
  have hcb1 : ¬ g.cacheBytes ≤ 0 := by omega
  have hget := cache.get_fst g.mainCache k
  rw [h] at hget
  unfold Group.lookupCache
  rw [if_neg hcb1]
  cases hg : g.mainCache.get k with
  | mk r m =>
    rw [hg] at hget
    simp only at hget
    subst hget
    rfl

/-- C2. For every group and every key `k` that is in neither sub-cache and for
which the picker reports no remote peer: if the backing loader returns the
error `e` on `k`, then `Get(k)` returns the empty `ByteView` together with
exactly `e`, the loader having been invoked once; `LocalLoadErrs` is
incremented by one, `LocalLoads` is unchanged, and the stored entries and the
used bytes of both the main and the hot cache are unchanged. -/
theorem Group.Get_loader_error (g : Group ω ε) (k : Bytes) (e : ε) (fuel draw : Nat) (w : ω)
    (hmain : k ∉ g.mainCache.entries.map (·.key)) (hhot : k ∉ g.hotCache.entries.map (·.key))
    (hpick : g.peers k = none) (hload : (g.getter k w).1 = .error e) :
    ∃ g1, g.Get fuel k draw w = some ((ByteView.zero, some e), g1, (g.getter k w).2) ∧
      g1.Stats.LocalLoadErrs = g.Stats.LocalLoadErrs + 1 ∧
      g1.Stats.LocalLoads = g.Stats.LocalLoads ∧
      g1.mainCache.entries = g.mainCache.entries ∧ g1.mainCache.bytes = g.mainCache.bytes ∧
      g1.hotCache.entries = g.hotCache.entries ∧ g1.hotCache.bytes = g.hotCache.bytes := by
  have hf := Group.preLocal_fields g
  refine ⟨g.preLocal.count Stats.incLocalLoadErrs, ?_, rfl, rfl, hf.1, hf.2.2.1, hf.2.1,
    hf.2.2.2.1⟩
  rw [Group.Get_eq_loadLocally g k fuel draw w hmain hhot hpick]
  unfold Group.loadLocally Group.getLocally
  rw [Group.preLocal_getter]
  cases hr : g.getter k w with
  | mk r w1 =>
    rw [hr] at hload
    simp only at hload
    subst hload
    rfl

/-- C2 at a new group with a loader that fails on the key `"b"`. -/
theorem Group.Get_loader_error_witness :
    ∃ g1, group16.Get 0 keyB 0 0 = some ((ByteView.zero, some "b not exist"), g1, 1) ∧
      g1.Stats.LocalLoadErrs = group16.Stats.LocalLoadErrs + 1 ∧
      g1.Stats.LocalLoads = group16.Stats.LocalLoads ∧
      g1.mainCache.entries = group16.mainCache.entries ∧
      g1.mainCache.bytes = group16.mainCache.bytes ∧
      g1.hotCache.entries = group16.hotCache.entries ∧
      g1.hotCache.bytes = group16.hotCache.bytes :=
  Group.Get_loader_error group16 keyB "b not exist" 0 0 0 (by decide) (by decide) rfl rfl

end claims

/-! ## The registry, the pool and the counters -/

section registry

variable {ω ε : Type}

theorem registerAll_of_not_mem (getPeers : Bytes → PeerPicker ω ε)
    (calls : List (NewGroupCall ω ε)) :
    ∀ (groups : Registry ω ε) (name : Bytes), name ∉ calls.map (·.name) →
      GetGroup (registerAll getPeers groups calls) name = GetGroup groups name := by
  induction calls with
  | nil => intro groups name _; rfl
  | cons c cs ih =>
    intro groups name hn
    simp only [List.map_cons, List.mem_cons, not_or] at hn
    have hstep : GetGroup (NewGroup getPeers groups c.name c.cacheBytes c.getter).2 name =
        GetGroup groups name := by
      unfold NewGroup newGroup GetGroup
      cases c.getter with
      | none => rfl
      | some getter =>
        simp only
        cases groups c.name with
        | some _ => rfl
        | none => simp only [hn.1, if_false]
    have := ih (NewGroup getPeers groups c.name c.cacheBytes c.getter).2 name hn.2
    exact this.trans hstep

/-- C17. `NewGroup(name, cacheBytes, getter)` fails fatally (panics) if and
only if `getter` is nil or a group is already registered under `name`, and in
that case the registry is unchanged; otherwise it returns a new group `g` such
that `GetGroup(name)` returns `g` afterwards and every other name's
registration is unchanged.  `GetGroup` of a name that was never registered (in
the registry built from the empty one by any `NewGroup` calls for other names)
returns nil. -/
theorem NewGroup_spec (getPeers : Bytes → PeerPicker ω ε) (groups : Registry ω ε) (name : Bytes)
    (cacheBytes : Int) (getter : Option (Getter ω ε)) :
    ((∃ panic, (NewGroup getPeers groups name cacheBytes getter).1 = .error panic) ↔
        (getter = none ∨ GetGroup groups name ≠ none)) ∧
      ((∃ panic, (NewGroup getPeers groups name cacheBytes getter).1 = .error panic) →
        (NewGroup getPeers groups name cacheBytes getter).2 = groups) ∧
      ((¬ ∃ panic, (NewGroup getPeers groups name cacheBytes getter).1 = .error panic) →
        ∃ g, (NewGroup getPeers groups name cacheBytes getter).1 = .ok g ∧
          g.name = name ∧ g.cacheBytes = cacheBytes ∧ some g.getter = getter ∧
          GetGroup (NewGroup getPeers groups name cacheBytes getter).2 name = some g ∧
          ∀ other, other ≠ name →
            GetGroup (NewGroup getPeers groups name cacheBytes getter).2 other =
              GetGroup groups other) ∧
      (∀ calls : List (NewGroupCall ω ε), name ∉ calls.map (·.name) →
        GetGroup (registerAll getPeers Registry.empty calls) name = none) := by
  refine ⟨?_, ?_, ?_, ?_⟩
  · unfold NewGroup newGroup GetGroup
    cases getter with
    | none => simp
    | some getter =>
      simp only
      cases groups name with
      | some g0 => simp
      | none => simp
  · unfold NewGroup newGroup
    cases getter with
    | none => intro _; rfl
    | some getter =>
      simp only
      cases groups name with
      | some g0 => intro _; rfl
      | none =>
        rintro ⟨panic, h⟩
        simp at h
  · unfold NewGroup newGroup GetGroup
    cases getter with
    | none => intro h; exact absurd ⟨_, rfl⟩ h
    | some getter =>
      simp only
      cases hg : groups name with
      | some g0 => intro h; exact absurd ⟨_, rfl⟩ h
      | none =>
        intro _
        refine ⟨_, rfl, rfl, rfl, rfl, by simp, ?_⟩
        intro other hne
        simp only [hne, if_false]
  · intro calls hn
    exact registerAll_of_not_mem getPeers calls Registry.empty name hn

/-- C17 at the empty registry, for the name `"g"` and a loader. -/
theorem NewGroup_spec_witness :
    ∃ g, (NewGroup (fun _ => pickerA) Registry.empty [103] 16 (some countingGetter)).1 = .ok g ∧
      g.name = [103] ∧ g.cacheBytes = 16 ∧ some g.getter = some countingGetter ∧
      GetGroup (NewGroup (fun _ => pickerA) Registry.empty [103] 16 (some countingGetter)).2
        [103] = some g ∧
      ∀ other, other ≠ [103] →
        GetGroup (NewGroup (fun _ => pickerA) Registry.empty [103] 16 (some countingGetter)).2
          other = GetGroup Registry.empty other :=
  (NewGroup_spec (fun _ => pickerA) Registry.empty [103] 16 (some countingGetter)).2.2.1
    (by rintro ⟨panic, h⟩; cases h)

end registry

/-- The eviction counter of a byte-bounded cache is never written. -/
theorem cache.run_evictNum (ops : List CacheCall) :
    ∀ c : cache, (c.run ops).evictNum = c.evictNum := by
  induction ops with
  | nil => intro c; rfl
  | cons op ops ih =>
    intro c
    have hstep : (c.step op).evictNum = c.evictNum := by
      cases op with
      | add k v => rfl
      | removeOldest =>
        unfold cache.step cache.removeOldest
        cases c.lru <;> rfl
    exact (ih (c.step op)).trans hstep

/-- C18 fails on the code, which never writes the eviction counter: after
`add("a", "x")` and `removeOldest()` on an empty cache the one stored entry has
been removed from the LRU, and `stats().Evictions` is still 0. -/
theorem cache.removeOldest_not_counted :
    (cache.zero.run [.add keyA viewX]).entries = [⟨keyA, viewX⟩] ∧
      (cache.zero.run [.add keyA viewX]).stats.Evictions = 0 ∧
      (cache.zero.run [.add keyA viewX, .removeOldest]).entries = [] ∧
      (cache.zero.run [.add keyA viewX, .removeOldest]).stats.Evictions = 0 := by
  decide

/-- C19 fails on the code: `Get` returns a value found by its first lookup
without counting a cache hit.  On a new group with a budget of 16 bytes, after
two `Get("k")` calls, the second one answered from the main cache, `Gets` is 2,
`CacheHits` is 0 and `Loads` is 1. -/
theorem Group.Get_hit_not_counted :
    (group16.runGets 0 [⟨1, keyK, 0⟩, ⟨1, keyK, 0⟩]).map
        (fun r => (r.1.Stats.Gets, r.1.Stats.CacheHits, r.1.Stats.Loads, r.2)) =
      some (2, 0, 1, 1) := by
  decide

section pool

variable {ω ε : Type}

/-- C16. For every `HTTPPool` state and every key: `PickPeer(key)` reports a
remote peer (second result true) if and only if the ring is non-empty and the
ring's owner `Get(key)` differs from the pool's own address `self`; the handle
it then returns is the one stored for that owner, never for `self`; in the
other cases it returns `(nil, false)`, and `Group.load`, on a group whose
picker answers like the pool and for a key stored in neither sub-cache, then
runs the local load. -/
theorem HTTPPool.PickPeer_spec (p : HTTPPool) (key : Bytes) :
    ((p.PickPeer key).2 = true ↔ (p.peers.IsEmpty = false ∧ p.peers.Get key ≠ p.self)) ∧
      ((p.PickPeer key).2 = true →
        (p.PickPeer key).1 = p.httpGetters (p.peers.Get key) ∧ p.peers.Get key ≠ p.self) ∧
      ((p.PickPeer key).2 = false → p.PickPeer key = (none, false)) ∧
      (∀ (g : Group ω ε) (fuel draw : Nat) (w : ω),
        (g.peers key).isSome = (p.PickPeer key).2 → (p.PickPeer key).2 = false →
        key ∉ g.mainCache.entries.map (·.key) → key ∉ g.hotCache.entries.map (·.key) →
        g.load fuel key draw w =
          (((g.count Stats.incLoads).afterMiss).count Stats.incLoadsDeduped).loadLocally
            fuel key w) := by
  have h1 : (p.PickPeer key).2 = true ↔ (p.peers.IsEmpty = false ∧ p.peers.Get key ≠ p.self) := by
    unfold HTTPPool.PickPeer
    cases he : p.peers.IsEmpty with
    | true => simp
    | false =>
      by_cases hs : p.peers.Get key = p.self
      · simp [hs]
      · simp [hs]
  refine ⟨h1, ?_, ?_, ?_⟩
  · intro h
    obtain ⟨he, hs⟩ := h1.1 h
    refine ⟨?_, hs⟩
    unfold HTTPPool.PickPeer
    simp [he, hs]
  · intro h
    unfold HTTPPool.PickPeer at h ⊢
    cases he : p.peers.IsEmpty with
    | true => simp
    | false =>
      by_cases hs : p.peers.Get key = p.self
      · simp [hs]
      · simp [he, hs] at h
  · intro g fuel draw w hsame hfalse hmain hhot
    apply Group.load_eq_loadLocally g key fuel draw w hmain hhot
    rw [hfalse] at hsame
    cases hp : g.peers key with
    | none => rfl
    | some peer => rw [hp] at hsame; simp at hsame

/-- C16 at a pool of address `"b"` whose ring holds the one id `"a"`. -/
theorem HTTPPool.PickPeer_spec_witness :
    (({ self := keyB, opts := { BasePath := [47], Replicas := 1, HashFn := none },
        peers := consistentHash.New (fun _ => 0) 1 none, httpGetters := fun _ => none } :
      HTTPPool).Set [keyA]).PickPeer keyK =
      (some { baseURL := [97, 47] }, true) := by
  have h := (@HTTPPool.PickPeer_spec Unit Unit
    (({ self := keyB, opts := { BasePath := [47], Replicas := 1, HashFn := none },
        peers := consistentHash.New (fun _ => 0) 1 none, httpGetters := fun _ => none } :
      HTTPPool).Set [keyA]) keyK).2.1 (by decide)
  exact Prod.ext (h.1.trans (by decide)) (by decide)
end pool

/-! ## The group with caching disabled -/

section disabled

variable {ω ε : Type}

theorem Group.sameStore_refl (g : Group ω ε) : g.sameStore g := ⟨rfl, rfl, rfl, rfl, rfl, rfl⟩

theorem Group.sameStore_count {g g1 : Group ω ε} (h : g.sameStore g1)
    (f : DailzCache.Stats → DailzCache.Stats) : g.sameStore (g1.count f) := h

theorem Group.sameStore_trans {g g1 g2 : Group ω ε} (h1 : g.sameStore g1)
    (h2 : g1.sameStore g2) : g.sameStore g2 :=
  ⟨h2.1.trans h1.1, h2.2.1.trans h1.2.1, h2.2.2.1.trans h1.2.2.1, h2.2.2.2.1.trans h1.2.2.2.1,
    h2.2.2.2.2.1.trans h1.2.2.2.2.1, h2.2.2.2.2.2.trans h1.2.2.2.2.2⟩

theorem Group.lookupCache_disabled (g : Group ω ε) (hcb : g.cacheBytes ≤ 0) (k : Bytes) :
    g.lookupCache k = (none, g) := by
  unfold Group.lookupCache
  rw [if_pos hcb]

theorem Group.populateCache_disabled (g : Group ω ε) (hcb : g.cacheBytes ≤ 0) (fuel : Nat)
    (k : Bytes) (v : ByteView) (target : Target) : g.populateCache fuel k v target = some g := by
  unfold Group.populateCache
  rw [if_pos hcb]

/-- The local load of a group with caching disabled: the loader is called and
its result is returned; only the counters change. -/
theorem Group.loadLocally_disabled (g : Group ω ε) (hcb : g.cacheBytes ≤ 0) (fuel : Nat)
    (k : Bytes) (w : ω) :
    ∃ r g1, g.loadLocally fuel k w = some (r, g1, (g.getter k w).2) ∧ g.sameStore g1 ∧
      (∀ b, (g.getter k w).1 = .ok b → r = ({ data := some b, str := [] }, none)) ∧
      (∀ e, (g.getter k w).1 = .error e → r = (ByteView.zero, some e)) := by
  unfold Group.loadLocally Group.getLocally
  cases hr : g.getter k w with
  | mk res w1 =>
    cases res with
    | error e =>
      refine ⟨_, _, rfl, Group.sameStore_count (Group.sameStore_refl g) _, ?_, ?_⟩
      · intro b hb; cases hb
      · intro e1 he; cases he; rfl
    | ok b =>
      simp only [cloneBytes]
      rw [Group.populateCache_disabled (g.count Stats.incLocalLoads) hcb]
      refine ⟨_, _, rfl, Group.sameStore_count (Group.sameStore_refl g) _, ?_, ?_⟩
      · intro b1 hb; cases hb; rfl
      · intro e he; cases he

/-- A `Get` on a group with caching disabled returns, for every bound on the
eviction loop, and changes nothing but the counters; when the key is owned
locally it calls the loader and returns its result. -/
theorem Group.Get_disabled (g : Group ω ε) (hcb : g.cacheBytes ≤ 0) (fuel : Nat) (k : Bytes)
    (draw : Nat) (w : ω) :
    ∃ r g1 w1, g.Get fuel k draw w = some (r, g1, w1) ∧ g.sameStore g1 ∧
      (g.peers k = none → w1 = (g.getter k w).2 ∧
        (∀ b, (g.getter k w).1 = .ok b → r = ({ data := some b, str := [] }, none)) ∧
        (∀ e, (g.getter k w).1 = .error e → r = (ByteView.zero, some e))) := by
  have hs2 : g.sameStore (((g.count Stats.incGets).count Stats.incLoads).count
      Stats.incLoadsDeduped) :=
    Group.sameStore_count (Group.sameStore_count (Group.sameStore_count
      (Group.sameStore_refl g) _) _) _
  unfold Group.Get
  simp only
  rw [Group.lookupCache_disabled (g.count Stats.incGets) hcb]
  simp only
  unfold Group.load singleFlight.Do Group.loadFn
  simp only
  rw [Group.lookupCache_disabled ((g.count Stats.incGets).count Stats.incLoads) hcb]
  simp only
  rw [show (((g.count Stats.incGets).count Stats.incLoads).count Stats.incLoadsDeduped).peers =
    g.peers from rfl]
  cases hp : g.peers k with
  | none =>
    simp only
    obtain ⟨r, g1, h1, h2, h3, h4⟩ := Group.loadLocally_disabled
      (((g.count Stats.incGets).count Stats.incLoads).count Stats.incLoadsDeduped) hcb fuel k w
    rw [h1]
    obtain ⟨v, _ | err⟩ := r
    · exact ⟨_, _, _, rfl, Group.sameStore_trans hs2 h2, fun _ => ⟨rfl, h3, h4⟩⟩
    · refine ⟨_, _, _, rfl, Group.sameStore_trans hs2 h2, fun _ => ⟨rfl, ?_, ?_⟩⟩
      · intro b hb; exact absurd (h3 b hb) (by simp)
      · intro e he; have := h4 e he; simp only [Prod.mk.injEq] at this; rw [this.2]
  | some peer =>
    simp only
    unfold Group.getFromPeer
    cases hpr : peer (((g.count Stats.incGets).count Stats.incLoads).count
        Stats.incLoadsDeduped).name k w with
    | mk res w1 =>
      cases res with
      | ok rv =>
        simp only
        by_cases hd : draw = 0
        · rw [if_pos hd, Group.populateCache_disabled
            (((g.count Stats.incGets).count Stats.incLoads).count Stats.incLoadsDeduped) hcb]
          simp only [Option.map_some']
          exact ⟨_, _, _, rfl, Group.sameStore_count hs2 _, fun h => by cases h⟩
        · rw [if_neg hd]
          exact ⟨_, _, _, rfl, Group.sameStore_count hs2 _, fun h => by cases h⟩
      | error e1 =>
        simp only
        obtain ⟨r, g1, h1, h2, _, _⟩ := Group.loadLocally_disabled
          ((((g.count Stats.incGets).count Stats.incLoads).count Stats.incLoadsDeduped).count
            Stats.incPeerErrors) hcb fuel k w1
        rw [h1]
        obtain ⟨v, _ | err⟩ := r
        · exact ⟨_, _, _, rfl, Group.sameStore_trans (Group.sameStore_count hs2 _) h2,
            fun h => by cases h⟩
        · exact ⟨_, _, _, rfl, Group.sameStore_trans (Group.sameStore_count hs2 _) h2,
            fun h => by cases h⟩

theorem Group.runGets_disabled (calls : List GetCall) :
    ∀ (g : Group ω ε) (w : ω), g.cacheBytes ≤ 0 →
      ∃ g1 w1, g.runGets w calls = some (g1, w1) ∧ g.sameStore g1 := by
  induction calls with
  | nil => intro g w _; exact ⟨g, w, rfl, Group.sameStore_refl g⟩
  | cons c cs ih =>
    intro g w hcb
    obtain ⟨r, g1, w1, h1, h2, _⟩ := Group.Get_disabled g hcb c.fuel c.key c.draw w
    obtain ⟨g2, w2, h3, h4⟩ := ih g1 w1 (by rw [h2.2.2.1]; exact hcb)
    refine ⟨g2, w2, ?_, Group.sameStore_trans h2 h4⟩
    unfold Group.runGets
    rw [h1]
    exact h3

/-- C15. For every group with `cacheBytes <= 0`: `lookupCache` misses for every
key and `populateCache` leaves both sub-caches unchanged, so after any sequence
of `Get` calls both sub-caches are as they were (empty with zero used bytes in
a group created with such a budget), and every `Get(k)` that owns `k` locally
invokes the backing loader and returns what it returns. -/
theorem Group.disabled_spec (g : Group ω ε) (hcb : g.cacheBytes ≤ 0) :
    (∀ key, g.lookupCache key = (none, g)) ∧
      (∀ fuel key value target, g.populateCache fuel key value target = some g) ∧
      (∀ w calls, ∃ g1 w1, g.runGets w calls = some (g1, w1) ∧
        g1.mainCache = g.mainCache ∧ g1.hotCache = g.hotCache) ∧
      (∀ fuel key draw w, g.peers key = none →
        ∃ r g1, g.Get fuel key draw w = some (r, g1, (g.getter key w).2) ∧
          (∀ b, (g.getter key w).1 = .ok b → r = ({ data := some b, str := [] }, none)) ∧
          (∀ e, (g.getter key w).1 = .error e → r = (ByteView.zero, some e))) := by
  refine ⟨Group.lookupCache_disabled g hcb, Group.populateCache_disabled g hcb, ?_, ?_⟩
  · intro w calls
    obtain ⟨g1, w1, h1, h2⟩ := Group.runGets_disabled calls g w hcb
    exact ⟨g1, w1, h1, h2.1, h2.2.1⟩
  · intro fuel key draw w hp
    obtain ⟨r, g1, w1, h1, _, h3⟩ := Group.Get_disabled g hcb fuel key draw w
    obtain ⟨h4, h5, h6⟩ := h3 hp
    subst h4
    exact ⟨r, g1, h1, h5, h6⟩

/-- C15 at a new group with a budget of 0 bytes, after three `Get` calls. -/
theorem Group.disabled_spec_witness :
    ∃ g1 w1, (Group.init [103] 0 countingGetter pickerA).runGets 0
        [⟨1, keyK, 0⟩, ⟨1, keyA, 0⟩, ⟨1, keyK, 0⟩] = some (g1, w1) ∧
      g1.mainCache = cache.zero ∧ g1.hotCache = cache.zero :=
  (Group.disabled_spec (Group.init [103] 0 countingGetter pickerA) (by decide)).2.2.1 0
    [⟨1, keyK, 0⟩, ⟨1, keyA, 0⟩, ⟨1, keyK, 0⟩]

end disabled

/-! ## The group: a key routed to a remote peer -/

section peer

variable {ω ε : Type}

theorem Group.setHot_fields (g : Group ω ε) (c : cache) :
    (g.setHot c).mainCache = g.mainCache ∧ (g.setHot c).hotCache = c ∧
      (g.setHot c).cacheBytes = g.cacheBytes ∧ (g.setHot c).Stats = g.Stats ∧
      (g.setHot c).getter = g.getter ∧ (g.setHot c).peers = g.peers :=
  ⟨rfl, rfl, rfl, rfl, rfl, rfl⟩

theorem Group.preLocal_name (g : Group ω ε) : g.preLocal.name = g.name := rfl

theorem Group.preLocal_peers (g : Group ω ε) : g.preLocal.peers = g.peers := rfl

theorem cache.removeOldest_entries (c : cache) : c.removeOldest.entries = c.entries.tail := by
  obtain ⟨used, lruo, maxE, hit, get, ev⟩ := c
  cases lruo with
  | none => rfl
  | some l =>
    obtain ⟨lmax, ll, lcb⟩ := l
    simp only [cache.removeOldest, lru.RemoveOldest_eq]
    cases ll with
    | none => rfl
    | some ll =>
      cases ll with
      | nil => rfl
      | cons e t => rfl

/-- The eviction loop changes nothing but the two sub-caches, from which it
only removes oldest entries. -/
theorem Group.evictLoop_frame (fuel : Nat) :
    ∀ (g g1 : Group ω ε), Group.evictLoop fuel g = some g1 →
      g1.Stats = g.Stats ∧ (∃ n, g1.mainCache.entries = g.mainCache.entries.drop n) ∧
        ∃ n, g1.hotCache.entries = g.hotCache.entries.drop n := by
  induction fuel with
  | zero => intro g g1 h; simp [Group.evictLoop] at h
  | succ fuel ih =>
    intro g g1 h
    unfold Group.evictLoop at h
    simp only at h
    split at h
    · simp only [Option.some.injEq] at h
      subst h
      exact ⟨rfl, ⟨0, rfl⟩, ⟨0, rfl⟩⟩
    · split at h
      · obtain ⟨h1, ⟨n, h2⟩, ⟨n1, h3⟩⟩ := ih _ g1 h
        have e := Group.setHot_fields g g.hotCache.removeOldest
        rw [e.2.2.2.1] at h1
        rw [e.1] at h2
        rw [e.2.1, cache.removeOldest_entries] at h3
        refine ⟨h1, ⟨n, h2⟩, ⟨n1 + 1, ?_⟩⟩
        rw [h3, List.drop_tail]
      · obtain ⟨h1, ⟨n, h2⟩, ⟨n1, h3⟩⟩ := ih _ g1 h
        have e := Group.setMain_fields g g.mainCache.removeOldest
        rw [e.2.2.2.1] at h1
        rw [e.2.1] at h3
        rw [e.1, cache.removeOldest_entries] at h2
        refine ⟨h1, ⟨n + 1, ?_⟩, ⟨n1, h3⟩⟩
        rw [h2, List.drop_tail]

/-- What `populateCache` into the hot cache leaves of the rest of the group:
the counters, and the main cache but for oldest entries that the budget
eviction has removed. -/
theorem Group.populateCache_hot_frame (g g1 : Group ω ε) (fuel : Nat) (k : Bytes) (v : ByteView)
    (h : g.populateCache fuel k v .hot = some g1) :
    g1.Stats = g.Stats ∧ ∃ n, g1.mainCache.entries = g.mainCache.entries.drop n := by
  unfold Group.populateCache at h
  split at h
  · simp only [Option.some.injEq] at h
    subst h
    exact ⟨rfl, 0, rfl⟩
  · simp only at h
    obtain ⟨h1, h2, _⟩ := Group.evictLoop_frame fuel _ g1 h
    have e := Group.setHot_fields g (g.hotCache.add k v)
    rw [e.2.2.2.1] at h1
    rw [e.1] at h2
    exact ⟨h1, h2⟩

/-- What `populateCache` into the main cache does on a group with caching
enabled, for a key that is not stored there: the entry is pushed as the most
recent one, after which the budget eviction may remove oldest entries. -/
theorem Group.populateCache_main_frame (g g1 : Group ω ε) (fuel : Nat) (k : Bytes)
    (v : ByteView) (hcb : 0 < g.cacheBytes) (hwf : g.mainCache.WF)
    (hk : k ∉ g.mainCache.entries.map (·.key))
    (h : g.populateCache fuel k v .main = some g1) :
    g1.Stats = g.Stats ∧
      ∃ n, g1.mainCache.entries =
        (g.mainCache.entries ++ [(⟨k, v⟩ : lru.entry Bytes ByteView)]).drop n := by
  unfold Group.populateCache at h
  rw [if_neg (by omega)] at h
  simp only at h
  obtain ⟨h1, h2, _⟩ := Group.evictLoop_frame fuel _ g1 h
  have e := Group.setMain_fields g (g.mainCache.add k v)
  rw [e.2.2.2.1] at h1
  rw [e.1, (cache.add_fresh g.mainCache hwf k v hk).1] at h2
  exact ⟨h1, h2⟩

/-- With accurate byte accounting `populateCache` of a key that is not stored
in the target returns within as many iterations as there are stored entries,
plus two. -/
theorem Group.populateCache_returns (g : Group ω ε) (hwf : g.WF) (hm : g.mainCache.Accurate)
    (hh : g.hotCache.Accurate) (k : Bytes) (v : ByteView) (target : Target)
    (hk : k ∉ (g.sub target).entries.map (·.key)) (fuel : Nat)
    (hfuel : g.mainCache.entries.length + g.hotCache.entries.length + 2 ≤ fuel) :
    ∃ g1, g.populateCache fuel k v target = some g1 := by
  unfold Group.populateCache
  by_cases hcb : g.cacheBytes ≤ 0
  · rw [if_pos hcb]; exact ⟨g, rfl⟩
  · rw [if_neg hcb]
    simp only
    cases target with
    | main =>
      obtain ⟨h1, _, h3, _⟩ := g.mainCache.add_fresh hwf.1 k v hk
      apply Group.evictLoop_returns
      · have e := Group.setMain_fields g (g.mainCache.add k v)
        rw [e.2.2.1]; omega
      · exact ⟨h3, hwf.2⟩
      · exact g.mainCache.add_fresh_accurate hwf.1 hm k v hk
      · exact hh
      · have e := Group.setMain_fields g (g.mainCache.add k v)
        rw [e.1, e.2.1, h1, List.length_append, List.length_singleton]
        omega
    | hot =>
      obtain ⟨h1, _, h3, _⟩ := g.hotCache.add_fresh hwf.2 k v hk
      apply Group.evictLoop_returns
      · have e := Group.setHot_fields g (g.hotCache.add k v)
        rw [e.2.2.1]; omega
      · exact ⟨hwf.1, h3⟩
      · exact hm
      · exact g.hotCache.add_fresh_accurate hwf.2 hh k v hk
      · have e := Group.setHot_fields g (g.hotCache.add k v)
        rw [e.1, e.2.1, h1, List.length_append, List.length_singleton]
        omega

theorem cache.accurate_congr {c c1 : cache} (he : c1.entries = c.entries)
    (hu : c1.usedBytes = c.usedBytes) (h : c.Accurate) : c1.Accurate := by
  unfold cache.Accurate at h ⊢
  rw [hu, h, liveBytes_eq, liveBytes_eq, he]

theorem Group.preLocal_accurate (g : Group ω ε) (hm : g.mainCache.Accurate)
    (hh : g.hotCache.Accurate) : g.preLocal.mainCache.Accurate ∧ g.preLocal.hotCache.Accurate := by
  have hf := Group.preLocal_fields g
  exact ⟨cache.accurate_congr hf.1 hf.2.2.1 hm, cache.accurate_congr hf.2.1 hf.2.2.2.1 hh⟩

/-- A `Get` of a key that is stored in neither sub-cache and is routed to a
remote peer that answers: the value is the peer's, and the hot cache is
populated when the draw is 0. -/
theorem Group.Get_eq_peer_ok (g : Group ω ε) (k : Bytes) (fuel draw : Nat) (w : ω)
    (peer : ProtoGetter ω ε) (rv : Option Bytes) (w1 : ω)
    (hmain : k ∉ g.mainCache.entries.map (·.key)) (hhot : k ∉ g.hotCache.entries.map (·.key))
    (hpick : g.peers k = some peer) (hpeer : peer g.name k w = (.ok rv, w1)) :
    g.Get fuel k draw w =
      (if draw = 0 then g.preLocal.populateCache fuel k { data := rv, str := [] } .hot
        else some g.preLocal).map
        (fun g3 => (({ data := rv, str := [] }, none), g3.count Stats.incPeerLoads, w1)) := by
  have hf := Group.afterMiss_fields (g.count Stats.incGets)
  have hp : g.preLocal.peers k = some peer := hpick
  have hn : peer g.preLocal.name k w = (.ok rv, w1) := hpeer
  unfold Group.Get
  simp only
  rw [Group.lookupCache_miss (g.count Stats.incGets) k hmain hhot]
  simp only
  unfold Group.load singleFlight.Do Group.loadFn
  simp only
  rw [Group.lookupCache_miss (((g.count Stats.incGets).afterMiss).count Stats.incLoads) k
    (by rw [(Group.count_fields _ _).1, hf.1]; exact hmain)
    (by rw [(Group.count_fields _ _).2.1, hf.2.1]; exact hhot)]
  simp only
  show (match (match (match g.preLocal.peers k with
      | some peer =>
        match g.preLocal.getFromPeer fuel k peer draw w with
        | none => none
        | some (.ok value, g3, w1) => some ((value, none), g3.count Stats.incPeerLoads, w1)
        | some (.error _, g3, w1) => (g3.count Stats.incPeerErrors).loadLocally fuel k w1
      | none => g.preLocal.loadLocally fuel k w) with
    | none => none
    | some ((view, none), g2, w1) => some ((view, none), g2, w1)
    | some ((_, some err), g2, w1) => some ((ByteView.zero, some err), g2, w1)) with
    | none => none
    | some ((_, some err), g3, w1) => some ((ByteView.zero, some err), g3, w1)
    | some ((value, none), g3, w1) => some ((value, none), g3, w1)) = _
  rw [hp]
  simp only
  unfold Group.getFromPeer
  rw [hn]
  simp only
  by_cases hd : draw = 0
  · simp only [hd, if_true]
    cases g.preLocal.populateCache fuel k { data := rv, str := [] } .hot <;> rfl
  · simp only [hd, if_false]
    rfl

/-- A `Get` of a key that is stored in neither sub-cache and is routed to a
remote peer that fails: the peer error is counted and the local load runs. -/
theorem Group.Get_eq_peer_error (g : Group ω ε) (k : Bytes) (fuel draw : Nat) (w : ω)
    (peer : ProtoGetter ω ε) (e1 : ε) (w1 : ω)
    (hmain : k ∉ g.mainCache.entries.map (·.key)) (hhot : k ∉ g.hotCache.entries.map (·.key))
    (hpick : g.peers k = some peer) (hpeer : peer g.name k w = (.error e1, w1)) :
    g.Get fuel k draw w = (g.preLocal.count Stats.incPeerErrors).loadLocally fuel k w1 := by
  have hf := Group.afterMiss_fields (g.count Stats.incGets)
  have hp : g.preLocal.peers k = some peer := hpick
  have hn : peer g.preLocal.name k w = (.error e1, w1) := hpeer
  unfold Group.Get
  simp only
  rw [Group.lookupCache_miss (g.count Stats.incGets) k hmain hhot]
  simp only
  unfold Group.load singleFlight.Do Group.loadFn
  simp only
  rw [Group.lookupCache_miss (((g.count Stats.incGets).afterMiss).count Stats.incLoads) k
    (by rw [(Group.count_fields _ _).1, hf.1]; exact hmain)
    (by rw [(Group.count_fields _ _).2.1, hf.2.1]; exact hhot)]
  simp only
  show (match (match (match g.preLocal.peers k with
      | some peer =>
        match g.preLocal.getFromPeer fuel k peer draw w with
        | none => none
        | some (.ok value, g3, w1) => some ((value, none), g3.count Stats.incPeerLoads, w1)
        | some (.error _, g3, w1) => (g3.count Stats.incPeerErrors).loadLocally fuel k w1
      | none => g.preLocal.loadLocally fuel k w) with
    | none => none
    | some ((view, none), g2, w1) => some ((view, none), g2, w1)
    | some ((_, some err), g2, w1) => some ((ByteView.zero, some err), g2, w1)) with
    | none => none
    | some ((_, some err), g3, w1) => some ((ByteView.zero, some err), g3, w1)
    | some ((value, none), g3, w1) => some ((value, none), g3, w1)) = _
  rw [hp]
  simp only
  unfold Group.getFromPeer
  rw [hn]
  simp only
  rcases h : (g.preLocal.count Stats.incPeerErrors).loadLocally fuel k w1 with
    _ | ⟨⟨v, _ | err⟩, g2, w2⟩
  · rfl
  · rfl
  · have := Group.loadLocally_err _ k fuel w1 h
    subst this
    rfl

end peer

section peerclaims

variable {ω ε : Type}

/-- C13 as stated fails when the draw is 0 and the budget is full.  The main
cache of the group holds the key `"k"` with 16 bytes, the whole budget; the key
`"a"` is stored in neither sub-cache and its peer answers with one byte.
`Get("a")` with the draw 0 populates the hot cache, and the budget eviction
then removes the entry of `"k"` from the main cache. -/
theorem Group.Get_peer_evicts_main :
    (keyA ∉ group16Main.mainCache.entries.map (·.key) ∧
      keyA ∉ group16Main.hotCache.entries.map (·.key) ∧
      (group16Main.peers keyA).isSome = true ∧
      (∀ w, (peerX group16Main.name keyA w).1 = .ok (some [120]))) ∧
    group16Main.mainCache.entries = [⟨keyK, { data := some bytes15, str := [] }⟩] ∧
    (group16Main.Get 3 keyA 0 1).map (fun r => (r.1.1.ByteSlice, r.1.2)) = some ([120], none) ∧
    (group16Main.Get 3 keyA 0 1).map (fun r => (r.2.1.mainCache.entries, r.2.1.hotCache.entries)) =
      some ([], [⟨keyA, viewX⟩]) := by
  refine ⟨⟨by decide, by decide, by decide, fun w => rfl⟩, by decide, by decide, by decide⟩

end peerclaims

section peererror

variable {ω ε : Type}

/-- C14 as stated fails on a group with caching disabled.  The budget is 0,
the picker routes the key `"k"` to a peer that fails, and the loader returns
fifteen bytes: `Get("k")` returns them after counting the peer error, and
nothing is inserted into the main cache. -/
theorem Group.Get_peer_error_not_stored :
    (keyK ∉ group0Down.mainCache.entries.map (·.key) ∧
      keyK ∉ group0Down.hotCache.entries.map (·.key) ∧
      (group0Down.peers keyK).isSome = true ∧
      (∀ w, (peerDown group0Down.name keyK w).1 = .error "down") ∧
      (∀ w, (group0Down.getter keyK w).1 = .ok bytes15)) ∧
    (group0Down.Get 3 keyK 0 0).map (fun r => (r.1.1.ByteSlice, r.1.2)) = some (bytes15, none) ∧
    (group0Down.Get 3 keyK 0 0).map
        (fun r => (r.2.1.Stats.PeerErrors, r.2.1.Stats.LocalLoads, r.2.1.mainCache.entries)) =
      some (1, 1, []) := by
  refine ⟨⟨by decide, by decide, by decide, fun w => rfl, fun w => rfl⟩, by decide, by decide⟩

/-- C14, amended. For every group and every key `k` stored in neither
sub-cache: if the picker returns a remote peer for `k` and that peer's `Get`
fails, then `PeerErrors` is incremented by one, `PeerLoads` is unchanged, the
backing loader is invoked exactly once (after the peer call), and `Get(k)`
returns exactly what the local load returns: on loader failure the loader's
error, and on loader success a `ByteView` holding a copy of the loader's bytes,
which, when `cacheBytes > 0`, is also inserted into the main cache by
`populateCache`: pushed as its most recent entry, after which the budget
eviction may remove oldest entries.  On loader success `Get(k)` returns when
caching is disabled, or when the byte accounting is accurate and the bound on
the eviction loop is at least the number of stored entries plus two. -/
theorem Group.Get_peer_error (g : Group ω ε) (k : Bytes) (peer : ProtoGetter ω ε) (e1 : ε)
    (w : ω) (fuel draw : Nat)
    (hmain : k ∉ g.mainCache.entries.map (·.key)) (hhot : k ∉ g.hotCache.entries.map (·.key))
    (hpick : g.peers k = some peer) (hpeer : (peer g.name k w).1 = .error e1) :
    (∀ e, (g.getter k (peer g.name k w).2).1 = .error e →
        ∃ g1, g.Get fuel k draw w =
            some ((ByteView.zero, some e), g1, (g.getter k (peer g.name k w).2).2) ∧
          g1.Stats.PeerErrors = g.Stats.PeerErrors + 1 ∧
          g1.Stats.PeerLoads = g.Stats.PeerLoads ∧
          g1.mainCache.entries = g.mainCache.entries) ∧
      (∀ b, (g.getter k (peer g.name k w).2).1 = .ok b →
        (∀ v1 e2 g1 w1, g.Get fuel k draw w = some ((v1, e2), g1, w1) →
          v1 = { data := some b, str := [] } ∧ e2 = none ∧
          w1 = (g.getter k (peer g.name k w).2).2 ∧
          g1.Stats.PeerErrors = g.Stats.PeerErrors + 1 ∧
          g1.Stats.PeerLoads = g.Stats.PeerLoads ∧
          (0 < g.cacheBytes → g.WF →
            ∃ n, g1.mainCache.entries =
              (g.mainCache.entries ++
                [(⟨k, { data := some b, str := [] }⟩ : lru.entry Bytes ByteView)]).drop n) ∧
          (g.cacheBytes ≤ 0 → g1.mainCache.entries = g.mainCache.entries)) ∧
        ((g.cacheBytes ≤ 0 ∨
            (g.WF ∧ g.mainCache.Accurate ∧ g.hotCache.Accurate ∧
              g.mainCache.entries.length + g.hotCache.entries.length + 2 ≤ fuel)) →
          ∃ r, g.Get fuel k draw w = some r)) := by
  have hf := Group.preLocal_fields g
  have hpair : peer g.name k w = (.error e1, (peer g.name k w).2) := by
    cases hr : peer g.name k w with
    | mk res w2 => rw [hr] at hpeer; simp only at hpeer; rw [hpeer]
  have ec := Group.count_fields g.preLocal Stats.incPeerErrors
  have ecl := Group.count_fields (g.preLocal.count Stats.incPeerErrors) Stats.incLocalLoads
  have ece := Group.count_fields (g.preLocal.count Stats.incPeerErrors) Stats.incLocalLoadErrs
  rw [Group.Get_eq_peer_error g k fuel draw w peer e1 _ hmain hhot hpick hpair]
  unfold Group.loadLocally Group.getLocally
  rw [ec.2.2.2.2.1, Group.preLocal_getter]
  generalize (peer g.name k w).2 = w1
  cases hr : g.getter k w1 with
  | mk res w2 =>
    cases res with
    | error e =>
      simp only
      refine ⟨?_, ?_⟩
      · intro e0 he
        cases he
        refine ⟨_, rfl, ?_, ?_, ?_⟩
        · rw [ece.2.2.2.1, ec.2.2.2.1, Group.preLocal_Stats]; rfl
        · rw [ece.2.2.2.1, ec.2.2.2.1, Group.preLocal_Stats]; rfl
        · rw [ece.1, ec.1, hf.1]
      · intro b hb; cases hb
    | ok b0 =>
      simp only [cloneBytes]
      refine ⟨?_, ?_⟩
      · intro e he; cases he
      · intro b hb
        cases hb
        refine ⟨?_, ?_⟩
        · intro v1 e2 g1 w3 h
          cases hpop : ((g.preLocal.count Stats.incPeerErrors).count
              Stats.incLocalLoads).populateCache fuel k { data := some b0, str := [] } .main with
          | none => rw [hpop] at h; cases h
          | some g2 =>
            rw [hpop] at h
            simp only [Option.map_some', Option.some.injEq, Prod.mk.injEq] at h
            obtain ⟨⟨hv, he⟩, hg, hw⟩ := h
            subst hv he hg hw
            have hstats : g2.Stats = ((g.preLocal.count Stats.incPeerErrors).count
                Stats.incLocalLoads).Stats := by
              unfold Group.populateCache at hpop
              split at hpop
              · simp only [Option.some.injEq] at hpop
                rw [← hpop]
              · simp only at hpop
                have := (Group.evictLoop_frame fuel _ g2 hpop).1
                rw [this]
                exact (Group.setMain_fields _ _).2.2.2.1
            refine ⟨rfl, rfl, rfl, ?_, ?_, ?_, ?_⟩
            · rw [hstats, ecl.2.2.2.1, ec.2.2.2.1, Group.preLocal_Stats]; rfl
            · rw [hstats, ecl.2.2.2.1, ec.2.2.2.1, Group.preLocal_Stats]; rfl
            · intro hcb hwf
              obtain ⟨_, n, hn⟩ := Group.populateCache_main_frame _ g2 fuel k _
                (by rw [ecl.2.2.1, ec.2.2.1, Group.preLocal_cacheBytes]; exact hcb)
                (by rw [ecl.1, ec.1]; exact (hf.2.2.2.2 hwf).1)
                (by rw [ecl.1, ec.1, hf.1]; exact hmain) hpop
              refine ⟨n, ?_⟩
              rw [hn, ecl.1, ec.1, hf.1]
            · intro hcb
              rw [Group.populateCache_disabled _
                (by rw [ecl.2.2.1, ec.2.2.1, Group.preLocal_cacheBytes]; exact hcb)] at hpop
              simp only [Option.some.injEq] at hpop
              rw [← hpop, ecl.1, ec.1, hf.1]
        · intro h
          have hret : ∃ g2, ((g.preLocal.count Stats.incPeerErrors).count
              Stats.incLocalLoads).populateCache fuel k { data := some b0, str := [] } .main =
              some g2 := by
            rcases h with h | ⟨hwf, hm, hh, hfuel⟩
            · exact ⟨_, Group.populateCache_disabled _
                (by rw [ecl.2.2.1, ec.2.2.1, Group.preLocal_cacheBytes]; exact h) fuel k _ .main⟩
            · obtain ⟨am, ah⟩ := Group.preLocal_accurate g hm hh
              have hwf1 := hf.2.2.2.2 hwf
              exact Group.populateCache_returns _
                ⟨by rw [ecl.1, ec.1]; exact hwf1.1, by rw [ecl.2.1, ec.2.1]; exact hwf1.2⟩
                (by rw [ecl.1, ec.1]; exact am) (by rw [ecl.2.1, ec.2.1]; exact ah) k _ .main
                (by
                  show k ∉ ((g.preLocal.count Stats.incPeerErrors).count
                    Stats.incLocalLoads).mainCache.entries.map (·.key)
                  rw [ecl.1, ec.1, hf.1]; exact hmain)
                fuel (by rw [ecl.1, ec.1, ecl.2.1, ec.2.1, hf.1, hf.2.1]; exact hfuel)
          obtain ⟨g2, hg2⟩ := hret
          rw [hg2]
          exact ⟨_, rfl⟩

/-- C14 amended, at a new group with a budget of 16 bytes whose picker routes
every key to a failing peer, for the key `"b"`, on which the loader fails. -/
theorem Group.Get_peer_error_witness :
    ∃ g1, group16Down.Get 0 keyB 0 0 = some ((ByteView.zero, some "b not exist"), g1, 1) ∧
      g1.Stats.PeerErrors = group16Down.Stats.PeerErrors + 1 ∧
      g1.Stats.PeerLoads = group16Down.Stats.PeerLoads ∧
      g1.mainCache.entries = group16Down.mainCache.entries :=
  (Group.Get_peer_error group16Down keyB peerDown "down" 0 0 0 (by decide) (by decide) rfl
    rfl).1 "b not exist" rfl

end peererror

/-! ## The pool after several `Set` calls -/

section poolsets

/-- After a `Set` call, the handle that `PickPeer` returns with a second result
true is the getter of the ring's owner of the key when that owner is among the
peers of this last `Set` call, and the nil getter otherwise. -/
theorem HTTPPool.PickPeer_after_Set (p : HTTPPool) (last : List Bytes) (key : Bytes)
    (h : ((p.Set last).PickPeer key).2 = true) :
    ((p.Set last).PickPeer key).1 =
      if (p.Set last).peers.Get key ∈ last then
        some { baseURL := (p.Set last).peers.Get key ++ p.opts.BasePath }
      else none := by
  unfold HTTPPool.PickPeer at h ⊢
  by_cases he : (p.Set last).peers.IsEmpty = true
  · rw [if_pos he] at h
    cases h
  · rw [if_neg he] at h ⊢
    by_cases hs : (p.Set last).peers.Get key ≠ (p.Set last).self
    · simp only [hs, ne_eq, not_false_eq_true, if_true]
      rfl
    · simp only [hs, if_false] at h
      cases h

/-- C24 fails on the code.  The pool of the node `"s"` is made by
`NewHTTPPoolOpts` with one replica and a hash function that reads the second
byte, then `Set("A")` and `Set("B")` are called.  The ring keeps `"A"`, which
owns the key `"0A"`, but `httpGetters` holds only `"B"`: `PickPeer("0A")`
reports a remote peer and returns the nil getter.  After `Set("A")` alone it
returned the getter with base URL `"A/"`. -/
theorem HTTPPool.PickPeer_nil_getter :
    (NewHTTPPoolOpts (fun _ => 0) false [115] (some optsExample)).1.toOption.map
        (fun p => (p.setAll [[[65]]]).PickPeer [48, 65]) =
      some (some { baseURL := [65, 47] }, true) ∧
    (NewHTTPPoolOpts (fun _ => 0) false [115] (some optsExample)).1.toOption.map
        (fun p => (p.setAll [[[65]], [[66]]]).peers.Get [48, 65]) = some [65] ∧
    (NewHTTPPoolOpts (fun _ => 0) false [115] (some optsExample)).1.toOption.map
        (fun p => (p.setAll [[[65]], [[66]]]).httpGetters [65]) = some none ∧
    (NewHTTPPoolOpts (fun _ => 0) false [115] (some optsExample)).1.toOption.map
        (fun p => (p.setAll [[[65]], [[66]]]).PickPeer [48, 65]) = some (none, true) := by
  refine ⟨by decide, by decide, by decide, by decide⟩

end poolsets

/-! ## The group: what every reachable state satisfies -/

section reachable

variable {ω ε : Type}

theorem eraseP_append_perm {α : Type} (p : α → Bool) :
    ∀ (l : List α) (a : α), l.find? p = some a → (l.eraseP p ++ [a]).Perm l := by
  intro l
  induction l with
  | nil => intro a h; simp at h
  | cons b t ih =>
    intro a h
    by_cases hb : p b = true
    · simp only [List.find?_cons, hb, Option.some.injEq] at h
      subst h
      simp only [List.eraseP_cons, hb, if_true]
      exact (List.perm_append_singleton b t)
    · simp only [List.find?_cons, hb] at h
      simp only [List.eraseP_cons, hb, Bool.false_eq_true, if_false, List.cons_append]
      exact (ih a h).cons b

/-- A `get` on a sub-cache keeps the stored entries (a hit moves one of them to
the back), the used bytes and the shape of the LRU. -/
theorem cache.get_frame (c : cache) (k : Bytes) :
    (c.get k).2.entries.Perm c.entries ∧ (c.get k).2.usedBytes = c.usedBytes ∧
      (c.WF → (c.get k).2.WF) := by
  unfold cache.get
  cases hl : c.lru with
  | none =>
    simp only
    refine ⟨?_, trivial, ?_⟩
    · unfold cache.entries
      simp only [hl]
      exact List.Perm.refl _
    · intro hwf
      refine ⟨hwf.1, ?_⟩
      intro l h
      simp only [hl] at h
      cases h
  | some l =>
    simp only
    rw [lru.Get_eq]
    cases hll : l.list with
    | none =>
      simp only
      refine ⟨?_, trivial, ?_⟩
      · unfold cache.entries
        simp only [hl]
        exact List.Perm.refl _
      · intro hwf
        refine ⟨hwf.1, ?_⟩
        intro l1 h
        simp only [Option.some.injEq] at h
        subst h
        exact hwf.2 l hl
    | some ll =>
      simp only
      cases hf : ll.find? (fun e => decide (e.key = k)) with
      | none =>
        simp only
        refine ⟨?_, trivial, ?_⟩
        · unfold cache.entries
          simp only [hl]
          exact List.Perm.refl _
        · intro hwf
          refine ⟨hwf.1, ?_⟩
          intro l1 h
          simp only [Option.some.injEq] at h
          subst h
          exact hwf.2 l hl
      | some kv =>
        simp only
        refine ⟨?_, trivial, ?_⟩
        · unfold cache.entries lru.Cache.entries
          simp only [hl, hll]
          exact eraseP_append_perm _ ll kv hf
        · intro hwf
          refine ⟨hwf.1, ?_⟩
          intro l1 h
          simp only [Option.some.injEq] at h
          subst h
          exact hwf.2 l hl

theorem cache.accurate_of_perm {c c1 : cache} (he : c1.entries.Perm c.entries)
    (hu : c1.usedBytes = c.usedBytes) (h : c.Accurate) : c1.Accurate := by
  unfold cache.Accurate at h ⊢
  rw [hu, h, liveBytes_eq, liveBytes_eq]
  exact ((he.map _).sum_eq).symm

/-- The invariant depends on the stored entries up to their order, on the used
bytes and on the shape of the two LRUs only. -/
theorem Group.Inv_of_perm {g g1 : Group ω ε} (h : g.Inv) (hwf : g1.WF)
    (hme : g1.mainCache.entries.Perm g.mainCache.entries)
    (hhe : g1.hotCache.entries.Perm g.hotCache.entries)
    (hmu : g1.mainCache.usedBytes = g.mainCache.usedBytes)
    (hhu : g1.hotCache.usedBytes = g.hotCache.usedBytes) : g1.Inv := by
  obtain ⟨_, hm, hh, hd⟩ := h
  refine ⟨hwf, cache.accurate_of_perm hme hmu hm, cache.accurate_of_perm hhe hhu hh, ?_⟩
  intro k hk1 hk2
  exact hd k (((hme.map _).mem_iff).1 hk1) (((hhe.map _).mem_iff).1 hk2)

theorem Group.Inv_count {g : Group ω ε} (h : g.Inv) (f : DailzCache.Stats → DailzCache.Stats) :
    (g.count f).Inv := h

/-- `lookupCache` keeps the stored entries, the used bytes and the budget. -/
theorem Group.lookupCache_frame (g : Group ω ε) (k : Bytes) :
    (g.lookupCache k).2.mainCache.entries.Perm g.mainCache.entries ∧
      (g.lookupCache k).2.hotCache.entries.Perm g.hotCache.entries ∧
      (g.lookupCache k).2.mainCache.usedBytes = g.mainCache.usedBytes ∧
      (g.lookupCache k).2.hotCache.usedBytes = g.hotCache.usedBytes ∧
      (g.WF → (g.lookupCache k).2.WF) ∧
      (g.lookupCache k).2.cacheBytes = g.cacheBytes := by
  unfold Group.lookupCache
  by_cases hcb : g.cacheBytes ≤ 0
  · rw [if_pos hcb]
    exact ⟨List.Perm.refl _, List.Perm.refl _, rfl, rfl, fun h => h, rfl⟩
  · rw [if_neg hcb]
    obtain ⟨m1, m2, m3⟩ := cache.get_frame g.mainCache k
    cases hg : g.mainCache.get k with
    | mk r m =>
      rw [hg] at m1 m2 m3
      simp only at m1 m2 m3
      cases r with
      | some v =>
        simp only
        exact ⟨m1, List.Perm.refl _, m2, rfl, fun h => ⟨m3 h.1, h.2⟩, rfl⟩
      | none =>
        simp only
        obtain ⟨h1, h2, h3⟩ := cache.get_frame g.hotCache k
        exact ⟨m1, h1, m2, h2, fun h => ⟨m3 h.1, h3 h.2⟩, rfl⟩

theorem Group.lookupCache_inv (g : Group ω ε) (h : g.Inv) (k : Bytes) :
    (g.lookupCache k).2.Inv := by
  obtain ⟨a, b, c, d, e, _⟩ := Group.lookupCache_frame g k
  exact Group.Inv_of_perm h (e h.1) a b c d

theorem Group.Inv_removeOldest_hot {g : Group ω ε} (h : g.Inv) :
    (g.setHot g.hotCache.removeOldest).Inv := by
  obtain ⟨hwf, hm, hh, hd⟩ := h
  have e := Group.setHot_fields g g.hotCache.removeOldest
  obtain ⟨r1, _, r3⟩ := cache.removeOldest_spec g.hotCache hwf.2
  refine ⟨⟨?_, ?_⟩, ?_, ?_, ?_⟩
  · rw [e.1]; exact hwf.1
  · rw [e.2.1]; exact r3
  · rw [e.1]; exact hm
  · rw [e.2.1]; exact cache.removeOldest_accurate _ hwf.2 hh
  · intro k hk1 hk2
    rw [e.1] at hk1
    rw [e.2.1, r1] at hk2
    exact hd k hk1 (List.mem_map.2 (by
      obtain ⟨x, hx, hxk⟩ := List.mem_map.1 hk2
      exact ⟨x, List.mem_of_mem_tail hx, hxk⟩))

theorem Group.Inv_removeOldest_main {g : Group ω ε} (h : g.Inv) :
    (g.setMain g.mainCache.removeOldest).Inv := by
  obtain ⟨hwf, hm, hh, hd⟩ := h
  have e := Group.setMain_fields g g.mainCache.removeOldest
  obtain ⟨r1, _, r3⟩ := cache.removeOldest_spec g.mainCache hwf.1
  refine ⟨⟨?_, ?_⟩, ?_, ?_, ?_⟩
  · rw [e.1]; exact r3
  · rw [e.2.1]; exact hwf.2
  · rw [e.1]; exact cache.removeOldest_accurate _ hwf.1 hm
  · rw [e.2.1]; exact hh
  · intro k hk1 hk2
    rw [e.1, r1] at hk1
    rw [e.2.1] at hk2
    exact hd k (List.mem_map.2 (by
      obtain ⟨x, hx, hxk⟩ := List.mem_map.1 hk1
      exact ⟨x, List.mem_of_mem_tail hx, hxk⟩)) hk2

/-- The eviction loop keeps the invariant. -/
theorem Group.evictLoop_inv (fuel : Nat) :
    ∀ (g g1 : Group ω ε), g.Inv → Group.evictLoop fuel g = some g1 → g1.Inv := by
  induction fuel with
  | zero => intro g g1 _ h; simp [Group.evictLoop] at h
  | succ fuel ih =>
    intro g g1 hinv h
    unfold Group.evictLoop at h
    simp only at h
    split at h
    · simp only [Option.some.injEq] at h
      subst h
      exact hinv
    · split at h
      · exact ih _ g1 (Group.Inv_removeOldest_hot hinv) h
      · exact ih _ g1 (Group.Inv_removeOldest_main hinv) h

/-- Adding a key that is stored in neither sub-cache keeps the invariant. -/
theorem Group.Inv_addTo {g : Group ω ε} (h : g.Inv) (target : Target) (k : Bytes) (v : ByteView)
    (hmain : k ∉ g.mainCache.entries.map (·.key)) (hhot : k ∉ g.hotCache.entries.map (·.key)) :
    (g.addTo target k v).Inv := by
  obtain ⟨hwf, hm, hh, hd⟩ := h
  cases target with
  | main =>
    show (g.setMain (g.mainCache.add k v)).Inv
    have e := Group.setMain_fields g (g.mainCache.add k v)
    obtain ⟨a1, _, a3, _⟩ := cache.add_fresh g.mainCache hwf.1 k v hmain
    refine ⟨⟨?_, ?_⟩, ?_, ?_, ?_⟩
    · rw [e.1]; exact a3
    · rw [e.2.1]; exact hwf.2
    · rw [e.1]; exact cache.add_fresh_accurate _ hwf.1 hm k v hmain
    · rw [e.2.1]; exact hh
    · intro k1 hk1 hk2
      rw [e.1, a1] at hk1
      rw [e.2.1] at hk2
      simp only [List.map_append, List.map_cons, List.map_nil, List.mem_append,
        List.mem_singleton] at hk1
      rcases hk1 with hk1 | hk1
      · exact hd k1 hk1 hk2
      · subst hk1; exact hhot hk2
  | hot =>
    show (g.setHot (g.hotCache.add k v)).Inv
    have e := Group.setHot_fields g (g.hotCache.add k v)
    obtain ⟨a1, _, a3, _⟩ := cache.add_fresh g.hotCache hwf.2 k v hhot
    refine ⟨⟨?_, ?_⟩, ?_, ?_, ?_⟩
    · rw [e.1]; exact hwf.1
    · rw [e.2.1]; exact a3
    · rw [e.1]; exact hm
    · rw [e.2.1]; exact cache.add_fresh_accurate _ hwf.2 hh k v hhot
    · intro k1 hk1 hk2
      rw [e.1] at hk1
      rw [e.2.1, a1] at hk2
      simp only [List.map_append, List.map_cons, List.map_nil, List.mem_append,
        List.mem_singleton] at hk2
      rcases hk2 with hk2 | hk2
      · exact hd k1 hk1 hk2
      · subst hk2; exact hmain hk1

/-- `populateCache` is the budget test and then the loop on the group with the
new entry. -/
theorem Group.populateCache_eq (g : Group ω ε) (fuel : Nat) (k : Bytes) (v : ByteView)
    (target : Target) :
    g.populateCache fuel k v target =
      if g.cacheBytes ≤ 0 then some g else Group.evictLoop fuel (g.addTo target k v) := by
  unfold Group.populateCache Group.addTo
  cases target <;> rfl

/-- One iteration of the loop: the budget test, and `evictOne` past it. -/
theorem Group.evictLoop_succ (g : Group ω ε) (fuel : Nat) :
    Group.evictLoop (fuel + 1) g =
      if g.mainCache.bytes + g.hotCache.bytes ≤ g.cacheBytes then some g
      else Group.evictLoop fuel g.evictOne := by
  rw [Group.evictLoop]
  unfold Group.evictOne Group.victim
  by_cases h1 : g.mainCache.bytes + g.hotCache.bytes ≤ g.cacheBytes
  · rw [if_pos h1, if_pos h1]
  · rw [if_neg h1, if_neg h1]
    by_cases h2 : g.hotCache.bytes > Int.tdiv g.mainCache.bytes 8
    · rw [if_pos h2, if_pos h2]
    · rw [if_neg h2, if_neg h2]

/-- `populateCache` of a key that is stored in neither sub-cache keeps the
invariant. -/
theorem Group.populateCache_inv (g g1 : Group ω ε) (h : g.Inv) (fuel : Nat) (k : Bytes)
    (v : ByteView) (target : Target)
    (hmain : k ∉ g.mainCache.entries.map (·.key)) (hhot : k ∉ g.hotCache.entries.map (·.key))
    (hp : g.populateCache fuel k v target = some g1) : g1.Inv := by
  rw [Group.populateCache_eq] at hp
  split at hp
  · simp only [Option.some.injEq] at hp
    subst hp
    exact h
  · exact Group.evictLoop_inv fuel _ g1 (Group.Inv_addTo h target k v hmain hhot) hp

theorem Group.populateCache_cacheBytes (g g1 : Group ω ε) (fuel : Nat) (k : Bytes)
    (v : ByteView) (target : Target) (hp : g.populateCache fuel k v target = some g1) :
    g1.cacheBytes = g.cacheBytes := by
  rw [Group.populateCache_eq] at hp
  split at hp
  · simp only [Option.some.injEq] at hp
    subst hp
    rfl
  · rw [(Group.evictLoop_budget fuel _ g1 hp).2]
    cases target <;> rfl

/-- The local load of a key that is stored in neither sub-cache keeps the
invariant and the budget. -/
theorem Group.loadLocally_inv (g : Group ω ε) (h : g.Inv) (fuel : Nat) (k : Bytes) (w : ω)
    (hmain : k ∉ g.mainCache.entries.map (·.key)) (hhot : k ∉ g.hotCache.entries.map (·.key))
    (r : ByteView × Option ε) (g1 : Group ω ε) (w1 : ω)
    (hl : g.loadLocally fuel k w = some (r, g1, w1)) :
    g1.Inv ∧ g1.cacheBytes = g.cacheBytes := by
  unfold Group.loadLocally at hl
  cases hg : g.getLocally k w with
  | mk res w2 =>
    cases res with
    | error err =>
      simp only [hg, Option.some.injEq, Prod.mk.injEq] at hl
      obtain ⟨_, hg1, _⟩ := hl
      subst hg1
      exact ⟨h, rfl⟩
    | ok value =>
      simp only [hg] at hl
      cases hp : (g.count Stats.incLocalLoads).populateCache fuel k value .main with
      | none => rw [hp] at hl; cases hl
      | some g2 =>
        rw [hp] at hl
        simp only [Option.map_some', Option.some.injEq, Prod.mk.injEq] at hl
        obtain ⟨_, hg1, _⟩ := hl
        subst hg1
        exact ⟨Group.populateCache_inv _ g2 (Group.Inv_count h _) fuel k value .main hmain hhot hp,
          (Group.populateCache_cacheBytes _ g2 fuel k value .main hp).trans
            (Group.count_fields g _).2.2.1⟩

/-- A `Get` that finds the key in a sub-cache returns it and the group that
`lookupCache` leaves. -/
theorem Group.Get_hit (g : Group ω ε) (fuel : Nat) (k : Bytes) (draw : Nat) (w : ω)
    (v : ByteView) (h : ((g.count Stats.incGets).lookupCache k).1 = some v) :
    g.Get fuel k draw w = some ((v, none), ((g.count Stats.incGets).lookupCache k).2, w) := by
  unfold Group.Get
  cases hl : (g.count Stats.incGets).lookupCache k with
  | mk a b =>
    rw [hl] at h
    simp only at h
    subst h
    simp only [hl]

/-- With caching enabled, `lookupCache` finds every key that is stored in the
main cache or in the hot cache. -/
theorem Group.lookupCache_stored (g : Group ω ε) (hcb : 0 < g.cacheBytes) (k : Bytes)
    (hk : k ∈ g.mainCache.entries.map (·.key) ∨ k ∈ g.hotCache.entries.map (·.key)) :
    ∃ v, (g.lookupCache k).1 = some v := by
  have key : ∀ l : List (lru.entry Bytes ByteView), k ∈ l.map (·.key) →
      ∃ v, lru.lookup l k = some v := by
    intro l hl
    cases hlk : lru.lookup l k with
    | some v => exact ⟨v, rfl⟩
    | none =>
      exfalso
      unfold lru.lookup at hlk
      simp only [Option.map_eq_none', List.find?_eq_none, decide_eq_true_eq] at hlk
      obtain ⟨x, hx, hxk⟩ := List.mem_map.1 hl
      exact hlk x hx hxk
  unfold Group.lookupCache
  rw [if_neg (by omega)]
  cases hg : g.mainCache.get k with
  | mk r m =>
    have h1 := cache.get_fst g.mainCache k
    rw [hg] at h1
    simp only at h1
    cases r with
    | some v => exact ⟨v, rfl⟩
    | none =>
      simp only
      rcases hk with hk | hk
      · obtain ⟨v, hv⟩ := key _ hk
        rw [hv] at h1
        cases h1
      · obtain ⟨v, hv⟩ := key _ hk
        refine ⟨v, ?_⟩
        rw [show (g.setMain m).hotCache = g.hotCache from rfl, cache.get_fst, hv]

theorem Group.Inv_of_sameStore {g g1 : Group ω ε} (h : g.Inv) (hs : g.sameStore g1) :
    g1.Inv ∧ g1.cacheBytes = g.cacheBytes ∧ g1.stored = g.stored := by
  obtain ⟨h1, h2, h3, _⟩ := hs
  unfold Group.Inv Group.WF Group.stored
  rw [h1, h2]
  exact ⟨h, h3, rfl⟩

theorem Group.preLocal_inv {g : Group ω ε} (h : g.Inv) : g.preLocal.Inv := by
  obtain ⟨a, b, c, d, e⟩ := Group.preLocal_fields g
  exact Group.Inv_of_perm h (e h.1) (List.Perm.of_eq a) (List.Perm.of_eq b) c d

theorem Group.preLocal_stored (g : Group ω ε) : g.preLocal.stored = g.stored := by
  obtain ⟨a, b, _⟩ := Group.preLocal_fields g
  unfold Group.stored
  rw [a, b]

/-- The eviction loop stores no new entry. -/
theorem Group.evictLoop_stored_le (fuel : Nat) (g g1 : Group ω ε)
    (h : Group.evictLoop fuel g = some g1) : g1.stored ≤ g.stored := by
  obtain ⟨_, ⟨n, h1⟩, ⟨m, h2⟩⟩ := Group.evictLoop_frame fuel g g1 h
  unfold Group.stored
  rw [h1, h2, List.length_drop, List.length_drop]
  omega

theorem Group.addTo_stored (g : Group ω ε) (hwf : g.WF) (target : Target) (k : Bytes)
    (v : ByteView) (hk : k ∉ (g.sub target).entries.map (·.key)) :
    (g.addTo target k v).stored = g.stored + 1 := by
  unfold Group.stored
  cases target with
  | main =>
    show (g.setMain (g.mainCache.add k v)).mainCache.entries.length +
      (g.setMain (g.mainCache.add k v)).hotCache.entries.length = _
    have e := Group.setMain_fields g (g.mainCache.add k v)
    rw [e.1, e.2.1, (cache.add_fresh g.mainCache hwf.1 k v hk).1, List.length_append,
      List.length_singleton]
    omega
  | hot =>
    show (g.setHot (g.hotCache.add k v)).mainCache.entries.length +
      (g.setHot (g.hotCache.add k v)).hotCache.entries.length = _
    have e := Group.setHot_fields g (g.hotCache.add k v)
    rw [e.1, e.2.1, (cache.add_fresh g.hotCache hwf.2 k v hk).1, List.length_append,
      List.length_singleton]
    omega

/-- `populateCache` stores at most one new entry. -/
theorem Group.populateCache_stored_le (g g1 : Group ω ε) (hwf : g.WF) (fuel : Nat) (k : Bytes)
    (v : ByteView) (target : Target) (hk : k ∉ (g.sub target).entries.map (·.key))
    (hp : g.populateCache fuel k v target = some g1) : g1.stored ≤ g.stored + 1 := by
  rw [Group.populateCache_eq] at hp
  split at hp
  · simp only [Option.some.injEq] at hp
    subst hp
    omega
  · have := Group.evictLoop_stored_le fuel _ g1 hp
    rw [Group.addTo_stored g hwf target k v hk] at this
    exact this

/-- The local load of a key that is stored in neither sub-cache: it keeps the
invariant and the budget, stores at most one new entry, and returns when the
bound on the eviction loop is at least the number of stored entries plus two. -/
theorem Group.loadLocally_step (g : Group ω ε) (h : g.Inv) (fuel : Nat) (k : Bytes) (w : ω)
    (hmain : k ∉ g.mainCache.entries.map (·.key)) (hhot : k ∉ g.hotCache.entries.map (·.key)) :
    (∀ r g1 w1, g.loadLocally fuel k w = some (r, g1, w1) →
        g1.Inv ∧ g1.cacheBytes = g.cacheBytes ∧ g1.stored ≤ g.stored + 1) ∧
      (g.stored + 2 ≤ fuel → ∃ r, g.loadLocally fuel k w = some r) := by
  refine ⟨?_, ?_⟩
  · intro r g1 w1 hl
    obtain ⟨a, b⟩ := Group.loadLocally_inv g h fuel k w hmain hhot r g1 w1 hl
    refine ⟨a, b, ?_⟩
    unfold Group.loadLocally at hl
    cases hg : g.getLocally k w with
    | mk res w2 =>
      cases res with
      | error err =>
        simp only [hg, Option.some.injEq, Prod.mk.injEq] at hl
        obtain ⟨_, hg1, _⟩ := hl
        subst hg1
        show g.stored ≤ g.stored + 1
        omega
      | ok value =>
        simp only [hg] at hl
        cases hp : (g.count Stats.incLocalLoads).populateCache fuel k value .main with
        | none => rw [hp] at hl; cases hl
        | some g2 =>
          rw [hp] at hl
          simp only [Option.map_some', Option.some.injEq, Prod.mk.injEq] at hl
          obtain ⟨_, hg1, _⟩ := hl
          subst hg1
          exact Group.populateCache_stored_le (g.count Stats.incLocalLoads) g2 h.1 fuel k value
            .main hmain hp
  · intro hfuel
    unfold Group.loadLocally
    cases hg : g.getLocally k w with
    | mk res w2 =>
      cases res with
      | error err => exact ⟨_, rfl⟩
      | ok value =>
        simp only
        obtain ⟨g2, hg2⟩ := Group.populateCache_returns (g.count Stats.incLocalLoads) h.1 h.2.1
          h.2.2.1 k value .main hmain fuel hfuel
        rw [hg2]
        exact ⟨_, rfl⟩

/-- One `Get` from a state with the invariant: the new state has the invariant
and the budget of the old one and at most one more stored entry, and the call
returns when the bound on the eviction loop is at least the number of stored
entries plus two. -/
theorem Group.Get_step (g : Group ω ε) (h : g.Inv) (fuel : Nat) (k : Bytes) (draw : Nat)
    (w : ω) :
    (∀ r g1 w1, g.Get fuel k draw w = some (r, g1, w1) →
        g1.Inv ∧ g1.cacheBytes = g.cacheBytes ∧ g1.stored ≤ g.stored + 1) ∧
      (g.stored + 2 ≤ fuel → ∃ r, g.Get fuel k draw w = some r) := by
  by_cases hcb : g.cacheBytes ≤ 0
  · obtain ⟨r0, g0, w0, h0, hs, _⟩ := Group.Get_disabled g hcb fuel k draw w
    rw [h0]
    refine ⟨?_, fun _ => ⟨_, rfl⟩⟩
    intro r g1 w1 he
    simp only [Option.some.injEq, Prod.mk.injEq] at he
    obtain ⟨_, hg, _⟩ := he
    subst hg
    obtain ⟨a, b, c⟩ := Group.Inv_of_sameStore h hs
    exact ⟨a, b, by omega⟩
  · by_cases hk : k ∈ g.mainCache.entries.map (·.key) ∨ k ∈ g.hotCache.entries.map (·.key)
    · obtain ⟨v, hv⟩ := Group.lookupCache_stored (g.count Stats.incGets)
        (by rw [(Group.count_fields g _).2.2.1]; omega) k
        (by rw [(Group.count_fields g _).1, (Group.count_fields g _).2.1]; exact hk)
      rw [Group.Get_hit g fuel k draw w v hv]
      refine ⟨?_, fun _ => ⟨_, rfl⟩⟩
      intro r g1 w1 he
      simp only [Option.some.injEq, Prod.mk.injEq] at he
      obtain ⟨_, hg, _⟩ := he
      subst hg
      obtain ⟨f1, f2, _, _, _, f6⟩ := Group.lookupCache_frame (g.count Stats.incGets) k
      refine ⟨Group.lookupCache_inv _ (Group.Inv_count h _) k, f6, ?_⟩
      unfold Group.stored
      rw [f1.length_eq, f2.length_eq]
      show g.mainCache.entries.length + g.hotCache.entries.length ≤ _
      omega
    · have hmain : k ∉ g.mainCache.entries.map (·.key) := fun hm => hk (Or.inl hm)
      have hhot : k ∉ g.hotCache.entries.map (·.key) := fun hm => hk (Or.inr hm)
      have hf := Group.preLocal_fields g
      have hpi := Group.preLocal_inv h
      have hps := Group.preLocal_stored g
      have hpm : k ∉ g.preLocal.mainCache.entries.map (·.key) := by rw [hf.1]; exact hmain
      have hph : k ∉ g.preLocal.hotCache.entries.map (·.key) := by rw [hf.2.1]; exact hhot
      cases hp : g.peers k with
      | none =>
        rw [Group.Get_eq_loadLocally g k fuel draw w hmain hhot hp]
        obtain ⟨s1, s2⟩ := Group.loadLocally_step g.preLocal hpi fuel k w hpm hph
        refine ⟨?_, ?_⟩
        · intro r g1 w1 he
          obtain ⟨a, b, c⟩ := s1 r g1 w1 he
          exact ⟨a, b.trans (Group.preLocal_cacheBytes g), by rw [hps] at c; exact c⟩
        · intro hfuel
          exact s2 (by rw [hps]; exact hfuel)
      | some peer =>
        cases hpe : peer g.name k w with
        | mk res w2 =>
          cases res with
          | error e1 =>
            rw [Group.Get_eq_peer_error g k fuel draw w peer e1 w2 hmain hhot hp hpe]
            obtain ⟨s1, s2⟩ := Group.loadLocally_step (g.preLocal.count Stats.incPeerErrors)
              (Group.Inv_count hpi _) fuel k w2 hpm hph
            refine ⟨?_, ?_⟩
            · intro r g1 w1 he
              obtain ⟨a, b, c⟩ := s1 r g1 w1 he
              refine ⟨a, b.trans (Group.preLocal_cacheBytes g), ?_⟩
              rw [show (g.preLocal.count Stats.incPeerErrors).stored = g.preLocal.stored from rfl,
                hps] at c
              exact c
            · intro hfuel
              exact s2 (by
                rw [show (g.preLocal.count Stats.incPeerErrors).stored = g.preLocal.stored
                  from rfl, hps]
                exact hfuel)
          | ok rv =>
            rw [Group.Get_eq_peer_ok g k fuel draw w peer rv w2 hmain hhot hp hpe]
            by_cases hd : draw = 0
            · rw [if_pos hd]
              refine ⟨?_, ?_⟩
              · intro r g1 w1 he
                cases hpop : g.preLocal.populateCache fuel k { data := rv, str := [] } .hot with
                | none => rw [hpop] at he; cases he
                | some g2 =>
                  rw [hpop] at he
                  simp only [Option.map_some', Option.some.injEq, Prod.mk.injEq] at he
                  obtain ⟨_, hg, _⟩ := he
                  subst hg
                  refine ⟨Group.Inv_count (Group.populateCache_inv _ g2 hpi fuel k _ .hot hpm hph
                    hpop) _, ?_, ?_⟩
                  · exact (Group.populateCache_cacheBytes _ g2 fuel k _ .hot hpop).trans
                      (Group.preLocal_cacheBytes g)
                  · have := Group.populateCache_stored_le _ g2 hpi.1 fuel k _ .hot hph hpop
                    rw [hps] at this
                    exact this
              · intro hfuel
                obtain ⟨g2, hg2⟩ := Group.populateCache_returns g.preLocal hpi.1 hpi.2.1
                  hpi.2.2.1 k { data := rv, str := [] } .hot hph fuel
                  (by
                    have := hps
                    unfold Group.stored at this hfuel
                    omega)
                rw [hg2]
                exact ⟨_, rfl⟩
            · rw [if_neg hd]
              refine ⟨?_, fun _ => ⟨_, rfl⟩⟩
              intro r g1 w1 he
              simp only [Option.map_some', Option.some.injEq, Prod.mk.injEq] at he
              obtain ⟨_, hg, _⟩ := he
              subst hg
              refine ⟨Group.Inv_count hpi _, Group.preLocal_cacheBytes g, ?_⟩
              show g.preLocal.stored ≤ _
              omega

theorem Group.init_inv (name : Bytes) (cacheBytes : Int) (getter : Getter ω ε)
    (peers : PeerPicker ω ε) :
    (Group.init name cacheBytes getter peers).Inv ∧
      (Group.init name cacheBytes getter peers).stored = 0 := by
  refine ⟨⟨⟨cache.zero_WF, cache.zero_WF⟩, ?_, ?_, ?_⟩, rfl⟩
  · show cache.zero.Accurate
    decide
  · show cache.zero.Accurate
    decide
  · intro k hk
    exact absurd hk (by simp [Group.init, cache.zero, cache.entries])

/-- Sequential `Get` calls keep the invariant and the budget. -/
theorem Group.runGets_inv (calls : List GetCall) :
    ∀ (g : Group ω ε) (w : ω) (g1 : Group ω ε) (w1 : ω), g.Inv →
      g.runGets w calls = some (g1, w1) → g1.Inv ∧ g1.cacheBytes = g.cacheBytes := by
  induction calls with
  | nil =>
    intro g w g1 w1 h hr
    simp only [Group.runGets, Option.some.injEq, Prod.mk.injEq] at hr
    obtain ⟨hg, _⟩ := hr
    subst hg
    exact ⟨h, rfl⟩
  | cons c cs ih =>
    intro g w g1 w1 h hr
    unfold Group.runGets at hr
    cases hget : g.Get c.fuel c.key c.draw w with
    | none => simp only [hget] at hr; cases hr
    | some r =>
      simp only [hget] at hr
      obtain ⟨a, b, _⟩ := (Group.Get_step g h c.fuel c.key c.draw w).1 r.1 r.2.1 r.2.2 hget
      obtain ⟨a1, b1⟩ := ih r.2.1 r.2.2 g1 w1 a hr
      exact ⟨a1, b1.trans b⟩

/-- Sequential `Get` calls return when the bound on the eviction loop of each
call is at least the number of stored entries, plus the number of calls, plus
one. -/
theorem Group.runGets_returns (calls : List GetCall) :
    ∀ (g : Group ω ε) (w : ω), g.Inv → (∀ c ∈ calls, g.stored + calls.length + 1 ≤ c.fuel) →
      ∃ g1 w1, g.runGets w calls = some (g1, w1) := by
  induction calls with
  | nil => intro g w _ _; exact ⟨g, w, rfl⟩
  | cons c cs ih =>
    intro g w h hf
    have hc := hf c (List.mem_cons_self _ _)
    simp only [List.length_cons] at hc
    obtain ⟨s1, s2⟩ := Group.Get_step g h c.fuel c.key c.draw w
    obtain ⟨r, hr⟩ := s2 (by omega)
    obtain ⟨a, _, b⟩ := s1 r.1 r.2.1 r.2.2 hr
    obtain ⟨g1, w1, h1⟩ := ih r.2.1 r.2.2 a (by
      intro c1 hc1
      have := hf c1 (List.mem_cons_of_mem _ hc1)
      simp only [List.length_cons] at this
      omega)
    refine ⟨g1, w1, ?_⟩
    unfold Group.runGets
    simp only [hr]
    exact h1

theorem Group.evictOne_cacheBytes (g : Group ω ε) : g.evictOne.cacheBytes = g.cacheBytes := by
  unfold Group.evictOne
  cases g.victim <;> rfl

theorem Group.Inv_evictOne {g : Group ω ε} (h : g.Inv) : g.evictOne.Inv := by
  unfold Group.evictOne
  cases g.victim with
  | main => exact Group.Inv_removeOldest_main h
  | hot => exact Group.Inv_removeOldest_hot h

/-- With accurate byte accounting and a positive budget, the victim of an
iteration that is over the budget is not empty, and the iteration removes one
stored entry. -/
theorem Group.victim_nonempty (g : Group ω ε) (h : g.Inv) (hcb : 0 < g.cacheBytes)
    (hover : g.mainCache.bytes + g.hotCache.bytes > g.cacheBytes) :
    (g.sub g.victim).entries ≠ [] ∧ g.evictOne.stored + 1 = g.stored := by
  obtain ⟨hwf, hm, hh, _⟩ := h
  have hm0 := cache.liveBytes_nonneg g.mainCache
  have hh0 := cache.liveBytes_nonneg g.hotCache
  unfold cache.Accurate at hm hh
  unfold cache.bytes at hover
  unfold Group.evictOne Group.victim Group.stored
  unfold cache.bytes
  by_cases hv : g.hotCache.usedBytes > Int.tdiv g.mainCache.usedBytes 8
  · rw [if_pos hv]
    have hne : g.hotCache.entries ≠ [] := by
      intro hnil
      have h0 := cache.liveBytes_of_entries_nil g.hotCache hnil
      have h1 : 0 ≤ Int.tdiv g.mainCache.usedBytes 8 :=
        Int.tdiv_nonneg (by rw [hm]; exact hm0) (by norm_num)
      omega
    refine ⟨hne, ?_⟩
    simp only
    have e := Group.setHot_fields g g.hotCache.removeOldest
    rw [e.1, e.2.1, cache.removeOldest_entries, List.length_tail]
    have : 0 < g.hotCache.entries.length := List.length_pos.2 hne
    omega
  · rw [if_neg hv]
    have hne : g.mainCache.entries ≠ [] := by
      intro hnil
      have h0 := cache.liveBytes_of_entries_nil g.mainCache hnil
      have h1 : g.mainCache.usedBytes = 0 := by rw [hm, h0]
      rw [h1] at hv
      simp only [Int.zero_tdiv] at hv
      omega
    refine ⟨hne, ?_⟩
    simp only
    have e := Group.setMain_fields g g.mainCache.removeOldest
    rw [e.1, e.2.1, cache.removeOldest_entries, List.length_tail]
    have : 0 < g.mainCache.entries.length := List.length_pos.2 hne
    omega

/-- Iterations of the loop keep the invariant and the budget. -/
theorem Group.iterate_evictOne_inv (n : Nat) :
    ∀ g : Group ω ε, g.Inv →
      (Nat.iterate Group.evictOne n g).Inv ∧
        (Nat.iterate Group.evictOne n g).cacheBytes = g.cacheBytes := by
  induction n with
  | zero => intro g h; exact ⟨h, rfl⟩
  | succ n ih =>
    intro g h
    obtain ⟨a, b⟩ := ih g.evictOne (Group.Inv_evictOne h)
    exact ⟨a, b.trans (Group.evictOne_cacheBytes g)⟩

/-- C21. In every group state that sequential `Get` calls reach from a newly
created group, for any picker, peer results, loader results and random draws,
no key is stored in both the main cache and the hot cache. -/
theorem Group.main_hot_disjoint (name : Bytes) (cacheBytes : Int) (getter : Getter ω ε)
    (peers : PeerPicker ω ε) (w : ω) (calls : List GetCall) (g : Group ω ε) (w1 : ω)
    (hrun : (Group.init name cacheBytes getter peers).runGets w calls = some (g, w1))
    (k : Bytes) :
    ¬ (k ∈ g.mainCache.entries.map (·.key) ∧ k ∈ g.hotCache.entries.map (·.key)) := by
  obtain ⟨⟨_, _, _, hd⟩, _⟩ := Group.runGets_inv calls _ w g w1
    (Group.init_inv name cacheBytes getter peers).1 hrun
  intro hk
  exact hd k hk.1 hk.2

/-- C21 at the group with a budget of 16 bytes after a `Get` of the key `"a"`
that is answered by the peer and sampled into the hot cache: the hot cache
holds `"a"`, and the main cache does not. -/
theorem Group.main_hot_disjoint_witness :
    group16Hot.hotCache.entries.map (·.key) = [keyA] ∧
      ¬ (keyA ∈ group16Hot.mainCache.entries.map (·.key) ∧
        keyA ∈ group16Hot.hotCache.entries.map (·.key)) :=
  ⟨by decide,
    Group.main_hot_disjoint [103] 16 countingGetter pickerA 0 [⟨3, keyA, 0⟩] group16Hot 0 rfl
      keyA⟩

/-- C22. For a newly created group with `cacheBytes > 0` and sequential `Get`
calls: the calls return when the bound on the eviction loop of each call is at
least the number of calls plus one; and in every state `g` that they reach,
for a key stored in neither sub-cache (as at every call of `populateCache`
that `Get` makes): in each state of the loop that follows `cache.add`, if
`main.bytes + hot.bytes > cacheBytes` then the victim (hot when
`hot.bytes > main.bytes / 8` by integer division, otherwise main) is not empty
and the iteration removes one stored entry; `populateCache` returns within as
many iterations as there are stored entries (one more test of the budget ends
the loop); and the next `Get` returns within that bound. -/
theorem Group.populateCache_terminates (name : Bytes) (cacheBytes : Int) (getter : Getter ω ε)
    (peers : PeerPicker ω ε) (hcb : 0 < cacheBytes) (w : ω) (calls : List GetCall) :
    ((∀ c ∈ calls, calls.length + 1 ≤ c.fuel) →
        ∃ g w1, (Group.init name cacheBytes getter peers).runGets w calls = some (g, w1)) ∧
      ∀ (g : Group ω ε) (w1 : ω),
        (Group.init name cacheBytes getter peers).runGets w calls = some (g, w1) →
        (∀ (k : Bytes) (v : ByteView) (target : Target),
          k ∉ g.mainCache.entries.map (·.key) → k ∉ g.hotCache.entries.map (·.key) →
          (∀ n : Nat,
            (Nat.iterate Group.evictOne n (g.addTo target k v)).mainCache.bytes +
                (Nat.iterate Group.evictOne n (g.addTo target k v)).hotCache.bytes >
              (Nat.iterate Group.evictOne n (g.addTo target k v)).cacheBytes →
            ((Nat.iterate Group.evictOne n (g.addTo target k v)).sub
                (Nat.iterate Group.evictOne n (g.addTo target k v)).victim).entries ≠ [] ∧
              (Nat.iterate Group.evictOne (n + 1) (g.addTo target k v)).stored + 1 =
                (Nat.iterate Group.evictOne n (g.addTo target k v)).stored) ∧
          ∃ g2, g.populateCache ((g.addTo target k v).stored + 1) k v target = some g2) ∧
        ∀ (fuel : Nat) (k : Bytes) (draw : Nat), g.stored + 2 ≤ fuel →
          ∃ r, g.Get fuel k draw w1 = some r := by
  obtain ⟨hinit, hstored⟩ := Group.init_inv name cacheBytes getter peers
  refine ⟨?_, ?_⟩
  · intro hf
    apply Group.runGets_returns calls _ w hinit
    intro c hc
    rw [hstored]
    have := hf c hc
    omega
  · intro g w1 hrun
    obtain ⟨hinv, hcbg⟩ := Group.runGets_inv calls _ w g w1 hinit hrun
    have hcb1 : 0 < g.cacheBytes := by rw [hcbg]; exact hcb
    refine ⟨?_, ?_⟩
    · intro k v target hmain hhot
      have hadd := Group.Inv_addTo hinv target k v hmain hhot
      have hktarget : k ∉ (g.sub target).entries.map (·.key) := by
        cases target
        · exact hmain
        · exact hhot
      refine ⟨?_, ?_⟩
      · intro n hover
        obtain ⟨a, b⟩ := Group.iterate_evictOne_inv n (g.addTo target k v) hadd
        have hcbn : 0 < (Nat.iterate Group.evictOne n (g.addTo target k v)).cacheBytes := by
          rw [b]
          cases target <;> exact hcb1
        have := Group.victim_nonempty _ a hcbn hover
        rw [Function.iterate_succ_apply']
        exact this
      · rw [Group.addTo_stored g hinv.1 target k v hktarget]
        exact Group.populateCache_returns g hinv.1 hinv.2.1 hinv.2.2.1 k v target hktarget _
          (by unfold Group.stored; omega)
    · intro fuel k draw hfuel
      exact (Group.Get_step g hinv fuel k draw w1).2 hfuel

/-- C22 at a new group with a budget of 16 bytes: a `Get` of the key `"k"`
returns; in the state it reaches, where the main cache holds the 16 bytes of
`"k"`, `populateCache` of the key `"a"` into the hot cache returns within two
iterations, and so does a `Get` of `"a"`. -/
theorem Group.populateCache_terminates_witness :
    (∃ g w1, group16.runGets 0 [⟨2, keyK, 0⟩] = some (g, w1)) ∧
      (∃ g2, group16Main.populateCache ((group16Main.addTo .hot keyA viewX).stored + 1) keyA
        viewX .hot = some g2) ∧
      ∃ r, group16Main.Get 3 keyA 0 1 = some r :=
  ⟨(Group.populateCache_terminates [103] 16 countingGetter pickerA (by decide) 0
      [⟨2, keyK, 0⟩]).1 (by decide),
    (((Group.populateCache_terminates [103] 16 countingGetter pickerA (by decide) 0
      [⟨2, keyK, 0⟩]).2 group16Main 1 rfl).1 keyA viewX .hot (by decide) (by decide)).2,
    ((Group.populateCache_terminates [103] 16 countingGetter pickerA (by decide) 0
      [⟨2, keyK, 0⟩]).2 group16Main 1 rfl).2 3 keyA 0 (by decide)⟩

end reachable

/-! ## The group: two consecutive `Get` calls of a key -/

section twice

variable {ω ε : Type}

theorem entriesBytes_nonneg (l : List (lru.entry Bytes ByteView)) : 0 ≤ entriesBytes l := by
  unfold entriesBytes
  apply List.sum_nonneg
  intro x hx
  obtain ⟨e, _, rfl⟩ := List.mem_map.1 hx
  positivity

theorem entriesBytes_append (l1 l2 : List (lru.entry Bytes ByteView)) :
    entriesBytes (l1 ++ l2) = entriesBytes l1 + entriesBytes l2 := by
  unfold entriesBytes
  rw [List.map_append, List.sum_append]

theorem entriesBytes_suffix {t l : List (lru.entry Bytes ByteView)} (h : t <:+ l) :
    entriesBytes t ≤ entriesBytes l := by
  obtain ⟨p, rfl⟩ := h
  rw [entriesBytes_append]
  have := entriesBytes_nonneg p
  omega

theorem cache.bytes_eq_entriesBytes (c : cache) (h : c.Accurate) :
    c.bytes = entriesBytes c.entries := h

theorem suffix_tail_of_ne {α : Type} {t l : List α} (h : t <:+ l) (hne : t ≠ l) :
    t <:+ l.tail := by
  obtain ⟨p, rfl⟩ := h
  cases p with
  | nil => exact absurd rfl hne
  | cons a p => exact ⟨p, rfl⟩

theorem tdiv8_mono {a b : Int} (ha : 0 ≤ a) (hab : a ≤ b) : Int.tdiv a 8 ≤ Int.tdiv b 8 := by
  rw [Int.tdiv_eq_ediv ha (by norm_num), Int.tdiv_eq_ediv (by omega) (by norm_num)]
  omega

/-- The eviction loop keeps the newest entry of the main cache when that
entry fits in the budget next to every remainder of the hot cache that is too
small to be the victim. -/
theorem Group.evictLoop_keeps_last (H : List (lru.entry Bytes ByteView))
    (e : lru.entry Bytes ByteView) (cb : Int)
    (hfit : ∀ t, t <:+ H → entriesBytes t ≤ Int.tdiv (entriesBytes [e]) 8 →
      entriesBytes [e] + entriesBytes t ≤ cb) (fuel : Nat) :
    ∀ (s s1 : Group ω ε) (M : List (lru.entry Bytes ByteView)), s.Inv → s.cacheBytes = cb →
      s.mainCache.entries = M ++ [e] → s.hotCache.entries <:+ H →
      Group.evictLoop fuel s = some s1 →
      ∃ n, n ≤ M.length ∧ s1.mainCache.entries = (M ++ [e]).drop n := by
  induction fuel with
  | zero => intro s s1 M _ _ _ _ h; simp [Group.evictLoop] at h
  | succ fuel ih =>
    intro s s1 M hinv hcb hmain hhot h
    rw [Group.evictLoop_succ] at h
    by_cases hb : s.mainCache.bytes + s.hotCache.bytes ≤ s.cacheBytes
    · rw [if_pos hb] at h
      simp only [Option.some.injEq] at h
      subst h
      exact ⟨0, Nat.zero_le _, by rw [hmain]; rfl⟩
    · rw [if_neg hb] at h
      have hmb := cache.bytes_eq_entriesBytes _ hinv.2.1
      have hhb := cache.bytes_eq_entriesBytes _ hinv.2.2.1
      unfold Group.evictOne Group.victim at h
      by_cases hv : s.hotCache.bytes > Int.tdiv s.mainCache.bytes 8
      · rw [if_pos hv] at h
        simp only at h
        have e1 := Group.setHot_fields s s.hotCache.removeOldest
        exact ih _ s1 M (Group.Inv_removeOldest_hot hinv) (by rw [e1.2.2.1]; exact hcb)
          (by rw [e1.1]; exact hmain)
          (by
            rw [e1.2.1, cache.removeOldest_entries]
            exact (List.tail_suffix _).trans hhot) h
      · rw [if_neg hv] at h
        simp only at h
        have e1 := Group.setMain_fields s s.mainCache.removeOldest
        cases M with
        | nil =>
          exfalso
          rw [hmain] at hmb
          simp only [List.nil_append] at hmb
          have := hfit _ hhot (by rw [← hhb, ← hmb]; omega)
          rw [← hhb, ← hmb, hcb.symm] at this
          omega
        | cons m M1 =>
          obtain ⟨n, hn, hs1⟩ := ih _ s1 M1 (Group.Inv_removeOldest_main hinv)
            (by rw [e1.2.2.1]; exact hcb)
            (by rw [e1.1, cache.removeOldest_entries, hmain]; rfl)
            (by rw [e1.2.1]; exact hhot) h
          exact ⟨n + 1, by simp only [List.length_cons]; omega, by rw [hs1]; rfl⟩

/-- The eviction loop removes the newest entry of the main cache, with all
older ones, when that entry does not fit in the budget next to a remainder of
the hot cache that is too small to be the victim. -/
theorem Group.evictLoop_drops_last (B : List (lru.entry Bytes ByteView))
    (e : lru.entry Bytes ByteView) (cb : Int)
    (hsmall : entriesBytes B ≤ Int.tdiv (entriesBytes [e]) 8)
    (hover : cb < entriesBytes [e] + entriesBytes B) (fuel : Nat) :
    ∀ (s s1 : Group ω ε) (M : List (lru.entry Bytes ByteView)), s.Inv → s.cacheBytes = cb →
      s.mainCache.entries = M ++ [e] → B <:+ s.hotCache.entries →
      Group.evictLoop fuel s = some s1 → s1.mainCache.entries = [] := by
  induction fuel with
  | zero => intro s s1 M _ _ _ _ h; simp [Group.evictLoop] at h
  | succ fuel ih =>
    intro s s1 M hinv hcb hmain hhot h
    have hmb := cache.bytes_eq_entriesBytes _ hinv.2.1
    have hhb := cache.bytes_eq_entriesBytes _ hinv.2.2.1
    have hB := entriesBytes_suffix hhot
    have hM : entriesBytes [e] ≤ s.mainCache.bytes := by
      rw [hmb, hmain, entriesBytes_append]
      have := entriesBytes_nonneg M
      omega
    have he0 := entriesBytes_nonneg [e]
    rw [Group.evictLoop_succ] at h
    rw [if_neg (by rw [hcb]; omega)] at h
    unfold Group.evictOne Group.victim at h
    by_cases hv : s.hotCache.bytes > Int.tdiv s.mainCache.bytes 8
    · rw [if_pos hv] at h
      simp only at h
      have e1 := Group.setHot_fields s s.hotCache.removeOldest
      have hne : B ≠ s.hotCache.entries := by
        intro hEq
        have := tdiv8_mono he0 hM
        rw [hhb, ← hEq] at hv
        omega
      exact ih _ s1 M (Group.Inv_removeOldest_hot hinv) (by rw [e1.2.2.1]; exact hcb)
        (by rw [e1.1]; exact hmain)
        (by rw [e1.2.1, cache.removeOldest_entries]; exact suffix_tail_of_ne hhot hne) h
    · rw [if_neg hv] at h
      simp only at h
      have e1 := Group.setMain_fields s s.mainCache.removeOldest
      cases M with
      | nil =>
        obtain ⟨_, ⟨n, hn⟩, _⟩ := Group.evictLoop_frame fuel _ s1 h
        rw [e1.1, cache.removeOldest_entries, hmain] at hn
        rw [hn]
        simp
      | cons m M1 =>
        exact ih _ s1 M1 (Group.Inv_removeOldest_main hinv) (by rw [e1.2.2.1]; exact hcb)
          (by rw [e1.1, cache.removeOldest_entries, hmain]; rfl)
          (by rw [e1.2.1]; exact hhot) h

/-- The eviction loop changes the sub-caches only. -/
theorem Group.evictLoop_same (fuel : Nat) :
    ∀ (g g1 : Group ω ε), Group.evictLoop fuel g = some g1 →
      g1.getter = g.getter ∧ g1.peers = g.peers ∧ g1.name = g.name := by
  induction fuel with
  | zero => intro g g1 h; simp [Group.evictLoop] at h
  | succ fuel ih =>
    intro g g1 h
    unfold Group.evictLoop at h
    simp only at h
    split at h
    · simp only [Option.some.injEq] at h
      subst h
      exact ⟨rfl, rfl, rfl⟩
    · split at h
      · exact ih (g.setHot g.hotCache.removeOldest) g1 h
      · exact ih (g.setMain g.mainCache.removeOldest) g1 h

theorem entriesBytes_singleton (k b : Bytes) :
    entriesBytes [(⟨k, { data := some b, str := [] }⟩ : lru.entry Bytes ByteView)] =
      (k.length : Int) + (b.length : Int) := by
  simp [entriesBytes, ByteView.Len]

/-- The first `Get` of a key that is stored in neither sub-cache and is loaded
locally: it returns the loaded bytes, and the group it leaves is the one the
eviction loop returns on the group with the new entry in the main cache. -/
theorem Group.Get_local_ok (g : Group ω ε) (hinv : g.Inv) (hcb : 0 < g.cacheBytes) (k b : Bytes)
    (w : ω) (hpick : g.peers k = none) (hload : (g.getter k w).1 = .ok b)
    (hmain : k ∉ g.mainCache.entries.map (·.key)) (hhot : k ∉ g.hotCache.entries.map (·.key))
    (fuel draw : Nat) (hfuel : g.stored + 2 ≤ fuel) :
    ∃ g1, g.Get fuel k draw w =
        some (({ data := some b, str := [] }, none), g1, (g.getter k w).2) ∧
      Group.evictLoop fuel ((g.preLocal.count Stats.incLocalLoads).addTo .main k
        { data := some b, str := [] }) = some g1 := by
  have hf := Group.preLocal_fields g
  have hpi : (g.preLocal.count Stats.incLocalLoads).Inv := Group.Inv_count (Group.preLocal_inv hinv) _
  have hpm : k ∉ (g.preLocal.count Stats.incLocalLoads).mainCache.entries.map (·.key) := by
    rw [(Group.count_fields _ _).1, hf.1]; exact hmain
  have hph : k ∉ (g.preLocal.count Stats.incLocalLoads).hotCache.entries.map (·.key) := by
    rw [(Group.count_fields _ _).2.1, hf.2.1]; exact hhot
  have hadd := Group.Inv_addTo hpi .main k { data := some b, str := [] } hpm hph
  have hst := Group.addTo_stored (g.preLocal.count Stats.incLocalLoads) hpi.1 .main k
    { data := some b, str := [] } hpm
  have hst2 : (g.preLocal.count Stats.incLocalLoads).stored = g.stored := Group.preLocal_stored g
  obtain ⟨g1, hg1⟩ := Group.evictLoop_returns fuel
    ((g.preLocal.count Stats.incLocalLoads).addTo .main k { data := some b, str := [] })
    (by
      show 0 < (g.preLocal.count Stats.incLocalLoads).cacheBytes
      rw [(Group.count_fields _ _).2.2.1, Group.preLocal_cacheBytes]; exact hcb)
    hadd.1 hadd.2.1 hadd.2.2.1
    (by
      have := hst
      unfold Group.stored at this hst2 hfuel
      omega)
  refine ⟨g1, ?_, hg1⟩
  rw [Group.Get_eq_loadLocally g k fuel draw w hmain hhot hpick]
  unfold Group.loadLocally Group.getLocally
  rw [Group.preLocal_getter]
  cases hr : g.getter k w with
  | mk res w2 =>
    rw [hr] at hload
    simp only at hload
    subst hload
    simp only [cloneBytes]
    rw [Group.populateCache_eq, if_neg (by
      rw [(Group.count_fields _ _).2.2.1, Group.preLocal_cacheBytes]; omega), hg1]
    rfl

/-- A `Get` of a key whose entry is the newest of the main cache, on a group
with caching enabled: it returns the stored value and counts one `Get`, and
nothing else. -/
theorem Group.Get_hit_last (g : Group ω ε) (hcb : 0 < g.cacheBytes) (k : Bytes) (v : ByteView)
    (M : List (lru.entry Bytes ByteView)) (hM : k ∉ M.map (·.key))
    (hent : g.mainCache.entries = M ++ [⟨k, v⟩]) (fuel draw : Nat) (w : ω) :
    ∃ g2, g.Get fuel k draw w = some ((v, none), g2, w) ∧ g2.Stats = g.Stats.incGets := by
  have ec := Group.count_fields g Stats.incGets
  have hlook : lru.lookup (g.count Stats.incGets).mainCache.entries k = some v := by
    rw [ec.1, hent, lru.lookup_append, lookup_none_of_not_mem hM]
    simp [lru.lookup_cons]
  have hl := Group.lookupCache_hit_main (g.count Stats.incGets)
    (by rw [ec.2.2.1]; exact hcb) k v hlook
  refine ⟨_, Group.Get_hit g fuel k draw w v (by rw [hl]), ?_⟩
  rw [hl]
  simp only
  rw [(Group.setMain_fields _ _).2.2.2.1, ec.2.2.2.1]

/-- A `Get` of a key that is stored in neither sub-cache and has no remote
peer: when it returns, the loader has been called once and `Loads` has grown by
one. -/
theorem Group.Get_local_loads (g : Group ω ε) (k : Bytes) (w : ω) (hpick : g.peers k = none)
    (hmain : k ∉ g.mainCache.entries.map (·.key)) (hhot : k ∉ g.hotCache.entries.map (·.key))
    (fuel draw : Nat) (r : ByteView × Option ε) (g2 : Group ω ε) (w2 : ω)
    (h : g.Get fuel k draw w = some (r, g2, w2)) :
    w2 = (g.getter k w).2 ∧ g2.Stats.Loads = g.Stats.Loads + 1 := by
  rw [Group.Get_eq_loadLocally g k fuel draw w hmain hhot hpick] at h
  unfold Group.loadLocally Group.getLocally at h
  rw [Group.preLocal_getter] at h
  cases hr : g.getter k w with
  | mk res w1 =>
    rw [hr] at h
    cases res with
    | error err =>
      simp only [Option.some.injEq, Prod.mk.injEq] at h
      obtain ⟨_, hg, hw⟩ := h
      subst hg hw
      refine ⟨rfl, ?_⟩
      rw [(Group.count_fields _ _).2.2.2.1, Group.preLocal_Stats]
      rfl
    | ok bytes =>
      simp only [cloneBytes] at h
      cases hp : (g.preLocal.count Stats.incLocalLoads).populateCache fuel k
          { data := some bytes, str := [] } .main with
      | none => rw [hp] at h; cases h
      | some g3 =>
        rw [hp] at h
        simp only [Option.map_some', Option.some.injEq, Prod.mk.injEq] at h
        obtain ⟨_, hg, hw⟩ := h
        subst hg hw
        refine ⟨rfl, ?_⟩
        have hs : g3.Stats = (g.preLocal.count Stats.incLocalLoads).Stats := by
          rw [Group.populateCache_eq] at hp
          split at hp
          · simp only [Option.some.injEq] at hp
            rw [← hp]
          · rw [(Group.evictLoop_frame fuel _ g3 hp).1]
            rfl
        rw [hs, (Group.count_fields _ _).2.2.2.1, Group.preLocal_Stats]
        rfl

/-- C1, amended. For every group with `cacheBytes > 0` and the invariant
`Group.Inv` (the byte accounting of the two sub-caches is accurate, their LRUs
are as `cache.add` builds them and share no key, as in every state that
sequential `Get` calls reach from a new group, see `Group.runGets_inv`), whose
picker reports no remote peer for the key `k`, in which `k` is stored in
neither sub-cache, and whose loader returns the bytes `b` on `k`: the first
`Get(k)` returns a `ByteView` whose contents equal `b`, invokes the loader once
and increments `Loads` and `LocalLoads` by one each.  If
`len(k) + len(b) + bytes(T) <= cacheBytes` for every remainder `T` of the hot
cache (its entries but for some number of oldest ones, from none to all) with
`bytes(T) <= (len(k) + len(b)) / 8`, then the second `Get(k)` returns a
`ByteView` whose contents equal `b` without invoking the loader and leaves
`Loads` and `LocalLoads` unchanged.  If not, the first call has evicted the
entry of `k` again, and the second `Get(k)` invokes the loader once more and
increments `Loads`.  The bound on the eviction loop of the first call is at
least the number of stored entries plus two. -/
theorem Group.Get_twice (g : Group ω ε) (hinv : g.Inv)
    (hcb : 0 < g.cacheBytes) (k b : Bytes) (w : ω)
    (hpick : g.peers k = none) (hload : (g.getter k w).1 = .ok b)
    (hmain : k ∉ g.mainCache.entries.map (·.key)) (hhot : k ∉ g.hotCache.entries.map (·.key))
    (fuel1 fuel2 draw1 draw2 : Nat) (hfuel : g.stored + 2 ≤ fuel1) :
    ∃ v1 g1,
      g.Get fuel1 k draw1 w = some ((v1, none), g1, (g.getter k w).2) ∧
      v1.ByteSlice = b ∧
      g1.Stats.Loads = g.Stats.Loads + 1 ∧ g1.Stats.LocalLoads = g.Stats.LocalLoads + 1 ∧
      ((∀ t ∈ g.hotCache.entries.tails,
          entriesBytes t ≤ Int.tdiv ((k.length : Int) + (b.length : Int)) 8 →
          (k.length : Int) + (b.length : Int) + entriesBytes t ≤ g.cacheBytes) →
        ∃ v2 g2,
          g1.Get fuel2 k draw2 (g.getter k w).2 = some ((v2, none), g2, (g.getter k w).2) ∧
          v2.ByteSlice = b ∧
          g2.Stats.Loads = g1.Stats.Loads ∧ g2.Stats.LocalLoads = g1.Stats.LocalLoads) ∧
      ((¬ ∀ t ∈ g.hotCache.entries.tails,
          entriesBytes t ≤ Int.tdiv ((k.length : Int) + (b.length : Int)) 8 →
          (k.length : Int) + (b.length : Int) + entriesBytes t ≤ g.cacheBytes) →
        k ∉ g1.mainCache.entries.map (·.key) ∧ k ∉ g1.hotCache.entries.map (·.key) ∧
        ∀ r2 g2 w2, g1.Get fuel2 k draw2 (g.getter k w).2 = some (r2, g2, w2) →
          w2 = (g.getter k (g.getter k w).2).2 ∧ g2.Stats.Loads = g1.Stats.Loads + 1) := by
  obtain ⟨g1, hget, hloop⟩ := Group.Get_local_ok g hinv hcb k b w hpick hload hmain hhot
    fuel1 draw1 hfuel
  have hf := Group.preLocal_fields g
  have hpi : (g.preLocal.count Stats.incLocalLoads).Inv :=
    Group.Inv_count (Group.preLocal_inv hinv) _
  have hpm : k ∉ (g.preLocal.count Stats.incLocalLoads).mainCache.entries.map (·.key) := by
    rw [(Group.count_fields _ _).1, hf.1]; exact hmain
  have hph : k ∉ (g.preLocal.count Stats.incLocalLoads).hotCache.entries.map (·.key) := by
    rw [(Group.count_fields _ _).2.1, hf.2.1]; exact hhot
  have hadd := Group.Inv_addTo hpi .main k { data := some b, str := [] } hpm hph
  -- the group on which the loop starts
  have es := Group.setMain_fields (g.preLocal.count Stats.incLocalLoads)
    ((g.preLocal.count Stats.incLocalLoads).mainCache.add k { data := some b, str := [] })
  have hstart : (g.preLocal.count Stats.incLocalLoads).addTo .main k { data := some b, str := [] } =
      (g.preLocal.count Stats.incLocalLoads).setMain
        ((g.preLocal.count Stats.incLocalLoads).mainCache.add k { data := some b, str := [] }) :=
    rfl
  have hsm : ((g.preLocal.count Stats.incLocalLoads).addTo .main k
      { data := some b, str := [] }).mainCache.entries =
      g.mainCache.entries ++ [(⟨k, { data := some b, str := [] }⟩ : lru.entry Bytes ByteView)] := by
    rw [hstart, es.1, (cache.add_fresh _ hpi.1.1 k _ hpm).1, (Group.count_fields _ _).1, hf.1]
  have hsh : ((g.preLocal.count Stats.incLocalLoads).addTo .main k
      { data := some b, str := [] }).hotCache.entries = g.hotCache.entries := by
    rw [hstart, es.2.1, (Group.count_fields _ _).2.1, hf.2.1]
  have hscb : ((g.preLocal.count Stats.incLocalLoads).addTo .main k
      { data := some b, str := [] }).cacheBytes = g.cacheBytes := by
    rw [hstart, es.2.2.1, (Group.count_fields _ _).2.2.1, Group.preLocal_cacheBytes]
  have hsst : ((g.preLocal.count Stats.incLocalLoads).addTo .main k
      { data := some b, str := [] }).Stats = g.preLocal.Stats.incLocalLoads := by
    rw [hstart, es.2.2.2.1, (Group.count_fields _ _).2.2.2.1]
  -- what the loop leaves
  obtain ⟨hst, _, ⟨nh, hhe⟩⟩ := Group.evictLoop_frame fuel1 _ g1 hloop
  obtain ⟨hgetter, hpeers, _⟩ := Group.evictLoop_same fuel1 _ g1 hloop
  have hcb1 : g1.cacheBytes = g.cacheBytes := by
    rw [(Group.evictLoop_budget fuel1 _ g1 hloop).2, hscb]
  have hg1getter : g1.getter = g.getter := by
    rw [hgetter, hstart, es.2.2.2.2.1, (Group.count_fields _ _).2.2.2.2.1, Group.preLocal_getter]
  have hg1peers : g1.peers = g.peers := by
    rw [hpeers, hstart, es.2.2.2.2.2, (Group.count_fields _ _).2.2.2.2.2, Group.preLocal_peers]
  have hk1hot : k ∉ g1.hotCache.entries.map (·.key) := by
    rw [hhe, hsh]
    intro hmem
    obtain ⟨x, hx, hxk⟩ := List.mem_map.1 hmem
    exact hhot (List.mem_map.2 ⟨x, List.mem_of_mem_drop hx, hxk⟩)
  refine ⟨_, g1, hget, rfl, ?_, ?_, ?_, ?_⟩
  · rw [hst, hsst, Group.preLocal_Stats]; rfl
  · rw [hst, hsst, Group.preLocal_Stats]; rfl
  · intro hfit
    obtain ⟨n, hn, hent⟩ := Group.evictLoop_keeps_last g.hotCache.entries
      (⟨k, { data := some b, str := [] }⟩ : lru.entry Bytes ByteView) g.cacheBytes
      (by
        intro t ht hsmall
        rw [entriesBytes_singleton] at hsmall ⊢
        exact hfit t ((List.mem_tails _ _).2 ht) hsmall)
      fuel1 _ g1 g.mainCache.entries hadd hscb hsm (by rw [hsh]) hloop
    rw [List.drop_append_of_le_length hn] at hent
    obtain ⟨g2, hg2, hs2⟩ := Group.Get_hit_last g1 (by rw [hcb1]; exact hcb) k
      { data := some b, str := [] } (g.mainCache.entries.drop n)
      (by
        intro hmem
        obtain ⟨x, hx, hxk⟩ := List.mem_map.1 hmem
        exact hmain (List.mem_map.2 ⟨x, List.mem_of_mem_drop hx, hxk⟩))
      hent fuel2 draw2 (g.getter k w).2
    refine ⟨_, g2, hg2, rfl, ?_, ?_⟩
    · rw [hs2]; rfl
    · rw [hs2]; rfl
  · intro hnot
    have hbad : ∃ t, t <:+ g.hotCache.entries ∧
        entriesBytes t ≤ Int.tdiv ((k.length : Int) + (b.length : Int)) 8 ∧
        g.cacheBytes < (k.length : Int) + (b.length : Int) + entriesBytes t := by
      by_contra hno
      apply hnot
      intro t ht hsmall
      by_contra hlt
      exact hno ⟨t, (List.mem_tails _ _).1 ht, hsmall, by omega⟩
    obtain ⟨t, ht, hsmall, hover⟩ := hbad
    have hempty := Group.evictLoop_drops_last t
      (⟨k, { data := some b, str := [] }⟩ : lru.entry Bytes ByteView) g.cacheBytes
      (by rw [entriesBytes_singleton]; exact hsmall)
      (by rw [entriesBytes_singleton]; exact hover)
      fuel1 _ g1 g.mainCache.entries hadd hscb hsm (by rw [hsh]; exact ht) hloop
    have hk1main : k ∉ g1.mainCache.entries.map (·.key) := by rw [hempty]; simp
    refine ⟨hk1main, hk1hot, ?_⟩
    intro r2 g2 w2 h2
    have := Group.Get_local_loads g1 k (g.getter k w).2 (by rw [hg1peers]; exact hpick)
      hk1main hk1hot fuel2 draw2 r2 g2 w2 h2
    rw [hg1getter] at this
    exact this

/-- C1 amended, at the group with a budget of 16 bytes after a `Get` of the
key `"k"`, whose main cache holds `"k"` with the 16 bytes of the budget (the
invariant holds there as in every state that `Get` calls reach), for the key
`"c"`, on which the loader returns fifteen bytes: the first `Get("c")` evicts
`"k"` and keeps `"c"`, and the second `Get("c")` is served from the main
cache. -/
theorem Group.Get_twice_witness :
    ∃ v1 g1 v2 g2,
      group16Main.Get 3 keyC 0 1 = some ((v1, none), g1, 2) ∧
      g1.Get 0 keyC 0 2 = some ((v2, none), g2, 2) ∧
      v1.ByteSlice = bytes15 ∧ v2.ByteSlice = bytes15 ∧
      g1.Stats.Loads = group16Main.Stats.Loads + 1 ∧
      g1.Stats.LocalLoads = group16Main.Stats.LocalLoads + 1 ∧
      g2.Stats.Loads = g1.Stats.Loads ∧ g2.Stats.LocalLoads = g1.Stats.LocalLoads := by
  obtain ⟨v1, g1, h1, h2, h3, h4, hpos, _⟩ :=
    Group.Get_twice group16Main
      (Group.runGets_inv [⟨1, keyK, 0⟩] group16 0 group16Main 1
        (Group.init_inv [103] 16 countingGetter pickerA).1 rfl).1
      (by decide) keyC bytes15 1 rfl rfl (by decide) (by decide) 3 0 0 0 (by decide)
  obtain ⟨v2, g2, h5, h6, h7, h8⟩ := hpos (by decide)
  exact ⟨v1, g1, v2, g2, h1, h5, h2, h6, h3, h4, h7, h8⟩

end twice

/-! ## The group: what a sampled peer answer leaves in the hot cache -/

section sampled

variable {ω ε : Type}

/-- The eviction loop keeps the newest entry of the hot cache when that entry
fits in the budget next to every remainder of the main cache that is small
enough for the hot cache to be the victim. -/
theorem Group.evictLoop_keeps_last_hot (M : List (lru.entry Bytes ByteView))
    (e : lru.entry Bytes ByteView) (cb : Int)
    (hfit : ∀ t, t <:+ M → Int.tdiv (entriesBytes t) 8 < entriesBytes [e] →
      entriesBytes [e] + entriesBytes t ≤ cb) (fuel : Nat) :
    ∀ (s s1 : Group ω ε) (H : List (lru.entry Bytes ByteView)), s.Inv → s.cacheBytes = cb →
      s.hotCache.entries = H ++ [e] → s.mainCache.entries <:+ M →
      Group.evictLoop fuel s = some s1 →
      ∃ n, n ≤ H.length ∧ s1.hotCache.entries = (H ++ [e]).drop n := by
  induction fuel with
  | zero => intro s s1 H _ _ _ _ h; simp [Group.evictLoop] at h
  | succ fuel ih =>
    intro s s1 H hinv hcb hhot hmain h
    rw [Group.evictLoop_succ] at h
    by_cases hb : s.mainCache.bytes + s.hotCache.bytes ≤ s.cacheBytes
    · rw [if_pos hb] at h
      simp only [Option.some.injEq] at h
      subst h
      exact ⟨0, Nat.zero_le _, by rw [hhot]; rfl⟩
    · rw [if_neg hb] at h
      have hmb := cache.bytes_eq_entriesBytes _ hinv.2.1
      have hhb := cache.bytes_eq_entriesBytes _ hinv.2.2.1
      unfold Group.evictOne Group.victim at h
      by_cases hv : s.hotCache.bytes > Int.tdiv s.mainCache.bytes 8
      · rw [if_pos hv] at h
        simp only at h
        have e1 := Group.setHot_fields s s.hotCache.removeOldest
        cases H with
        | nil =>
          exfalso
          rw [hhot] at hhb
          simp only [List.nil_append] at hhb
          have := hfit _ hmain (by rw [← hhb, ← hmb]; omega)
          rw [← hhb, ← hmb, hcb.symm] at this
          omega
        | cons m H1 =>
          obtain ⟨n, hn, hs1⟩ := ih _ s1 H1 (Group.Inv_removeOldest_hot hinv)
            (by rw [e1.2.2.1]; exact hcb)
            (by rw [e1.2.1, cache.removeOldest_entries, hhot]; rfl)
            (by rw [e1.1]; exact hmain) h
          exact ⟨n + 1, by simp only [List.length_cons]; omega, by rw [hs1]; rfl⟩
      · rw [if_neg hv] at h
        simp only at h
        have e1 := Group.setMain_fields s s.mainCache.removeOldest
        exact ih _ s1 H (Group.Inv_removeOldest_main hinv) (by rw [e1.2.2.1]; exact hcb)
          (by rw [e1.2.1]; exact hhot)
          (by
            rw [e1.1, cache.removeOldest_entries]
            exact (List.tail_suffix _).trans hmain) h

/-- The eviction loop removes the newest entry of the hot cache, with all
older ones, when that entry does not fit in the budget next to a remainder of
the main cache that is small enough for the hot cache to be the victim. -/
theorem Group.evictLoop_drops_last_hot (B : List (lru.entry Bytes ByteView))
    (e : lru.entry Bytes ByteView) (cb : Int)
    (hsmall : Int.tdiv (entriesBytes B) 8 < entriesBytes [e])
    (hover : cb < entriesBytes [e] + entriesBytes B) (fuel : Nat) :
    ∀ (s s1 : Group ω ε) (H : List (lru.entry Bytes ByteView)), s.Inv → s.cacheBytes = cb →
      s.hotCache.entries = H ++ [e] → B <:+ s.mainCache.entries →
      Group.evictLoop fuel s = some s1 → s1.hotCache.entries = [] := by
  induction fuel with
  | zero => intro s s1 H _ _ _ _ h; simp [Group.evictLoop] at h
  | succ fuel ih =>
    intro s s1 H hinv hcb hhot hmain h
    have hmb := cache.bytes_eq_entriesBytes _ hinv.2.1
    have hhb := cache.bytes_eq_entriesBytes _ hinv.2.2.1
    have hB := entriesBytes_suffix hmain
    have hH : entriesBytes [e] ≤ s.hotCache.bytes := by
      rw [hhb, hhot, entriesBytes_append]
      have := entriesBytes_nonneg H
      omega
    rw [Group.evictLoop_succ] at h
    rw [if_neg (by rw [hcb]; omega)] at h
    unfold Group.evictOne Group.victim at h
    by_cases hv : s.hotCache.bytes > Int.tdiv s.mainCache.bytes 8
    · rw [if_pos hv] at h
      simp only at h
      have e1 := Group.setHot_fields s s.hotCache.removeOldest
      cases H with
      | nil =>
        obtain ⟨_, _, ⟨n, hn⟩⟩ := Group.evictLoop_frame fuel _ s1 h
        rw [e1.2.1, cache.removeOldest_entries, hhot] at hn
        rw [hn]
        simp
      | cons m H1 =>
        exact ih _ s1 H1 (Group.Inv_removeOldest_hot hinv) (by rw [e1.2.2.1]; exact hcb)
          (by rw [e1.2.1, cache.removeOldest_entries, hhot]; rfl)
          (by rw [e1.1]; exact hmain) h
    · rw [if_neg hv] at h
      simp only at h
      have e1 := Group.setMain_fields s s.mainCache.removeOldest
      have hne : B ≠ s.mainCache.entries := by
        intro hEq
        rw [hmb, ← hEq] at hv
        omega
      exact ih _ s1 H (Group.Inv_removeOldest_main hinv) (by rw [e1.2.2.1]; exact hcb)
        (by rw [e1.2.1]; exact hhot)
        (by rw [e1.1, cache.removeOldest_entries]; exact suffix_tail_of_ne hmain hne) h

/-- The eviction loop, when it returns on a group that is within its budget,
returns that group. -/
theorem Group.evictLoop_within (fuel : Nat) (s s1 : Group ω ε)
    (hb : s.mainCache.bytes + s.hotCache.bytes ≤ s.cacheBytes)
    (h : Group.evictLoop fuel s = some s1) : s1 = s := by
  cases fuel with
  | zero => simp [Group.evictLoop] at h
  | succ fuel =>
    rw [Group.evictLoop_succ, if_pos hb] at h
    simp only [Option.some.injEq] at h
    exact h.symm

theorem entriesBytes_single (k : Bytes) (v : ByteView) :
    entriesBytes [(⟨k, v⟩ : lru.entry Bytes ByteView)] = (k.length : Int) + (v.Len : Int) := by
  simp [entriesBytes]

/-- C13, amended. For every group and every key `k` stored in neither
sub-cache: if the picker returns a remote peer for `k` and that peer's `Get`
succeeds with the bytes `rv`, then `Get(k)`, when it returns, returns a
`ByteView` holding `rv` and no error, the backing loader is not invoked (the
outside world is as the peer call left it, and the local-load counters are
unchanged), `PeerLoads` is incremented by one, and the main cache gains no
entry: it keeps its entries, but for oldest ones that the budget eviction of
`populateCache` removes when the draw is 0.  When the draw is not 0, or
`cacheBytes <= 0`, neither sub-cache changes its entries.  When the draw is 0
and `cacheBytes > 0`, `populateCache` pushes `k` with the returned view as the
most recent entry of the hot cache, after which the budget eviction may remove
oldest entries of either sub-cache; it removes none when
`main.bytes + hot.bytes + len(k) + len(rv) <= cacheBytes`; and, with accurate
byte accounting, the hot cache still holds `k` after the call exactly when
`len(k) + len(rv) + bytes(T) <= cacheBytes` for every remainder `T` of the main
cache (its entries but for some number of oldest ones, from none to all) with
`bytes(T) / 8 < len(k) + len(rv)`; otherwise the loop empties the hot cache.
`Get(k)` does return when the draw is not 0, when caching is disabled, or when
the byte accounting is accurate and the bound on the eviction loop is at least
the number of stored entries plus two. -/
theorem Group.Get_peer_success (g : Group ω ε) (k : Bytes) (peer : ProtoGetter ω ε)
    (rv : Option Bytes) (w : ω) (fuel draw : Nat)
    (hmain : k ∉ g.mainCache.entries.map (·.key)) (hhot : k ∉ g.hotCache.entries.map (·.key))
    (hpick : g.peers k = some peer) (hpeer : (peer g.name k w).1 = .ok rv) :
    (∀ v1 e1 g1 w1, g.Get fuel k draw w = some ((v1, e1), g1, w1) →
        v1 = { data := rv, str := [] } ∧ e1 = none ∧ w1 = (peer g.name k w).2 ∧
        g1.Stats.PeerLoads = g.Stats.PeerLoads + 1 ∧
        g1.Stats.LocalLoads = g.Stats.LocalLoads ∧
        g1.Stats.LocalLoadErrs = g.Stats.LocalLoadErrs ∧
        (∃ n, g1.mainCache.entries = g.mainCache.entries.drop n) ∧
        (draw ≠ 0 → g1.mainCache.entries = g.mainCache.entries ∧
          g1.hotCache.entries = g.hotCache.entries) ∧
        (draw = 0 → g.cacheBytes ≤ 0 → g1.mainCache.entries = g.mainCache.entries ∧
          g1.hotCache.entries = g.hotCache.entries) ∧
        (draw = 0 → 0 < g.cacheBytes → g.WF →
          (∃ m, g1.hotCache.entries =
            (g.hotCache.entries ++
              [(⟨k, { data := rv, str := [] }⟩ : lru.entry Bytes ByteView)]).drop m) ∧
          (g.mainCache.bytes + g.hotCache.bytes +
              entriesBytes [(⟨k, { data := rv, str := [] }⟩ : lru.entry Bytes ByteView)] ≤
              g.cacheBytes →
            g1.mainCache.entries = g.mainCache.entries ∧
            g1.hotCache.entries = g.hotCache.entries ++
              [(⟨k, { data := rv, str := [] }⟩ : lru.entry Bytes ByteView)])) ∧
        (draw = 0 → 0 < g.cacheBytes → g.Inv →
          ((∀ t ∈ g.mainCache.entries.tails,
              Int.tdiv (entriesBytes t) 8 <
                entriesBytes [(⟨k, { data := rv, str := [] }⟩ : lru.entry Bytes ByteView)] →
              entriesBytes [(⟨k, { data := rv, str := [] }⟩ : lru.entry Bytes ByteView)] +
                entriesBytes t ≤ g.cacheBytes) →
            ∃ m, m ≤ g.hotCache.entries.length ∧
              g1.hotCache.entries = g.hotCache.entries.drop m ++
                [(⟨k, { data := rv, str := [] }⟩ : lru.entry Bytes ByteView)]) ∧
          ((¬ ∀ t ∈ g.mainCache.entries.tails,
              Int.tdiv (entriesBytes t) 8 <
                entriesBytes [(⟨k, { data := rv, str := [] }⟩ : lru.entry Bytes ByteView)] →
              entriesBytes [(⟨k, { data := rv, str := [] }⟩ : lru.entry Bytes ByteView)] +
                entriesBytes t ≤ g.cacheBytes) →
            g1.hotCache.entries = []))) ∧
      ((draw ≠ 0 ∨ g.cacheBytes ≤ 0 ∨
          (g.WF ∧ g.mainCache.Accurate ∧ g.hotCache.Accurate ∧
            g.mainCache.entries.length + g.hotCache.entries.length + 2 ≤ fuel)) →
        ∃ r, g.Get fuel k draw w = some r) := by
  have hf := Group.preLocal_fields g
  have hpair : peer g.name k w = (.ok rv, (peer g.name k w).2) := by
    cases hr : peer g.name k w with
    | mk res w2 => rw [hr] at hpeer; simp only at hpeer; rw [hpeer]
  rw [Group.Get_eq_peer_ok g k fuel draw w peer rv _ hmain hhot hpick hpair]
  refine ⟨?_, ?_⟩
  · intro v1 e1 g1 w1 h
    by_cases hd : draw = 0
    · rw [if_pos hd] at h
      cases hpop : g.preLocal.populateCache fuel k { data := rv, str := [] } .hot with
      | none => rw [hpop] at h; cases h
      | some g3 =>
        rw [hpop] at h
        simp only [Option.map_some', Option.some.injEq, Prod.mk.injEq] at h
        obtain ⟨⟨hv, he⟩, hg, hw⟩ := h
        obtain ⟨hs, n, hn⟩ := Group.populateCache_hot_frame g.preLocal g3 fuel k _ hpop
        have ec := Group.count_fields g3 Stats.incPeerLoads
        subst hv he hg hw
        have hph : k ∉ g.preLocal.hotCache.entries.map (·.key) := by rw [hf.2.1]; exact hhot
        have hpm : k ∉ g.preLocal.mainCache.entries.map (·.key) := by rw [hf.1]; exact hmain
        have es := Group.setHot_fields g.preLocal
          (g.preLocal.hotCache.add k { data := rv, str := [] })
        have hstart : g.preLocal.addTo .hot k { data := rv, str := [] } =
            g.preLocal.setHot (g.preLocal.hotCache.add k { data := rv, str := [] }) := rfl
        refine ⟨rfl, rfl, rfl, ?_, ?_, ?_, ⟨n, ?_⟩, fun h0 => absurd hd h0, ?_, ?_, ?_⟩
        · rw [ec.2.2.2.1, hs, Group.preLocal_Stats]; rfl
        · rw [ec.2.2.2.1, hs, Group.preLocal_Stats]; rfl
        · rw [ec.2.2.2.1, hs, Group.preLocal_Stats]; rfl
        · rw [ec.1, hn, hf.1]
        · intro _ hcb
          rw [Group.populateCache_disabled g.preLocal
            (by rw [Group.preLocal_cacheBytes]; exact hcb)] at hpop
          simp only [Option.some.injEq] at hpop
          rw [ec.1, ec.2.1, ← hpop, hf.1, hf.2.1]
          exact ⟨rfl, rfl⟩
        · intro _ hcb hwf
          have hwf1 := hf.2.2.2.2 hwf
          obtain ⟨a1, a2, _⟩ := cache.add_fresh g.preLocal.hotCache hwf1.2 k
            { data := rv, str := [] } hph
          rw [Group.populateCache_eq, if_neg (by rw [Group.preLocal_cacheBytes]; omega)] at hpop
          refine ⟨?_, ?_⟩
          · obtain ⟨_, _, ⟨m, hm⟩⟩ := Group.evictLoop_frame fuel _ g3 hpop
            refine ⟨m, ?_⟩
            rw [ec.2.1, hm, hstart, es.2.1, a1, hf.2.1]
          · intro hroom
            have := Group.evictLoop_within fuel _ g3 (by
              rw [hstart, es.1, es.2.1, es.2.2.1, Group.preLocal_cacheBytes]
              unfold cache.bytes at hroom ⊢
              rw [a2, hf.2.2.1, hf.2.2.2.1]
              rw [entriesBytes_single] at hroom
              omega) hpop
            rw [ec.1, ec.2.1, this, hstart, es.1, es.2.1, a1, hf.1, hf.2.1]
            exact ⟨rfl, rfl⟩
        · intro _ hcb hinv
          have hpi := Group.preLocal_inv hinv
          have hadd := Group.Inv_addTo hpi .hot k { data := rv, str := [] } hpm hph
          obtain ⟨a1, _, _⟩ := cache.add_fresh g.preLocal.hotCache hpi.1.2 k
            { data := rv, str := [] } hph
          rw [Group.populateCache_eq, if_neg (by rw [Group.preLocal_cacheBytes]; omega)] at hpop
          have hsh : (g.preLocal.addTo .hot k { data := rv, str := [] }).hotCache.entries =
              g.hotCache.entries ++
                [(⟨k, { data := rv, str := [] }⟩ : lru.entry Bytes ByteView)] := by
            rw [hstart, es.2.1, a1, hf.2.1]
          have hsm : (g.preLocal.addTo .hot k { data := rv, str := [] }).mainCache.entries =
              g.mainCache.entries := by
            rw [hstart, es.1, hf.1]
          have hscb : (g.preLocal.addTo .hot k { data := rv, str := [] }).cacheBytes =
              g.cacheBytes := by
            rw [hstart, es.2.2.1, Group.preLocal_cacheBytes]
          refine ⟨?_, ?_⟩
          · intro hfit
            obtain ⟨m, hm, hent⟩ := Group.evictLoop_keeps_last_hot g.mainCache.entries
              (⟨k, { data := rv, str := [] }⟩ : lru.entry Bytes ByteView) g.cacheBytes
              (fun t ht hsmall => hfit t ((List.mem_tails _ _).2 ht) hsmall)
              fuel _ g3 g.hotCache.entries hadd hscb hsh (by rw [hsm]) hpop
            rw [List.drop_append_of_le_length hm] at hent
            exact ⟨m, hm, by rw [ec.2.1, hent]⟩
          · intro hnot
            have hbad : ∃ t, t <:+ g.mainCache.entries ∧
                Int.tdiv (entriesBytes t) 8 <
                  entriesBytes [(⟨k, { data := rv, str := [] }⟩ : lru.entry Bytes ByteView)] ∧
                g.cacheBytes <
                  entriesBytes [(⟨k, { data := rv, str := [] }⟩ : lru.entry Bytes ByteView)] +
                    entriesBytes t := by
              by_contra hno
              apply hnot
              intro t ht hsmall
              by_contra hlt
              exact hno ⟨t, (List.mem_tails _ _).1 ht, hsmall, by omega⟩
            obtain ⟨t, ht, hsmall, hover⟩ := hbad
            have := Group.evictLoop_drops_last_hot t
              (⟨k, { data := rv, str := [] }⟩ : lru.entry Bytes ByteView) g.cacheBytes
              hsmall hover fuel _ g3 g.hotCache.entries hadd hscb hsh (by rw [hsm]; exact ht)
              hpop
            rw [ec.2.1, this]
    · rw [if_neg hd] at h
      simp only [Option.map_some', Option.some.injEq, Prod.mk.injEq] at h
      obtain ⟨⟨hv, he⟩, hg, hw⟩ := h
      have ec := Group.count_fields g.preLocal Stats.incPeerLoads
      subst hv he hg hw
      refine ⟨rfl, rfl, rfl, ?_, ?_, ?_, ⟨0, ?_⟩, fun _ => ⟨?_, ?_⟩,
        fun h0 => absurd h0 hd, fun h0 => absurd h0 hd, fun h0 => absurd h0 hd⟩
      · rw [ec.2.2.2.1, Group.preLocal_Stats]; rfl
      · rw [ec.2.2.2.1, Group.preLocal_Stats]; rfl
      · rw [ec.2.2.2.1, Group.preLocal_Stats]; rfl
      · rw [ec.1, hf.1]; rfl
      · rw [ec.1, hf.1]
      · rw [ec.2.1, hf.2.1]
  · intro h
    by_cases hd : draw = 0
    · rw [if_pos hd]
      have hret : ∃ g3, g.preLocal.populateCache fuel k { data := rv, str := [] } .hot =
          some g3 := by
        rcases h with h | h | ⟨hwf, hm, hh, hfuel⟩
        · exact absurd hd h
        · exact ⟨_, Group.populateCache_disabled g.preLocal
            (by rw [Group.preLocal_cacheBytes]; exact h) fuel k _ .hot⟩
        · obtain ⟨am, ah⟩ := Group.preLocal_accurate g hm hh
          exact Group.populateCache_returns g.preLocal (hf.2.2.2.2 hwf) am ah k _ .hot
            (by show k ∉ g.preLocal.hotCache.entries.map (·.key); rw [hf.2.1]; exact hhot)
            fuel (by rw [hf.1, hf.2.1]; exact hfuel)
      obtain ⟨g3, hg3⟩ := hret
      rw [hg3]
      exact ⟨_, rfl⟩
    · rw [if_neg hd]
      exact ⟨_, rfl⟩

/-- C13 amended, at a new group with a budget of 16 bytes, for the key `"a"`,
which the picker routes to a peer that answers with one byte, with the draw 0:
`Get("a")` returns the byte, counts one peer load, leaves the main cache empty
and stores `"a"` in the hot cache. -/
theorem Group.Get_peer_success_witness :
    ∃ g1, group16.Get 3 keyA 0 0 = some ((viewX, none), g1, 0) ∧
      g1.Stats.PeerLoads = group16.Stats.PeerLoads + 1 ∧
      g1.mainCache.entries = group16.mainCache.entries ∧
      g1.hotCache.entries = group16.hotCache.entries ++ [⟨keyA, viewX⟩] := by
  obtain ⟨⟨⟨v1, e1⟩, g1, w1⟩, hr⟩ :=
    (Group.Get_peer_success group16 keyA peerX (some [120]) 0 3 0 (by decide) (by decide) rfl
      rfl).2 (Or.inr (Or.inr ⟨⟨cache.zero_WF, cache.zero_WF⟩, by decide, by decide, by decide⟩))
  obtain ⟨h1, h2, h3, h4, _, _, _, _, _, h10, _⟩ :=
    (Group.Get_peer_success group16 keyA peerX (some [120]) 0 3 0 (by decide) (by decide) rfl
      rfl).1 v1 e1 g1 w1 hr
  subst h1 h2 h3
  exact ⟨g1, hr, h4, (h10 rfl (by decide) ⟨cache.zero_WF, cache.zero_WF⟩).2 (by decide)⟩

end sampled

end DailzCache
